import Mathlib

/-!
# PackStream codec of `neo4j-simple-go-driver`

A shallow embedding of `packstream.go` (the `Send*` encoders and the `Receive`
decoder) together with the part of Go's standard library the code and its tests
rely on (`bytes.Buffer`, `encoding/binary.BigEndian`).

Conventions of the embedding

* a Go `byte` is a `Fin 256`; a Go `string` / `[]byte` is a `List Byte`;
* Go's `int` is taken to be 64 bits wide; signed machine integers are `Int`s,
  unsigned ones `Nat`s, and every conversion between widths is an explicit
  reduction modulo `2 ^ w`;
* a Go `map[string]interface{}` is an association list; the order of the list is
  the order in which `range` visits the entries, and inserting into a map
  (`mapInsert`) overwrites the entry of an existing key;
* `io.Writer` is a state-passing record; the reader of `Receive` is the list of
  bytes still unread in a `bytes.Buffer`.
-/

namespace PackStream

/-! ## Data model -/

/-- A Go `byte`. -/
abbrev Byte := Fin 256

/-- The Go `error` values that can come out of the codec. -/
inductive Error where
  /-- The error `io.EOF`. -/
  | EOF
  /-- The error `fmt.Errorf("unexpected PackStream type: 0x%02x", header[0])`. -/
  | unexpectedType (header : Byte)
  /-- The error `fmt.Errorf("unsupported PackStream value type: %T", value)`. -/
  | unsupportedValueType
  /-- Any other error, returned by a writer. -/
  | other (code : Nat)
deriving DecidableEq, Repr

/-- A Go `interface{}` value, by dynamic type. -/
inductive Value where
  /-- The untyped `nil`. -/
  | nil
  /-- A `bool`. -/
  | bool (b : Bool)
  /-- An `int`. -/
  | int (i : Int)
  /-- An `int64`. -/
  | int64 (i : Int)
  /-- A `string`, as its bytes. -/
  | string (s : List Byte)
  /-- A non-nil `map[string]interface{}`, entries in the order `range` visits them. -/
  | map (entries : List (List Byte × Value))
  /-- The nil `map[string]interface{}`. -/
  | nilMap
  /-- A value of any other dynamic type (a `float64`, a slice, ...). -/
  | unsupported (tag : Nat)

/-- Go's `dictionary[key] = value` on the association list of a map. -/
def mapInsert (dictionary : List (List Byte × Value)) (key : List Byte) (value : Value) :
    List (List Byte × Value) :=
  match dictionary with
  | [] => [(key, value)]
  | (k, v) :: rest =>
    if k = key then (key, value) :: rest else (k, v) :: mapInsert rest key value

/-! ## Integer conversions -/

/-- Go's conversion `byte(x)`: the low 8 bits of the two's-complement pattern `x`. -/
def byte (x : Nat) : Byte := ⟨x % 256, Nat.mod_lt x (by decide)⟩

/-- Go's conversion `uint16(i)` of a signed integer. -/
def uint16 (i : Int) : Nat := (i % 65536).toNat

/-- Go's conversion `uint32(i)` of a signed integer. -/
def uint32 (i : Int) : Nat := (i % 4294967296).toNat

/-- Go's conversion `uint64(i)` of a signed integer: its two's-complement pattern. -/
def uint64 (i : Int) : Nat := (i % 18446744073709551616).toNat

/-- Go's conversion `int8(x)`: the low 8 bits of `x`, read as a signed number. -/
def int8 (x : Int) : Int := if x % 256 < 128 then x % 256 else x % 256 - 256

/-- Go's conversion `int16(x)`. -/
def int16 (x : Int) : Int := if x % 65536 < 32768 then x % 65536 else x % 65536 - 65536

/-- Go's conversion `int32(x)`. -/
def int32 (x : Int) : Int :=
  if x % 4294967296 < 2147483648 then x % 4294967296 else x % 4294967296 - 4294967296

/-- Go's conversion `int64(x)` of a 64-bit pattern. -/
def int64 (x : Int) : Int :=
  if x % 18446744073709551616 < 9223372036854775808 then x % 18446744073709551616
  else x % 18446744073709551616 - 18446744073709551616

/-- The function `binary.BigEndian.PutUint16` on a fresh 2-byte slice. -/
def PutUint16 (v : Nat) : List Byte := [byte (v >>> 8), byte v]

/-- The function `binary.BigEndian.PutUint32` on a fresh 4-byte slice. -/
def PutUint32 (v : Nat) : List Byte := [byte (v >>> 24), byte (v >>> 16), byte (v >>> 8), byte v]

/-- The function `binary.BigEndian.PutUint64` on a fresh 8-byte slice. -/
def PutUint64 (v : Nat) : List Byte :=
  [byte (v >>> 56), byte (v >>> 48), byte (v >>> 40), byte (v >>> 32),
   byte (v >>> 24), byte (v >>> 16), byte (v >>> 8), byte v]

/-! ## Writers and the in-memory buffer -/

/-- An `io.Writer` with state `σ`: `Write` returns the new state and the error; the
byte count it also returns is dropped by every caller in `packstream.go`. -/
structure Writer (σ : Type) where
  /-- The method `Write(p)`. -/
  Write : σ → List Byte → σ × Option Error

/-- The writer side of a `bytes.Buffer`: the state is the unread content, `Write`
appends to it and never fails. -/
def bytesBuffer : Writer (List Byte) where
  Write := fun s p => (s ++ p, none)

/-- Go's `make([]byte, size)`. -/
def make (size : Nat) : List Byte := List.replicate size 0

/-- The method `Read(p)` of a `bytes.Buffer` whose unread content is `r`: on an empty
buffer it returns `io.EOF` (no error when `len(p) == 0`); otherwise it copies
`min(len(p), len(r))` bytes into the front of `p`, with no error even when that is fewer
than `len(p)`. The result is the slice `p` after the call, the error, and the content
left unread. The byte count is dropped by every caller in `packstream.go`. -/
def Read (r : List Byte) (p : List Byte) : List Byte × Option Error × List Byte :=
  if r.isEmpty then
    if p.isEmpty then (p, none, r) else (p, some Error.EOF, r)
  else (r.take p.length ++ p.drop r.length, none, r.drop p.length)

/-! ## Encoder -/

section Encoder

variable {σ : Type}

/-- The method `packStream.SendNull`. -/
def SendNull (w : Writer σ) (s : σ) : σ × Option Error :=
  w.Write s [0xC0]

/-- The method `packStream.SendBoolean`. -/
def SendBoolean (w : Writer σ) (s : σ) (b : Bool) : σ × Option Error :=
  if b then w.Write s [0xC3] else w.Write s [0xC2]

/-- The method `packStream.SendInt`. -/
def SendInt (w : Writer σ) (s : σ) (i : Int) : σ × Option Error :=
  if -0x10 ≤ i ∧ i < 0x80 then
    w.Write s [byte (uint64 i)]
  else if -0x80 ≤ i ∧ i < -0x10 then
    w.Write s [0xC8, byte (uint64 i)]
  else if -0x8000 ≤ i ∧ i < 0x8000 then
    w.Write s (0xC9 :: PutUint16 (uint16 i))
  else if -0x80000000 ≤ i ∧ i < 0x80000000 then
    w.Write s (0xCA :: PutUint32 (uint32 i))
  else
    w.Write s (0xCB :: PutUint64 (uint64 i))

/-- The method `packStream.SendString`. -/
def SendString (w : Writer σ) (s : σ) (value : List Byte) : σ × Option Error :=
  let length := value.length
  let header : List Byte :=
    if length ≤ 15 then [byte (0x80 ||| length)]
    else if length ≤ 255 then [0xD0, byte length]
    else if length ≤ 65535 then [0xD1] ++ PutUint16 (uint16 length)
    else [0xD2] ++ PutUint32 (uint32 length)
  w.Write s (header ++ value)

/-- The method `packStream.sendDictionaryMarker`. -/
def sendDictionaryMarker (w : Writer σ) (s : σ) (size : Nat) : σ × Option Error :=
  let marker : List Byte :=
    if size ≤ 15 then [byte (0xA0 ||| size)]
    else if size ≤ 255 then [0xD8, byte size]
    else if size ≤ 65535 then [0xD9] ++ PutUint16 (uint16 size)
    else [0xDA] ++ PutUint32 (uint32 size)
  w.Write s marker

mutual
/-- The method `packStream.SendValue`. The `map` case is the body of `SendDictionary`, written out
so that the recursion is structural. -/
def SendValue (w : Writer σ) : σ → Value → σ × Option Error
  | s, .nil => SendNull w s
  | s, .bool v => SendBoolean w s v
  | s, .int v => SendInt w s v
  | s, .int64 v => SendInt w s v
  | s, .string v => SendString w s v
  | s, .map v =>
    match sendDictionaryMarker w s v.length with
    | (s1, some err) => (s1, some err)
    | (s1, none) => sendEntries w s1 v
  | s, .nilMap =>
    match sendDictionaryMarker w s 0 with
    | (s1, some err) => (s1, some err)
    | (s1, none) => (s1, none)
  | s, .unsupported _ => (s, some Error.unsupportedValueType)
/-- The loop `for key, value := range values` of `packStream.SendDictionary`. -/
def sendEntries (w : Writer σ) : σ → List (List Byte × Value) → σ × Option Error
  | s, [] => (s, none)
  | s, (key, value) :: rest =>
    match SendString w s key with
    | (s1, some err) => (s1, some err)
    | (s1, none) =>
      match SendValue w s1 value with
      | (s2, some err) => (s2, some err)
      | (s2, none) => sendEntries w s2 rest
end

/-- The method `packStream.SendDictionary`. -/
def SendDictionary (w : Writer σ) (s : σ) (values : List (List Byte × Value)) :
    σ × Option Error :=
  match sendDictionaryMarker w s values.length with
  | (s1, some err) => (s1, some err)
  | (s1, none) => sendEntries w s1 values

end Encoder

/-! ## Decoder -/

/-- What a call of `Receive` (or of one of its helpers returning a value) does: it
returns a value and an error and leaves `rest` unread, or it panics. `outOfFuel` is an
artefact of the embedding (the recursion of `ReceiveFuel` is cut at a given depth). -/
inductive Outcome where
  /-- The call returns `(value, err)`. -/
  | ret (value : Value) (err : Option Error) (rest : List Byte)
  /-- The call panics. -/
  | panic
  /-- The depth bound of the embedding was reached. -/
  | outOfFuel

/-- The method `packStream.readInteger`. The accumulator `value` is kept as its 64-bit
two's-complement pattern: `<< 8` drops the bits above bit 63 and `|` is bitwise. -/
def readInteger (size : Nat) (r : List Byte) : Int × Option Error × List Byte :=
  match Read r (make size) with
  | (_, some err, r1) => (0, some err, r1)
  | (buf, none, r1) =>
    let bits : Nat :=
      buf.foldl (fun value b => ((value <<< 8) % 18446744073709551616) ||| b.val) 0
    (int64 bits, none, r1)

/-- The method `packStream.readString`. -/
def readString (length : Nat) (r : List Byte) : List Byte × Option Error × List Byte :=
  match Read r (make length) with
  | (_, some err, r1) => ([], some err, r1)
  | (buf, none, r1) => (buf, none, r1)

/-- The loop of `packStream.readDictionary`, with `n` iterations left; `recv` is the
recursive call `ps.Receive()`. The type assertion `key.(string)` panics on a key that is
not a string. -/
def readDictionaryLoop (recv : List Byte → Outcome) :
    Nat → List Byte → List (List Byte × Value) → Outcome
  | 0, r, dictionary => Outcome.ret (Value.map dictionary) none r
  | n + 1, r, dictionary =>
    match recv r with
    | Outcome.ret _ (some err) r1 => Outcome.ret Value.nilMap (some err) r1
    | Outcome.ret key none r1 =>
      match recv r1 with
      | Outcome.ret _ (some err) r2 => Outcome.ret Value.nilMap (some err) r2
      | Outcome.ret value none r2 =>
        match key with
        | Value.string k => readDictionaryLoop recv n r2 (mapInsert dictionary k value)
        | _ => Outcome.panic
      | Outcome.panic => Outcome.panic
      | Outcome.outOfFuel => Outcome.outOfFuel
    | Outcome.panic => Outcome.panic
    | Outcome.outOfFuel => Outcome.outOfFuel

/-- The method `packStream.readDictionary`. -/
def readDictionary (recv : List Byte → Outcome) (size : Nat) (r : List Byte) : Outcome :=
  readDictionaryLoop recv size r []

/-- The method `packStream.Receive` on a `bytes.Buffer` with unread content `r`, with the nesting
of recursive calls cut at depth `fuel`. -/
def ReceiveFuel : Nat → List Byte → Outcome
  | 0, _ => Outcome.outOfFuel
  | fuel + 1, r =>
    match Read r (make 1) with
    | (_, some err, r1) => Outcome.ret Value.nil (some err) r1
    | (header, none, r1) =>
      let h : Nat := (header.headD 0).val
      if h = 0xC0 then Outcome.ret Value.nil none r1
      else if h = 0xC2 then Outcome.ret (Value.bool false) none r1
      else if h = 0xC3 then Outcome.ret (Value.bool true) none r1
      else if h >>> 4 ≥ 0xF ∨ h >>> 4 ≤ 0x7 then Outcome.ret (Value.int64 (int8 h)) none r1
      else if h = 0xC8 then
        match readInteger 1 r1 with
        | (value, err, r2) => Outcome.ret (Value.int64 (int8 value)) err r2
      else if h = 0xC9 then
        match readInteger 2 r1 with
        | (value, err, r2) => Outcome.ret (Value.int64 (int16 value)) err r2
      else if h = 0xCA then
        match readInteger 4 r1 with
        | (value, err, r2) => Outcome.ret (Value.int64 (int32 value)) err r2
      else if h = 0xCB then
        match readInteger 8 r1 with
        | (value, err, r2) => Outcome.ret (Value.int64 value) err r2
      else if h >>> 4 = 0x8 then
        match readString (0x80 ^^^ h) r1 with
        | (str, err, r2) => Outcome.ret (Value.string str) err r2
      else if h = 0xD0 then
        match readInteger 1 r1 with
        | (length, _, r2) =>
          match readString length.toNat r2 with
          | (str, err, r3) => Outcome.ret (Value.string str) err r3
      else if h = 0xD1 then
        match readInteger 2 r1 with
        | (length, _, r2) =>
          match readString length.toNat r2 with
          | (str, err, r3) => Outcome.ret (Value.string str) err r3
      else if h = 0xD2 then
        match readInteger 4 r1 with
        | (length, _, r2) =>
          match readString length.toNat r2 with
          | (str, err, r3) => Outcome.ret (Value.string str) err r3
      else if h >>> 4 = 0xA then readDictionary (ReceiveFuel fuel) (0xA0 ^^^ h) r1
      else if h = 0xD8 then
        match readInteger 1 r1 with
        | (size, _, r2) => readDictionary (ReceiveFuel fuel) size.toNat r2
      else if h = 0xD9 then
        match readInteger 2 r1 with
        | (size, _, r2) => readDictionary (ReceiveFuel fuel) size.toNat r2
      else if h = 0xDA then
        match readInteger 4 r1 with
        | (size, _, r2) => readDictionary (ReceiveFuel fuel) size.toNat r2
      else Outcome.ret Value.nil (some (Error.unexpectedType (header.headD 0))) r1

/-- The method `packStream.Receive` on a `bytes.Buffer` with unread content `r`. Every nested call
starts by consuming one byte, so the nesting cannot be deeper than `r.length`. -/
def Receive (r : List Byte) : Outcome := ReceiveFuel (r.length + 1) r


/-! ## Vocabulary of the specification -/

/-- The `k`-byte big-endian representation of `n` (of `n` modulo `256 ^ k`), most
significant byte first. -/
def bigEndian : Nat → Nat → List Byte
  | 0, _ => []
  | k + 1, n => bigEndian k (n / 256) ++ [byte (n % 256)]

/-- The `k`-byte big-endian two's-complement representation of the signed integer `i`. -/
def twosComplement (k : Nat) (i : Int) : List Byte := bigEndian k (i % 256 ^ k).toNat

/-- The five integer encodings of the format: a tiny single byte, `0xC8` and 1 byte,
`0xC9` and 2 bytes, `0xCA` and 4 bytes, `0xCB` and 8 bytes. -/
def integerEncoding : List Byte → Bool
  | [m] => decide (m.val ≤ 0x7F ∨ 0xF0 ≤ m.val)
  | [m, _] => decide (m.val = 0xC8)
  | [m, _, _] => decide (m.val = 0xC9)
  | [m, _, _, _, _] => decide (m.val = 0xCA)
  | [m, _, _, _, _, _, _, _, _] => decide (m.val = 0xCB)
  | _ => false

/-- The payload width, in bytes, of the narrowest of the classes tiny `[-16, 127]`
(width 0), 8-bit, 16-bit, 32-bit and 64-bit whose signed range contains `i`. -/
def narrowestWidth (i : Int) : Nat :=
  if -16 ≤ i ∧ i ≤ 127 then 0
  else if -128 ≤ i ∧ i ≤ 127 then 1
  else if -32768 ≤ i ∧ i ≤ 32767 then 2
  else if -2147483648 ≤ i ∧ i ≤ 2147483647 then 4
  else 8

/-- The encoding of `i` in the class of payload width `k`: the value itself as one byte
for the tiny class, otherwise the marker of the class and `k` big-endian bytes. -/
def classEncoding (k : Nat) (i : Int) : List Byte :=
  if k = 0 then twosComplement 1 i
  else if k = 1 then 0xC8 :: twosComplement 1 i
  else if k = 2 then 0xC9 :: twosComplement 2 i
  else if k = 4 then 0xCA :: twosComplement 4 i
  else 0xCB :: twosComplement 8 i

mutual
/-- The values of the round-trip property: built from `nil`, `bool`, `int64` (in range),
strings shorter than `2 ^ 32` bytes, and maps of fewer than `2 ^ 32` entries with unique
keys whose keys and values are again such values. -/
def Value.wellFormed : Value → Bool
  | .nil => true
  | .bool _ => true
  | .int _ => false
  | .int64 i => decide (-9223372036854775808 ≤ i ∧ i < 9223372036854775808)
  | .string s => decide (s.length < 4294967296)
  | .map entries =>
    decide (entries.length < 4294967296) && decide ((entries.map Prod.fst).Nodup)
      && entriesWellFormed entries
  | .nilMap => false
  | .unsupported _ => false
/-- Every key is shorter than `2 ^ 32` bytes and every value is well formed. -/
def entriesWellFormed : List (List Byte × Value) → Bool
  | [] => true
  | (key, value) :: rest =>
    decide (key.length < 4294967296) && value.wellFormed && entriesWellFormed rest
end

mutual
/-- The dynamic type of the value is one of `nil`, `bool`, `int`, `int64`, `string`,
`map[string]interface{}`, and so are the values it contains. -/
def Value.encodable : Value → Bool
  | .nil => true
  | .bool _ => true
  | .int _ => true
  | .int64 _ => true
  | .string _ => true
  | .map entries => entriesEncodable entries
  | .nilMap => true
  | .unsupported _ => false
/-- Every value of the entries is encodable. -/
def entriesEncodable : List (List Byte × Value) → Bool
  | [] => true
  | (_, value) :: rest => value.encodable && entriesEncodable rest
end

/-- The size marker of a map of `n` entries, as the specification gives it. -/
def sizeMarker (n : Nat) : List Byte :=
  if n ≤ 15 then [byte (0xA0 ||| n)]
  else if n ≤ 255 then [0xD8, byte n]
  else if n ≤ 65535 then 0xD9 :: bigEndian 2 n
  else 0xDA :: bigEndian 4 n

/-- The header of a text of `n` bytes, as the specification gives it. -/
def textHeader (n : Nat) : List Byte :=
  if n ≤ 15 then [byte (0x80 ||| n)]
  else if n ≤ 255 then [0xD0, byte n]
  else if n ≤ 65535 then 0xD1 :: bigEndian 2 n
  else 0xD2 :: bigEndian 4 n

/-- The value of the bytes `bs` read as a big-endian unsigned number. -/
def bigEndianValue (bs : List Byte) : Nat := bs.foldl (fun acc b => acc * 256 + b.val) 0

/-- The value of the bytes `bs` read as a big-endian two's-complement number of
`8 * bs.length` bits, as a (sign-extended) integer. -/
def signedBigEndian (bs : List Byte) : Int :=
  if 2 * bigEndianValue bs < 256 ^ bs.length then (bigEndianValue bs : Int)
  else (bigEndianValue bs : Int) - ((256 ^ bs.length : Nat) : Int)

/-- The marker bytes outside the marker table of the format: `0x90`–`0x9F`, `0xB0`–`0xBF`,
`0xC1`, `0xC4`–`0xC7`, `0xCC`–`0xCF`, `0xD3`–`0xD7` and `0xDB`–`0xEF`. -/
def unknownMarker (m : Byte) : Bool :=
  decide ((0x90 ≤ m.val ∧ m.val ≤ 0x9F) ∨ (0xB0 ≤ m.val ∧ m.val ≤ 0xBF) ∨ m.val = 0xC1
    ∨ (0xC4 ≤ m.val ∧ m.val ≤ 0xC7) ∨ (0xCC ≤ m.val ∧ m.val ≤ 0xCF)
    ∨ (0xD3 ≤ m.val ∧ m.val ≤ 0xD7) ∨ (0xDB ≤ m.val ∧ m.val ≤ 0xEF))

/-! ## Vocabulary for the decoder's runs and for sinks -/

/-- A decoder never gives back more bytes than it was given. -/
def NonIncreasing (recv : List Byte → Outcome) : Prop :=
  ∀ r v e rest, recv r = Outcome.ret v e rest → rest.length ≤ r.length

/-- The number of entries that the map marker at the head of an input declares:
`marker & 0x0F` for `0xA0`–`0xAF`, the big-endian 1/2/4-byte size that follows `0xD8`,
`0xD9`, `0xDA`. -/
def declaredSize : List Byte → Option Nat
  | [] => none
  | h :: t =>
    if h.val >>> 4 = 0xA then some (h.val &&& 0x0F)
    else if h.val = 0xD8 then
      match t with
      | b1 :: _ => some (bigEndianValue [b1])
      | _ => none
    else if h.val = 0xD9 then
      match t with
      | b1 :: b2 :: _ => some (bigEndianValue [b1, b2])
      | _ => none
    else if h.val = 0xDA then
      match t with
      | b1 :: b2 :: b3 :: b4 :: _ => some (bigEndianValue [b1, b2, b3, b4])
      | _ => none
    else none

/-- The map obtained by inserting the entries, in order, into the empty map. -/
def insertAll (entries : List (List Byte × Value)) : List (List Byte × Value) :=
  entries.foldl (fun d e => mapInsert d e.1 e.2) []

/-- The loop of `readDictionary` again, instrumented: next to what the loop does, the number
of calls of `recv` (successful or failing) that it makes at its own level. -/
def readDictionaryCounted (recv : List Byte → Outcome) :
    Nat → List Byte → List (List Byte × Value) → Outcome × Nat
  | 0, r, dictionary => (Outcome.ret (Value.map dictionary) none r, 0)
  | n + 1, r, dictionary =>
    match recv r with
    | Outcome.ret _ (some err) r1 => (Outcome.ret Value.nilMap (some err) r1, 1)
    | Outcome.ret key none r1 =>
      match recv r1 with
      | Outcome.ret _ (some err) r2 => (Outcome.ret Value.nilMap (some err) r2, 2)
      | Outcome.ret value none r2 =>
        match key with
        | Value.string k =>
          ((readDictionaryCounted recv n r2 (mapInsert dictionary k value)).1,
            (readDictionaryCounted recv n r2 (mapInsert dictionary k value)).2 + 2)
        | _ => (Outcome.panic, 2)
      | Outcome.panic => (Outcome.panic, 2)
      | Outcome.outOfFuel => (Outcome.outOfFuel, 2)
    | Outcome.panic => (Outcome.panic, 1)
    | Outcome.outOfFuel => (Outcome.outOfFuel, 1)

/-- The error `e` is one that a `Write` of the writer returned. -/
def WriteError {σ : Type} (w : Writer σ) (e : Error) : Prop := ∃ s p, (w.Write s p).2 = some e

/-- The sink `w` with a record of its `Write` calls: the state is paired with the list of
the calls made so far, each with the bytes it was given and the error it returned. -/
def traced {σ : Type} (w : Writer σ) : Writer (σ × List (List Byte × Option Error)) where
  Write := fun st p =>
    (((w.Write st.1 p).1, st.2 ++ [(p, (w.Write st.1 p).2)]), (w.Write st.1 p).2)

/-- The calls `added` to the record `log0` by a run that returned `out`: either no call
failed and the run returned no error or the "unsupported value type" error, or exactly the
last call failed and the run returned its error. -/
def TraceOk {σ : Type} (log0 : List (List Byte × Option Error))
    (out : (σ × List (List Byte × Option Error)) × Option Error) : Prop :=
  ∃ added, out.1.2 = log0 ++ added ∧
    ((out.2 = none ∧ ∀ x ∈ added, x.2 = none)
      ∨ (∃ e pre p, out.2 = some e ∧ added = pre ++ [(p, some e)] ∧ ∀ x ∈ pre, x.2 = none)
      ∨ (out.2 = some Error.unsupportedValueType ∧ ∀ x ∈ added, x.2 = none))

/-- A sink that holds at most `cap` bytes: a `Write` that would exceed the capacity fails
and writes nothing. -/
def limitedSink (cap : Nat) : Writer (List Byte) where
  Write := fun s p =>
    if s.length + p.length ≤ cap then (s ++ p, none) else (s, some (Error.other 1))

/-- The content of an initially empty in-memory buffer after the values `vs` were written to
it, back to back, with `SendValue`. -/
def sendAll (vs : List Value) : List Byte :=
  vs.foldl (fun s v => (SendValue bytesBuffer s v).1) []

/-- The values returned by `n` successive calls of `Receive` on a buffer holding `r`, up to
the first call that does not return a value without error, and the bytes left unread. -/
def receiveMany : Nat → List Byte → List Value × List Byte
  | 0, r => ([], r)
  | n + 1, r =>
    match Receive r with
    | Outcome.ret v none rest => (v :: (receiveMany n rest).1, (receiveMany n rest).2)
    | _ => ([], r)

/-- The bytes that follow the map marker at the head of an input and its size field: the
input without its first byte for `0xA0`–`0xAF`, and without its first 2, 3, 5 bytes for
`0xD8`, `0xD9`, `0xDA`. -/
def mapPayload : List Byte → List Byte
  | [] => []
  | h :: t =>
    if h.val >>> 4 = 0xA then t
    else if h.val = 0xD8 then t.drop 1
    else if h.val = 0xD9 then t.drop 2
    else if h.val = 0xDA then t.drop 4
    else t

/-- The `n` entries decoded from `r` by `n` successive pairs of calls of `Receive`, a key
and then a value, each call starting where the previous one stopped, and the bytes left after
the last call; `none` when one of the calls does not return a value without error or a key is
not a text. -/
def decodeEntries : Nat → List Byte → Option (List (List Byte × Value) × List Byte)
  | 0, r => some ([], r)
  | n + 1, r =>
    match Receive r with
    | Outcome.ret key none r1 =>
      match Receive r1 with
      | Outcome.ret value none r2 =>
        match key with
        | Value.string k => (decodeEntries n r2).map (fun p => ((k, value) :: p.1, p.2))
        | _ => none
      | _ => none
    | _ => none

mutual
/-- The size limits of the wire format: every string of the value, the keys of its maps
included, is shorter than `2 ^ 32` bytes, and every map of the value has fewer than `2 ^ 32`
entries. -/
def Value.withinLimits : Value → Bool
  | .nil => true
  | .bool _ => true
  | .int _ => true
  | .int64 _ => true
  | .string s => decide (s.length < 4294967296)
  | .map entries => decide (entries.length < 4294967296) && entriesWithinLimits entries
  | .nilMap => true
  | .unsupported _ => true
/-- Every key is shorter than `2 ^ 32` bytes and every value is within the size limits. -/
def entriesWithinLimits : List (List Byte × Value) → Bool
  | [] => true
  | (key, value) :: rest =>
    decide (key.length < 4294967296) && value.withinLimits && entriesWithinLimits rest
end

mutual
/-- The value as `Receive` builds it from the bytes that `SendValue` writes for `v`: an `int`
and an `int64` become the `int64` of the same number (`int64` is the identity on the numbers
of the 64-bit range), a nil map becomes an empty map, a map holds its entries so transformed
(inserted in order, which changes nothing when the keys are unique), and `nil`, booleans and
strings are unchanged. -/
def Value.received : Value → Value
  | .nil => .nil
  | .bool b => .bool b
  | .int i => .int64 (int64 i)
  | .int64 i => .int64 (int64 i)
  | .string s => .string s
  | .map entries => .map (insertAll (receivedEntries entries))
  | .nilMap => .map []
  | .unsupported tag => .unsupported tag
/-- The entries with each value as `Receive` builds it. -/
def receivedEntries : List (List Byte × Value) → List (List Byte × Value)
  | [] => []
  | (key, value) :: rest => (key, value.received) :: receivedEntries rest
end

/-! ## Basic facts -/

theorem byte_val (x : Nat) : (byte x).val = x % 256 := rfl

theorem byte_of_val (b : Byte) : byte b.val = b := by
  apply Fin.ext
  simp [byte_val, Nat.mod_eq_of_lt b.isLt]

theorem shl_or_byte (v b : Nat) (hb : b < 256) :
    ((v <<< 8) % 18446744073709551616) ||| b = (v * 256) % 18446744073709551616 + b := by
  have h1 : (v <<< 8) % 18446744073709551616 = 2 ^ 8 * (v % 72057594037927936) := by
    rw [Nat.shiftLeft_eq]; omega
  have h2 : (v * 256) % 18446744073709551616 = 2 ^ 8 * (v % 72057594037927936) := by omega
  rw [h1, h2]
  exact (Nat.mul_add_lt_is_or (by simpa using hb) _).symm

theorem Read_append (a rest : List Byte) :
    Read (a ++ rest) (make a.length) = (a, none, rest) := by
  unfold Read make
  cases a with
  | nil => cases rest <;> simp
  | cons x xs => simp [List.take_append_eq_append_take, List.drop_append_eq_append_drop]

theorem readString_append (a rest : List Byte) :
    readString a.length (a ++ rest) = (a, none, rest) := by
  simp [readString, Read_append]

theorem Read_header (h : Byte) (rest : List Byte) :
    Read (h :: rest) (make 1) = ([h], none, rest) :=
  Read_append [h] rest

theorem int64_of_lt (n : Nat) (h : n < 9223372036854775808) : int64 (n : Int) = (n : Int) := by
  unfold int64
  split_ifs <;> omega

theorem readInteger_one (b1 : Byte) (rest : List Byte) :
    readInteger 1 (b1 :: rest) = ((b1.val : Int), none, rest) := by
  have hr := Read_append [b1] rest
  simp only [List.length_singleton, List.singleton_append] at hr
  have h1 := b1.isLt
  simp only [readInteger, hr, List.foldl_cons, List.foldl_nil]
  rw [shl_or_byte _ _ h1, int64_of_lt _ (by omega)]
  simp

theorem readInteger_two (b1 b2 : Byte) (rest : List Byte) :
    readInteger 2 (b1 :: b2 :: rest) = (((b1.val * 256 + b2.val : Nat) : Int), none, rest) := by
  have hr := Read_append [b1, b2] rest
  simp only [List.length_cons, List.length_nil, List.cons_append, List.nil_append] at hr
  have h1 := b1.isLt
  have h2 := b2.isLt
  simp only [readInteger, hr, List.foldl_cons, List.foldl_nil]
  rw [shl_or_byte _ _ h1, shl_or_byte _ _ h2, int64_of_lt _ (by omega)]
  have : ((0 * 256 % 18446744073709551616 + b1.val) * 256 % 18446744073709551616 + b2.val) = b1.val * 256 + b2.val := by omega
  rw [this]

theorem readInteger_four (b1 b2 b3 b4 : Byte) (rest : List Byte) :
    readInteger 4 (b1 :: b2 :: b3 :: b4 :: rest) =
      (((b1.val * 16777216 + b2.val * 65536 + b3.val * 256 + b4.val : Nat) : Int), none, rest) := by
  have hr := Read_append [b1, b2, b3, b4] rest
  simp only [List.length_cons, List.length_nil, List.cons_append, List.nil_append] at hr
  have h1 := b1.isLt
  have h2 := b2.isLt
  have h3 := b3.isLt
  have h4 := b4.isLt
  simp only [readInteger, hr, List.foldl_cons, List.foldl_nil]
  rw [shl_or_byte _ _ h1, shl_or_byte _ _ h2, shl_or_byte _ _ h3, shl_or_byte _ _ h4,
    int64_of_lt _ (by omega)]
  have : ((((0 * 256 % 18446744073709551616 + b1.val) * 256 % 18446744073709551616 + b2.val)
      * 256 % 18446744073709551616 + b3.val) * 256 % 18446744073709551616 + b4.val)
      = b1.val * 16777216 + b2.val * 65536 + b3.val * 256 + b4.val := by omega
  rw [this]

theorem readInteger_eight (b1 b2 b3 b4 b5 b6 b7 b8 : Byte) (rest : List Byte) :
    readInteger 8 (b1 :: b2 :: b3 :: b4 :: b5 :: b6 :: b7 :: b8 :: rest) =
      (int64 ((b1.val * 72057594037927936 + b2.val * 281474976710656 + b3.val * 1099511627776
        + b4.val * 4294967296 + b5.val * 16777216 + b6.val * 65536 + b7.val * 256 + b8.val : Nat) : Int),
        none, rest) := by
  have hr := Read_append [b1, b2, b3, b4, b5, b6, b7, b8] rest
  simp only [List.length_cons, List.length_nil, List.cons_append, List.nil_append] at hr
  have h1 := b1.isLt
  have h2 := b2.isLt
  have h3 := b3.isLt
  have h4 := b4.isLt
  have h5 := b5.isLt
  have h6 := b6.isLt
  have h7 := b7.isLt
  have h8 := b8.isLt
  simp only [readInteger, hr, List.foldl_cons, List.foldl_nil]
  rw [shl_or_byte _ _ h1, shl_or_byte _ _ h2, shl_or_byte _ _ h3, shl_or_byte _ _ h4,
    shl_or_byte _ _ h5, shl_or_byte _ _ h6, shl_or_byte _ _ h7, shl_or_byte _ _ h8]
  have : ((((((((0 * 256 % 18446744073709551616 + b1.val) * 256 % 18446744073709551616 + b2.val)
      * 256 % 18446744073709551616 + b3.val) * 256 % 18446744073709551616 + b4.val)
      * 256 % 18446744073709551616 + b5.val) * 256 % 18446744073709551616 + b6.val)
      * 256 % 18446744073709551616 + b7.val) * 256 % 18446744073709551616 + b8.val)
      = b1.val * 72057594037927936 + b2.val * 281474976710656 + b3.val * 1099511627776
        + b4.val * 4294967296 + b5.val * 16777216 + b6.val * 65536 + b7.val * 256 + b8.val := by omega
  rw [this]


theorem ReceiveFuel_cons (fuel : Nat) (h : Byte) (r1 : List Byte) :
    ReceiveFuel (fuel + 1) (h :: r1) =
      if h.val = 0xC0 then Outcome.ret Value.nil none r1
      else if h.val = 0xC2 then Outcome.ret (Value.bool false) none r1
      else if h.val = 0xC3 then Outcome.ret (Value.bool true) none r1
      else if h.val >>> 4 ≥ 0xF ∨ h.val >>> 4 ≤ 0x7 then
        Outcome.ret (Value.int64 (int8 h.val)) none r1
      else if h.val = 0xC8 then
        Outcome.ret (Value.int64 (int8 (readInteger 1 r1).1)) (readInteger 1 r1).2.1
          (readInteger 1 r1).2.2
      else if h.val = 0xC9 then
        Outcome.ret (Value.int64 (int16 (readInteger 2 r1).1)) (readInteger 2 r1).2.1
          (readInteger 2 r1).2.2
      else if h.val = 0xCA then
        Outcome.ret (Value.int64 (int32 (readInteger 4 r1).1)) (readInteger 4 r1).2.1
          (readInteger 4 r1).2.2
      else if h.val = 0xCB then
        Outcome.ret (Value.int64 (readInteger 8 r1).1) (readInteger 8 r1).2.1
          (readInteger 8 r1).2.2
      else if h.val >>> 4 = 0x8 then
        Outcome.ret (Value.string (readString (0x80 ^^^ h.val) r1).1)
          (readString (0x80 ^^^ h.val) r1).2.1 (readString (0x80 ^^^ h.val) r1).2.2
      else if h.val = 0xD0 then
        Outcome.ret (Value.string (readString (readInteger 1 r1).1.toNat (readInteger 1 r1).2.2).1)
          (readString (readInteger 1 r1).1.toNat (readInteger 1 r1).2.2).2.1
          (readString (readInteger 1 r1).1.toNat (readInteger 1 r1).2.2).2.2
      else if h.val = 0xD1 then
        Outcome.ret (Value.string (readString (readInteger 2 r1).1.toNat (readInteger 2 r1).2.2).1)
          (readString (readInteger 2 r1).1.toNat (readInteger 2 r1).2.2).2.1
          (readString (readInteger 2 r1).1.toNat (readInteger 2 r1).2.2).2.2
      else if h.val = 0xD2 then
        Outcome.ret (Value.string (readString (readInteger 4 r1).1.toNat (readInteger 4 r1).2.2).1)
          (readString (readInteger 4 r1).1.toNat (readInteger 4 r1).2.2).2.1
          (readString (readInteger 4 r1).1.toNat (readInteger 4 r1).2.2).2.2
      else if h.val >>> 4 = 0xA then readDictionary (ReceiveFuel fuel) (0xA0 ^^^ h.val) r1
      else if h.val = 0xD8 then
        readDictionary (ReceiveFuel fuel) (readInteger 1 r1).1.toNat (readInteger 1 r1).2.2
      else if h.val = 0xD9 then
        readDictionary (ReceiveFuel fuel) (readInteger 2 r1).1.toNat (readInteger 2 r1).2.2
      else if h.val = 0xDA then
        readDictionary (ReceiveFuel fuel) (readInteger 4 r1).1.toNat (readInteger 4 r1).2.2
      else Outcome.ret Value.nil (some (Error.unexpectedType h)) r1 := by
  simp only [ReceiveFuel, Read_header, List.headD_cons]

theorem ReceiveFuel_nil (fuel : Nat) :
    ReceiveFuel (fuel + 1) [] = Outcome.ret Value.nil (some Error.EOF) [] := by
  simp [ReceiveFuel, Read, make]

theorem ReceiveFuel_tiny (fuel : Nat) (h : Byte) (r1 : List Byte)
    (hh : h.val ≤ 0x7F ∨ 0xF0 ≤ h.val) :
    ReceiveFuel (fuel + 1) (h :: r1) = Outcome.ret (Value.int64 (int8 h.val)) none r1 := by
  rw [ReceiveFuel_cons]
  have h4 : h.val >>> 4 = h.val / 16 := by simp [Nat.shiftRight_eq_div_pow]
  rw [h4]
  have hlt := h.isLt
  rw [if_neg (by omega), if_neg (by omega), if_neg (by omega), if_pos (by omega)]

theorem ReceiveFuel_int8 (fuel : Nat) (h b1 : Byte) (rest : List Byte) (hh : h.val = 0xC8) :
    ReceiveFuel (fuel + 1) (h :: b1 :: rest) =
      Outcome.ret (Value.int64 (int8 b1.val)) none rest := by
  rw [ReceiveFuel_cons, readInteger_one, hh]
  simp

theorem ReceiveFuel_int16 (fuel : Nat) (h b1 b2 : Byte) (rest : List Byte) (hh : h.val = 0xC9) :
    ReceiveFuel (fuel + 1) (h :: b1 :: b2 :: rest) =
      Outcome.ret (Value.int64 (int16 ((b1.val * 256 + b2.val : Nat) : Int))) none rest := by
  rw [ReceiveFuel_cons, readInteger_two, hh]
  simp

theorem ReceiveFuel_int32 (fuel : Nat) (h b1 b2 b3 b4 : Byte) (rest : List Byte)
    (hh : h.val = 0xCA) :
    ReceiveFuel (fuel + 1) (h :: b1 :: b2 :: b3 :: b4 :: rest) =
      Outcome.ret (Value.int64 (int32
        ((b1.val * 16777216 + b2.val * 65536 + b3.val * 256 + b4.val : Nat) : Int))) none rest := by
  rw [ReceiveFuel_cons, readInteger_four, hh]
  simp

theorem ReceiveFuel_int64 (fuel : Nat) (h b1 b2 b3 b4 b5 b6 b7 b8 : Byte) (rest : List Byte)
    (hh : h.val = 0xCB) :
    ReceiveFuel (fuel + 1) (h :: b1 :: b2 :: b3 :: b4 :: b5 :: b6 :: b7 :: b8 :: rest) =
      Outcome.ret (Value.int64 (int64
        ((b1.val * 72057594037927936 + b2.val * 281474976710656 + b3.val * 1099511627776
          + b4.val * 4294967296 + b5.val * 16777216 + b6.val * 65536 + b7.val * 256 + b8.val : Nat)
          : Int))) none rest := by
  rw [ReceiveFuel_cons, readInteger_eight, hh]
  simp

theorem ReceiveFuel_string16 (fuel : Nat) (h : Byte) (r1 : List Byte) (hh : h.val >>> 4 = 0x8) :
    ReceiveFuel (fuel + 1) (h :: r1) =
      Outcome.ret (Value.string (readString (0x80 ^^^ h.val) r1).1)
          (readString (0x80 ^^^ h.val) r1).2.1 (readString (0x80 ^^^ h.val) r1).2.2 := by
  rw [ReceiveFuel_cons]
  have h4 : h.val >>> 4 = h.val / 16 := by simp [Nat.shiftRight_eq_div_pow]
  rw [h4] at hh ⊢
  have notNull : ¬ h.val = 0xC0 := by omega
  have notFalse : ¬ h.val = 0xC2 := by omega
  have notTrue : ¬ h.val = 0xC3 := by omega
  have notTiny : ¬ (h.val / 16 ≥ 0xF ∨ h.val / 16 ≤ 0x7) := by omega
  have notInt : ¬ h.val = 0xC8 ∧ ¬ h.val = 0xC9 ∧ ¬ h.val = 0xCA ∧ ¬ h.val = 0xCB := by omega
  rw [if_neg notNull, if_neg notFalse, if_neg notTrue, if_neg notTiny, if_neg notInt.1,
    if_neg notInt.2.1, if_neg notInt.2.2.1, if_neg notInt.2.2.2, if_pos hh]

theorem ReceiveFuel_string255 (fuel : Nat) (h : Byte) (r1 : List Byte) (hh : h.val = 0xD0) :
    ReceiveFuel (fuel + 1) (h :: r1) =
        Outcome.ret (Value.string (readString (readInteger 1 r1).1.toNat (readInteger 1 r1).2.2).1)
          (readString (readInteger 1 r1).1.toNat (readInteger 1 r1).2.2).2.1
          (readString (readInteger 1 r1).1.toNat (readInteger 1 r1).2.2).2.2 := by
  rw [ReceiveFuel_cons, hh]
  simp

theorem ReceiveFuel_string65535 (fuel : Nat) (h : Byte) (r1 : List Byte) (hh : h.val = 0xD1) :
    ReceiveFuel (fuel + 1) (h :: r1) =
        Outcome.ret (Value.string (readString (readInteger 2 r1).1.toNat (readInteger 2 r1).2.2).1)
          (readString (readInteger 2 r1).1.toNat (readInteger 2 r1).2.2).2.1
          (readString (readInteger 2 r1).1.toNat (readInteger 2 r1).2.2).2.2 := by
  rw [ReceiveFuel_cons, hh]
  simp

theorem ReceiveFuel_stringMax (fuel : Nat) (h : Byte) (r1 : List Byte) (hh : h.val = 0xD2) :
    ReceiveFuel (fuel + 1) (h :: r1) =
        Outcome.ret (Value.string (readString (readInteger 4 r1).1.toNat (readInteger 4 r1).2.2).1)
          (readString (readInteger 4 r1).1.toNat (readInteger 4 r1).2.2).2.1
          (readString (readInteger 4 r1).1.toNat (readInteger 4 r1).2.2).2.2 := by
  rw [ReceiveFuel_cons, hh]
  simp

theorem ReceiveFuel_dictionary16 (fuel : Nat) (h : Byte) (r1 : List Byte)
    (hh : h.val >>> 4 = 0xA) :
    ReceiveFuel (fuel + 1) (h :: r1) = readDictionary (ReceiveFuel fuel) (0xA0 ^^^ h.val) r1 := by
  rw [ReceiveFuel_cons]
  have h4 : h.val >>> 4 = h.val / 16 := by simp [Nat.shiftRight_eq_div_pow]
  rw [h4] at hh ⊢
  have notNull : ¬ h.val = 0xC0 := by omega
  have notFalse : ¬ h.val = 0xC2 := by omega
  have notTrue : ¬ h.val = 0xC3 := by omega
  have notTiny : ¬ (h.val / 16 ≥ 0xF ∨ h.val / 16 ≤ 0x7) := by omega
  have notInt : ¬ h.val = 0xC8 ∧ ¬ h.val = 0xC9 ∧ ¬ h.val = 0xCA ∧ ¬ h.val = 0xCB := by omega
  have notText : ¬ h.val / 16 = 0x8 ∧ ¬ h.val = 0xD0 ∧ ¬ h.val = 0xD1 ∧ ¬ h.val = 0xD2 := by
    omega
  rw [if_neg notNull, if_neg notFalse, if_neg notTrue, if_neg notTiny, if_neg notInt.1,
    if_neg notInt.2.1, if_neg notInt.2.2.1, if_neg notInt.2.2.2, if_neg notText.1,
    if_neg notText.2.1, if_neg notText.2.2.1, if_neg notText.2.2.2, if_pos hh]

theorem ReceiveFuel_dictionary255 (fuel : Nat) (h : Byte) (r1 : List Byte) (hh : h.val = 0xD8) :
    ReceiveFuel (fuel + 1) (h :: r1) =
      readDictionary (ReceiveFuel fuel) (readInteger 1 r1).1.toNat (readInteger 1 r1).2.2 := by
  rw [ReceiveFuel_cons, hh]
  simp

theorem ReceiveFuel_dictionary65535 (fuel : Nat) (h : Byte) (r1 : List Byte)
    (hh : h.val = 0xD9) :
    ReceiveFuel (fuel + 1) (h :: r1) =
      readDictionary (ReceiveFuel fuel) (readInteger 2 r1).1.toNat (readInteger 2 r1).2.2 := by
  rw [ReceiveFuel_cons, hh]
  simp

theorem ReceiveFuel_dictionaryMax (fuel : Nat) (h : Byte) (r1 : List Byte) (hh : h.val = 0xDA) :
    ReceiveFuel (fuel + 1) (h :: r1) =
      readDictionary (ReceiveFuel fuel) (readInteger 4 r1).1.toNat (readInteger 4 r1).2.2 := by
  rw [ReceiveFuel_cons, hh]
  simp


/-! ## The encoders on an in-memory buffer -/

theorem bigEndian_one (n : Nat) : bigEndian 1 n = [byte n] := by
  simp [bigEndian, byte]

theorem bigEndian_two (n : Nat) : bigEndian 2 n = [byte (n / 256), byte n] := by
  simp [bigEndian, byte]

theorem bigEndian_four (n : Nat) :
    bigEndian 4 n = [byte (n / 16777216), byte (n / 65536), byte (n / 256), byte n] := by
  simp only [bigEndian, byte, List.nil_append, List.cons_append, List.cons.injEq, Fin.mk.injEq,
    and_true]
  omega

theorem bigEndian_eight (n : Nat) :
    bigEndian 8 n = [byte (n / 72057594037927936), byte (n / 281474976710656),
      byte (n / 1099511627776), byte (n / 4294967296), byte (n / 16777216), byte (n / 65536),
      byte (n / 256), byte n] := by
  simp only [bigEndian, byte, List.nil_append, List.cons_append, List.cons.injEq, Fin.mk.injEq,
    and_true]
  omega

theorem PutUint16_eq (v : Nat) : PutUint16 v = bigEndian 2 v := by
  simp [PutUint16, bigEndian_two, Nat.shiftRight_eq_div_pow]

theorem PutUint32_eq (v : Nat) : PutUint32 v = bigEndian 4 v := by
  simp [PutUint32, bigEndian_four, Nat.shiftRight_eq_div_pow]

theorem PutUint64_eq (v : Nat) : PutUint64 v = bigEndian 8 v := by
  simp [PutUint64, bigEndian_eight, Nat.shiftRight_eq_div_pow]

theorem byte_uint64 (i : Int) : [byte (uint64 i)] = twosComplement 1 i := by
  simp only [twosComplement, bigEndian_one, byte, uint64, List.cons.injEq, Fin.mk.injEq, and_true]
  omega

theorem uint16_eq (i : Int) : PutUint16 (uint16 i) = twosComplement 2 i := by
  rw [PutUint16_eq]; rfl

theorem uint32_eq (i : Int) : PutUint32 (uint32 i) = twosComplement 4 i := by
  rw [PutUint32_eq]; rfl

theorem uint64_eq (i : Int) : PutUint64 (uint64 i) = twosComplement 8 i := by
  rw [PutUint64_eq]; rfl


theorem SendInt_buffer (s : List Byte) (i : Int) :
    SendInt bytesBuffer s i =
      (s ++ (if -16 ≤ i ∧ i < 128 then twosComplement 1 i
        else if -128 ≤ i ∧ i < -16 then 0xC8 :: twosComplement 1 i
        else if -32768 ≤ i ∧ i < 32768 then 0xC9 :: twosComplement 2 i
        else if -2147483648 ≤ i ∧ i < 2147483648 then 0xCA :: twosComplement 4 i
        else 0xCB :: twosComplement 8 i), none) := by
  unfold SendInt
  simp only [bytesBuffer, uint16_eq, uint32_eq, uint64_eq, byte_uint64, Int.reduceNeg]
  split_ifs <;> simp [← byte_uint64]

theorem twosComplement_one (i : Int) : twosComplement 1 i = [byte (i % 256).toNat] := by
  simp [twosComplement, bigEndian_one]

theorem twosComplement_two (i : Int) :
    twosComplement 2 i = [byte ((i % 65536).toNat / 256), byte (i % 65536).toNat] := by
  simp [twosComplement, bigEndian_two]

theorem twosComplement_four (i : Int) :
    twosComplement 4 i = [byte ((i % 4294967296).toNat / 16777216),
      byte ((i % 4294967296).toNat / 65536), byte ((i % 4294967296).toNat / 256),
      byte (i % 4294967296).toNat] := by
  simp [twosComplement, bigEndian_four]

theorem twosComplement_eight (i : Int) :
    twosComplement 8 i = [byte ((i % 18446744073709551616).toNat / 72057594037927936),
      byte ((i % 18446744073709551616).toNat / 281474976710656),
      byte ((i % 18446744073709551616).toNat / 1099511627776),
      byte ((i % 18446744073709551616).toNat / 4294967296),
      byte ((i % 18446744073709551616).toNat / 16777216),
      byte ((i % 18446744073709551616).toNat / 65536),
      byte ((i % 18446744073709551616).toNat / 256),
      byte (i % 18446744073709551616).toNat] := by
  simp [twosComplement, bigEndian_eight]

theorem int8_twosComplement (i : Int) (hlo : -128 ≤ i) (hhi : i < 128) :
    int8 ((byte (i % 256).toNat).val : Int) = i := by
  simp only [byte_val, int8]
  split_ifs <;> omega

theorem int16_twosComplement (i : Int) (hlo : -32768 ≤ i) (hhi : i < 32768) :
    int16 (((byte ((i % 65536).toNat / 256)).val * 256 + (byte (i % 65536).toNat).val : Nat) : Int)
      = i := by
  simp only [byte_val, int16]
  split_ifs <;> omega

theorem int32_twosComplement (i : Int) (hlo : -2147483648 ≤ i) (hhi : i < 2147483648) :
    int32 (((byte ((i % 4294967296).toNat / 16777216)).val * 16777216
      + (byte ((i % 4294967296).toNat / 65536)).val * 65536
      + (byte ((i % 4294967296).toNat / 256)).val * 256
      + (byte (i % 4294967296).toNat).val : Nat) : Int) = i := by
  simp only [byte_val, int32]
  split_ifs <;> omega

theorem int64_twosComplement (i : Int) (hlo : -9223372036854775808 ≤ i)
    (hhi : i < 9223372036854775808) :
    int64 (((byte ((i % 18446744073709551616).toNat / 72057594037927936)).val * 72057594037927936
      + (byte ((i % 18446744073709551616).toNat / 281474976710656)).val * 281474976710656
      + (byte ((i % 18446744073709551616).toNat / 1099511627776)).val * 1099511627776
      + (byte ((i % 18446744073709551616).toNat / 4294967296)).val * 4294967296
      + (byte ((i % 18446744073709551616).toNat / 16777216)).val * 16777216
      + (byte ((i % 18446744073709551616).toNat / 65536)).val * 65536
      + (byte ((i % 18446744073709551616).toNat / 256)).val * 256
      + (byte (i % 18446744073709551616).toNat).val : Nat) : Int) = i := by
  simp only [byte_val, int64]
  split_ifs <;> omega

theorem ReceiveFuel_SendInt (fuel : Nat) (i : Int) (rest : List Byte)
    (hlo : -9223372036854775808 ≤ i) (hhi : i < 9223372036854775808) :
    ReceiveFuel (fuel + 1) ((SendInt bytesBuffer [] i).1 ++ rest) =
      Outcome.ret (Value.int64 i) none rest := by
  rw [SendInt_buffer]
  simp only [List.nil_append]
  split_ifs with h1 h2 h3 h4
  · rw [twosComplement_one, List.singleton_append, ReceiveFuel_tiny,
      int8_twosComplement i (by omega) (by omega)]
    simp only [byte_val]; omega
  · rw [twosComplement_one, List.cons_append, List.singleton_append,
      ReceiveFuel_int8 _ _ _ _ rfl, int8_twosComplement i (by omega) (by omega)]
  · rw [twosComplement_two]
    simp only [List.cons_append, List.nil_append]
    rw [ReceiveFuel_int16 _ _ _ _ _ rfl, int16_twosComplement i (by omega) (by omega)]
  · rw [twosComplement_four]
    simp only [List.cons_append, List.nil_append]
    rw [ReceiveFuel_int32 _ _ _ _ _ _ _ rfl, int32_twosComplement i (by omega) (by omega)]
  · rw [twosComplement_eight]
    simp only [List.cons_append, List.nil_append]
    rw [ReceiveFuel_int64 _ _ _ _ _ _ _ _ _ _ _ rfl, int64_twosComplement i hlo hhi]


/-! ## Integers -/

theorem bigEndian_length (k n : Nat) : (bigEndian k n).length = k := by
  induction k generalizing n with
  | zero => rfl
  | succ k ih => simp [bigEndian, ih]

theorem twosComplement_length (k : Nat) (i : Int) : (twosComplement k i).length = k :=
  bigEndian_length k _

theorem SendInt_classEncoding (i : Int) :
    (SendInt bytesBuffer [] i).1 = classEncoding (narrowestWidth i) i := by
  rw [SendInt_buffer]
  simp only [List.nil_append]
  by_cases h0 : -16 ≤ i ∧ i ≤ 127
  · have hw : narrowestWidth i = 0 := by unfold narrowestWidth; rw [if_pos h0]
    rw [hw, if_pos (by omega)]; rfl
  by_cases h1 : -128 ≤ i ∧ i ≤ 127
  · have hw : narrowestWidth i = 1 := by unfold narrowestWidth; rw [if_neg h0, if_pos h1]
    rw [hw, if_neg (by omega), if_pos (by omega)]; rfl
  by_cases h2 : -32768 ≤ i ∧ i ≤ 32767
  · have hw : narrowestWidth i = 2 := by
      unfold narrowestWidth; rw [if_neg h0, if_neg h1, if_pos h2]
    rw [hw, if_neg (by omega), if_neg (by omega), if_pos (by omega)]; rfl
  by_cases h4 : -2147483648 ≤ i ∧ i ≤ 2147483647
  · have hw : narrowestWidth i = 4 := by
      unfold narrowestWidth; rw [if_neg h0, if_neg h1, if_neg h2, if_pos h4]
    rw [hw, if_neg (by omega), if_neg (by omega), if_neg (by omega), if_pos (by omega)]; rfl
  · have hw : narrowestWidth i = 8 := by
      unfold narrowestWidth; rw [if_neg h0, if_neg h1, if_neg h2, if_neg h4]
    rw [hw, if_neg (by omega), if_neg (by omega), if_neg (by omega), if_neg (by omega)]; rfl

theorem narrowestWidth_cases (i : Int) :
    narrowestWidth i = 0 ∨ narrowestWidth i = 1 ∨ narrowestWidth i = 2 ∨ narrowestWidth i = 4
      ∨ narrowestWidth i = 8 := by
  unfold narrowestWidth
  split_ifs <;> simp

theorem SendInt_length (i : Int) :
    (SendInt bytesBuffer [] i).1.length = narrowestWidth i + 1 := by
  rw [SendInt_classEncoding]
  rcases narrowestWidth_cases i with h | h | h | h | h <;> rw [h] <;>
    simp [classEncoding, twosComplement_length]

theorem Receive_eq (r : List Byte) : Receive r = ReceiveFuel (r.length + 1) r := rfl

/-- C2. Integer round trip: for every signed 64-bit integer `i` (the minimum `-2^63`, the
maximum `2^63 - 1` and every size-class boundary included), `SendInt(i)` into an empty
in-memory buffer writes without error, and `Receive` on that buffer returns the `int64`
`i` with no error, leaving nothing unread. -/
theorem SendInt_Receive_roundtrip (i : Int) (hlo : -9223372036854775808 ≤ i)
    (hhi : i < 9223372036854775808) :
    (SendInt bytesBuffer [] i).2 = none ∧
      Receive (SendInt bytesBuffer [] i).1 = Outcome.ret (Value.int64 i) none [] := by
  refine ⟨by rw [SendInt_buffer], ?_⟩
  have h := ReceiveFuel_SendInt (SendInt bytesBuffer [] i).1.length i [] hlo hhi
  rw [List.append_nil] at h
  exact h

theorem SendInt_Receive_roundtrip_witness :
    (-9223372036854775808 : Int) ≤ -9223372036854775808 ∧
    (-9223372036854775808 : Int) < 9223372036854775808 ∧
    (SendInt bytesBuffer [] (-9223372036854775808)).2 = none ∧
      Receive (SendInt bytesBuffer [] (-9223372036854775808)).1 =
        Outcome.ret (Value.int64 (-9223372036854775808)) none [] :=
  ⟨by decide, by decide, SendInt_Receive_roundtrip (-9223372036854775808) (by decide) (by decide)⟩

/-- C4. Integer table, tiny and negative rows: for every `i` with `-2^31 ≤ i ≤ 127`,
`SendInt` writes the single byte `i mod 256` when `-16 ≤ i`; `[0xC8, i mod 256]` when
`-128 ≤ i < -16`; `0xC9` and the 2-byte big-endian two's complement of `i` when
`-32768 ≤ i < -128`; `0xCA` and the 4-byte one when `-2^31 ≤ i < -32768`. In particular
`SendInt(-16)` writes `[0xF0]`, `SendInt(127)` writes `[0x7F]` and `SendInt(-17)` writes
`[0xC8, 0xEF]`. -/
theorem SendInt_tiny_and_negative_rows (i : Int) (hlo : -2147483648 ≤ i) (hhi : i ≤ 127) :
    SendInt bytesBuffer [] i =
        (if -16 ≤ i then [byte (i % 256).toNat]
         else if -128 ≤ i then [0xC8, byte (i % 256).toNat]
         else if -32768 ≤ i then 0xC9 :: twosComplement 2 i
         else 0xCA :: twosComplement 4 i, none)
    ∧ SendInt bytesBuffer [] (-16) = ([0xF0], none)
    ∧ SendInt bytesBuffer [] 127 = ([0x7F], none)
    ∧ SendInt bytesBuffer [] (-17) = ([0xC8, 0xEF], none) := by
  refine ⟨?_, by decide, by decide, by decide⟩
  rw [SendInt_buffer]
  simp only [List.nil_append, twosComplement_one]
  split_ifs <;> first | rfl | omega

theorem SendInt_tiny_and_negative_rows_witness :
    (-2147483648 : Int) ≤ -129 ∧ (-129 : Int) ≤ 127 ∧
    SendInt bytesBuffer [] (-129) = ([0xC9, 0xFF, 0x7F], none) :=
  ⟨by decide, by decide, (SendInt_tiny_and_negative_rows (-129) (by decide) (by decide)).1⟩

/-- C5, as stated, fails: `128` is in none of the first four rows of the table
(`128 > 127`), yet `SendInt(128)` writes the three bytes `[0xC9, 0x00, 0x80]`, not `0xCB`
followed by eight bytes. -/
theorem SendInt_otherwise_row_fails_at_128 :
    (128 : Int) > 127 ∧ SendInt bytesBuffer [] 128 = ([0xC9, 0x00, 0x80], none) ∧
    SendInt bytesBuffer [] 128 ≠ (0xCB :: twosComplement 8 128, none) ∧
    (SendInt bytesBuffer [] 128).1.length ≠ 9 := by
  decide

/-- C5, amended. For every signed 64-bit `i` with `i ≥ 2^31` or `i < -2^31`, `SendInt`
writes exactly 9 bytes, `0xCB` followed by the 8-byte big-endian two's complement of `i`;
for `128 ≤ i < 2^15` it writes `0xC9` and the 2-byte form, and for `2^15 ≤ i < 2^31` it
writes `0xCA` and the 4-byte form. -/
theorem SendInt_wide_rows (i : Int) (hlo : -9223372036854775808 ≤ i)
    (hhi : i < 9223372036854775808) :
    ((2147483648 ≤ i ∨ i < -2147483648) →
      SendInt bytesBuffer [] i = (0xCB :: twosComplement 8 i, none) ∧
      (SendInt bytesBuffer [] i).1.length = 9)
    ∧ (128 ≤ i ∧ i < 32768 → SendInt bytesBuffer [] i = (0xC9 :: twosComplement 2 i, none))
    ∧ (32768 ≤ i ∧ i < 2147483648 →
      SendInt bytesBuffer [] i = (0xCA :: twosComplement 4 i, none)) := by
  rw [SendInt_buffer]
  simp only [List.nil_append]
  refine ⟨fun h => ?_, fun h => ?_, fun h => ?_⟩
  · rw [if_neg (by omega), if_neg (by omega), if_neg (by omega), if_neg (by omega)]
    exact ⟨rfl, by simp [twosComplement_length]⟩
  · rw [if_neg (by omega), if_neg (by omega), if_pos (by omega)]
  · rw [if_neg (by omega), if_neg (by omega), if_neg (by omega), if_pos (by omega)]

theorem SendInt_wide_rows_witness :
    (-9223372036854775808 : Int) ≤ 2147483648 ∧ (2147483648 : Int) < 9223372036854775808 ∧
    (2147483648 ≤ (2147483648 : Int) ∨ (2147483648 : Int) < -2147483648) ∧
    SendInt bytesBuffer [] 2147483648 = (0xCB :: twosComplement 8 2147483648, none) ∧
      (SendInt bytesBuffer [] 2147483648).1.length = 9 :=
  ⟨by decide, by decide, by decide,
    (SendInt_wide_rows 2147483648 (by decide) (by decide)).1 (by decide)⟩

theorem int8_range (x : Int) : -128 ≤ int8 x ∧ int8 x ≤ 127 := by
  unfold int8; split_ifs <;> omega

theorem int16_range (x : Int) : -32768 ≤ int16 x ∧ int16 x ≤ 32767 := by
  unfold int16; split_ifs <;> omega

theorem int32_range (x : Int) : -2147483648 ≤ int32 x ∧ int32 x ≤ 2147483647 := by
  unfold int32; split_ifs <;> omega

theorem int8_tiny_range (h : Byte) (hh : h.val ≤ 0x7F ∨ 0xF0 ≤ h.val) :
    -16 ≤ int8 (h.val : Int) ∧ int8 (h.val : Int) ≤ 127 := by
  have := h.isLt
  unfold int8; split_ifs <;> omega

theorem narrowestWidth_tiny (i : Int) (h : -16 ≤ i ∧ i ≤ 127) : narrowestWidth i = 0 := by
  unfold narrowestWidth; rw [if_pos h]

theorem narrowestWidth_le_one (i : Int) (h : -128 ≤ i ∧ i ≤ 127) : narrowestWidth i ≤ 1 := by
  unfold narrowestWidth; split_ifs <;> omega

theorem narrowestWidth_le_two (i : Int) (h : -32768 ≤ i ∧ i ≤ 32767) :
    narrowestWidth i ≤ 2 := by
  unfold narrowestWidth; split_ifs <;> omega

theorem narrowestWidth_le_four (i : Int) (h : -2147483648 ≤ i ∧ i ≤ 2147483647) :
    narrowestWidth i ≤ 4 := by
  unfold narrowestWidth; split_ifs <;> omega

theorem narrowestWidth_le_eight (i : Int) : narrowestWidth i ≤ 8 := by
  unfold narrowestWidth; split_ifs <;> omega

theorem SendInt_shortest (i : Int) (bs : List Byte) (henc : integerEncoding bs = true)
    (hdec : Receive bs = Outcome.ret (Value.int64 i) none []) :
    (SendInt bytesBuffer [] i).1.length ≤ bs.length := by
  rw [SendInt_length]
  unfold integerEncoding at henc
  split at henc
  · rename_i m
    have hm : m.val ≤ 0x7F ∨ 0xF0 ≤ m.val := by simpa using henc
    rw [Receive_eq, ReceiveFuel_tiny _ _ _ hm] at hdec
    simp only [Outcome.ret.injEq, Value.int64.injEq, and_true] at hdec
    have := int8_tiny_range m hm
    rw [hdec] at this
    rw [narrowestWidth_tiny i this]; simp
  · rename_i m b1
    have hm : m.val = 0xC8 := by simpa using henc
    rw [Receive_eq, ReceiveFuel_int8 _ _ _ _ hm] at hdec
    simp only [Outcome.ret.injEq, Value.int64.injEq, and_true] at hdec
    have := int8_range (b1.val : Int)
    rw [hdec] at this
    have := narrowestWidth_le_one i this
    simp only [List.length_cons, List.length_nil]; omega
  · rename_i m b1 b2
    have hm : m.val = 0xC9 := by simpa using henc
    rw [Receive_eq, ReceiveFuel_int16 _ _ _ _ _ hm] at hdec
    simp only [Outcome.ret.injEq, Value.int64.injEq, and_true] at hdec
    have := int16_range ((b1.val * 256 + b2.val : Nat) : Int)
    rw [hdec] at this
    have := narrowestWidth_le_two i this
    simp only [List.length_cons, List.length_nil]; omega
  · rename_i m b1 b2 b3 b4
    have hm : m.val = 0xCA := by simpa using henc
    rw [Receive_eq, ReceiveFuel_int32 _ _ _ _ _ _ _ hm] at hdec
    simp only [Outcome.ret.injEq, Value.int64.injEq, and_true] at hdec
    have := int32_range ((b1.val * 16777216 + b2.val * 65536 + b3.val * 256 + b4.val : Nat) : Int)
    rw [hdec] at this
    have := narrowestWidth_le_four i this
    simp only [List.length_cons, List.length_nil]; omega
  · have := narrowestWidth_le_eight i
    simp only [List.length_cons, List.length_nil]; omega
  · simp at henc

/-- C6. Minimal integer encoding: for every signed 64-bit `i`, what `SendInt(i)` writes is
no longer than any integer encoding (tiny byte, `0xC8`+1, `0xC9`+2, `0xCA`+4, `0xCB`+8
bytes) that `Receive` decodes to `i`; and `SendInt` uses the narrowest of the classes
tiny, 8-bit, 16-bit, 32-bit, 64-bit whose signed range contains `i`. -/
theorem SendInt_minimal (i : Int) (hlo : -9223372036854775808 ≤ i)
    (hhi : i < 9223372036854775808) :
    (∀ bs : List Byte, integerEncoding bs = true →
      Receive bs = Outcome.ret (Value.int64 i) none [] →
      (SendInt bytesBuffer [] i).1.length ≤ bs.length)
    ∧ SendInt bytesBuffer [] i = (classEncoding (narrowestWidth i) i, none) := by
  refine ⟨fun bs henc hdec => SendInt_shortest i bs henc hdec, ?_⟩
  have h := SendInt_classEncoding i
  rw [SendInt_buffer] at h ⊢
  rw [← h]

theorem SendInt_minimal_witness :
    (-9223372036854775808 : Int) ≤ 128 ∧ (128 : Int) < 9223372036854775808 ∧
    (SendInt bytesBuffer [] 128).1.length ≤ ([0xCA, 0, 0, 0, 0x80] : List Byte).length ∧
    SendInt bytesBuffer [] 128 = (classEncoding (narrowestWidth 128) 128, none) :=
  ⟨by decide, by decide,
    (SendInt_minimal 128 (by decide) (by decide)).1 [0xCA, 0, 0, 0, 0x80] (by decide) (by rfl),
    (SendInt_minimal 128 (by decide) (by decide)).2⟩


/-! ## Text -/


theorem uint16_natCast (n : Nat) : uint16 (n : Int) = n % 65536 := by
  unfold uint16; omega

theorem uint32_natCast (n : Nat) : uint32 (n : Int) = n % 4294967296 := by
  unfold uint32; omega

theorem bigEndian_two_mod (n : Nat) : bigEndian 2 (n % 65536) = bigEndian 2 n := by
  simp only [bigEndian_two, byte, List.cons.injEq, Fin.mk.injEq, and_true]
  omega

theorem bigEndian_four_mod (n : Nat) : bigEndian 4 (n % 4294967296) = bigEndian 4 n := by
  simp only [bigEndian_four, byte, List.cons.injEq, Fin.mk.injEq, and_true]
  omega

theorem SendString_buffer (s value : List Byte) :
    SendString bytesBuffer s value = (s ++ (textHeader value.length ++ value), none) := by
  unfold SendString textHeader
  simp only [bytesBuffer, PutUint16_eq, PutUint32_eq, uint16_natCast, uint32_natCast,
    bigEndian_two_mod, bigEndian_four_mod, List.singleton_append]

theorem sendDictionaryMarker_buffer (s : List Byte) (size : Nat) :
    sendDictionaryMarker bytesBuffer s size = (s ++ sizeMarker size, none) := by
  unfold sendDictionaryMarker sizeMarker
  simp only [bytesBuffer, PutUint16_eq, PutUint32_eq, uint16_natCast, uint32_natCast,
    bigEndian_two_mod, bigEndian_four_mod, List.singleton_append]

theorem tiny_header_bits :
    ∀ n < 16, ((0x80 ||| n) % 256) >>> 4 = 8 ∧ 0x80 ^^^ ((0x80 ||| n) % 256) = n := by
  decide

theorem tiny_marker_bits :
    ∀ n < 16, ((0xA0 ||| n) % 256) >>> 4 = 0xA ∧ 0xA0 ^^^ ((0xA0 ||| n) % 256) = n := by
  decide

theorem ReceiveFuel_textHeader (fuel : Nat) (s rest : List Byte) (hL : s.length < 4294967296) :
    ReceiveFuel (fuel + 1) (textHeader s.length ++ s ++ rest) =
      Outcome.ret (Value.string s) none rest := by
  unfold textHeader
  split_ifs with h1 h2 h3
  · have hb := tiny_header_bits s.length (by omega)
    rw [List.singleton_append, List.cons_append, ReceiveFuel_string16 _ _ _ (by rw [byte_val]; exact hb.1),
      byte_val, hb.2, readString_append]
  · simp only [List.cons_append, List.nil_append]
    rw [ReceiveFuel_string255 _ _ _ rfl, readInteger_one, byte_val]
    have : ((s.length % 256 : Nat) : Int).toNat = s.length := by omega
    simp only [this, readString_append]
  · rw [bigEndian_two]
    simp only [List.cons_append, List.nil_append]
    rw [ReceiveFuel_string65535 _ _ _ rfl, readInteger_two, byte_val, byte_val]
    have : ((s.length / 256 % 256 * 256 + s.length % 256 : Nat) : Int).toNat = s.length := by
      omega
    simp only [this, readString_append]
  · rw [bigEndian_four]
    simp only [List.cons_append, List.nil_append]
    rw [ReceiveFuel_stringMax _ _ _ rfl, readInteger_four, byte_val, byte_val, byte_val, byte_val]
    have : ((s.length / 16777216 % 256 * 16777216 + s.length / 65536 % 256 * 65536
        + s.length / 256 % 256 * 256 + s.length % 256 : Nat) : Int).toNat = s.length := by
      omega
    simp only [this, readString_append]

theorem ReceiveFuel_SendString (fuel : Nat) (s rest : List Byte) (hL : s.length < 4294967296) :
    ReceiveFuel (fuel + 1) ((SendString bytesBuffer [] s).1 ++ rest) =
      Outcome.ret (Value.string s) none rest := by
  rw [SendString_buffer, List.nil_append]
  exact ReceiveFuel_textHeader fuel s rest hL

/-- C3. Text round trip: for every string `s` of byte length below `2^32` (any content, the
empty string and the lengths at the size-class boundaries included), `SendString(s)` into an
empty in-memory buffer writes without error, and `Receive` on that buffer returns the string
`s` with no error, leaving nothing unread. -/
theorem SendString_Receive_roundtrip (s : List Byte) (hL : s.length < 4294967296) :
    (SendString bytesBuffer [] s).2 = none ∧
      Receive (SendString bytesBuffer [] s).1 = Outcome.ret (Value.string s) none [] := by
  refine ⟨by rw [SendString_buffer], ?_⟩
  have h := ReceiveFuel_SendString (SendString bytesBuffer [] s).1.length s [] hL
  rw [List.append_nil] at h
  exact h

theorem SendString_Receive_roundtrip_witness :
    (List.replicate 16 (0x41 : Byte)).length < 4294967296 ∧
    (SendString bytesBuffer [] (List.replicate 16 0x41)).2 = none ∧
      Receive (SendString bytesBuffer [] (List.replicate 16 0x41)).1 =
        Outcome.ret (Value.string (List.replicate 16 0x41)) none [] :=
  ⟨by decide, SendString_Receive_roundtrip (List.replicate 16 0x41) (by decide)⟩

/-- C7. Text size-class selection: for every string `s` of byte length `L < 2^32`,
`SendString` writes exactly the header followed by the bytes of `s`, where the header is
`[0x80 | L]` if `L ≤ 15`, `[0xD0, L]` if `16 ≤ L ≤ 255`, `0xD1` and `L` as 2 big-endian bytes
if `256 ≤ L ≤ 65535`, and `0xD2` and `L` as 4 big-endian bytes otherwise. In particular
`SendString("A")` writes `[0x81, 0x41]`, length 15 uses the inline form and length 16 uses
`0xD0`. -/
theorem SendString_size_class (s : List Byte) (hL : s.length < 4294967296) :
    SendString bytesBuffer [] s =
      ((if s.length ≤ 15 then [byte (0x80 ||| s.length)]
        else if s.length ≤ 255 then [0xD0, byte s.length]
        else if s.length ≤ 65535 then 0xD1 :: bigEndian 2 s.length
        else 0xD2 :: bigEndian 4 s.length) ++ s, none)
    ∧ SendString bytesBuffer [] [0x41] = ([0x81, 0x41], none)
    ∧ (s.length = 15 → SendString bytesBuffer [] s = (0x8F :: s, none))
    ∧ (s.length = 16 → SendString bytesBuffer [] s = (0xD0 :: 0x10 :: s, none)) := by
  refine ⟨?_, by decide, fun h => ?_, fun h => ?_⟩
  · rw [SendString_buffer]; rfl
  · rw [SendString_buffer, h]; rfl
  · rw [SendString_buffer, h]; rfl

theorem SendString_size_class_witness :
    (List.replicate 17 (0x41 : Byte)).length < 4294967296 ∧
    SendString bytesBuffer [] (List.replicate 17 0x41) =
      (0xD0 :: 0x11 :: List.replicate 17 0x41, none) :=
  ⟨by decide, by
    have h := (SendString_size_class (List.replicate 17 0x41) (by decide)).1
    rw [h]; decide⟩


/-! ## Maps -/


theorem SendInt_buffer_state (s : List Byte) (i : Int) :
    SendInt bytesBuffer s i =
      (s ++ (SendInt bytesBuffer [] i).1, (SendInt bytesBuffer [] i).2) := by
  rw [SendInt_buffer, SendInt_buffer]; simp

theorem SendString_buffer_state (s value : List Byte) :
    SendString bytesBuffer s value =
      (s ++ (SendString bytesBuffer [] value).1, (SendString bytesBuffer [] value).2) := by
  rw [SendString_buffer, SendString_buffer]; simp

theorem sendEntries_cons {σ : Type} (w : Writer σ) (s : σ) (key : List Byte) (value : Value)
    (rest : List (List Byte × Value)) :
    sendEntries w s ((key, value) :: rest) =
      match SendString w s key with
      | (s1, some err) => (s1, some err)
      | (s1, none) =>
        match SendValue w s1 value with
        | (s2, some err) => (s2, some err)
        | (s2, none) => sendEntries w s2 rest := by
  rw [sendEntries]

theorem SendValue_map {σ : Type} (w : Writer σ) (s : σ) (v : List (List Byte × Value)) :
    SendValue w s (Value.map v) = SendDictionary w s v := by
  rw [SendValue, SendDictionary]

mutual
theorem SendValue_buffer_state : ∀ (v : Value) (s : List Byte),
    SendValue bytesBuffer s v =
      (s ++ (SendValue bytesBuffer [] v).1, (SendValue bytesBuffer [] v).2)
  | .nil, s => by simp [SendValue, SendNull, bytesBuffer]
  | .bool b, s => by cases b <;> simp [SendValue, SendBoolean, bytesBuffer]
  | .int i, s => by simp only [SendValue]; exact SendInt_buffer_state s i
  | .int64 i, s => by simp only [SendValue]; exact SendInt_buffer_state s i
  | .string v, s => by simp only [SendValue]; exact SendString_buffer_state s v
  | .map es, s => by
    simp only [SendValue, sendDictionaryMarker_buffer]
    rw [sendEntries_buffer_state es (s ++ sizeMarker es.length),
      sendEntries_buffer_state es ([] ++ sizeMarker es.length)]
    simp
  | .nilMap, s => by simp [SendValue, sendDictionaryMarker_buffer]
  | .unsupported _, s => by simp [SendValue]
theorem sendEntries_buffer_state : ∀ (es : List (List Byte × Value)) (s : List Byte),
    sendEntries bytesBuffer s es =
      (s ++ (sendEntries bytesBuffer [] es).1, (sendEntries bytesBuffer [] es).2)
  | [], s => by simp [sendEntries]
  | (key, value) :: rest, s => by
    rw [sendEntries_cons, sendEntries_cons]
    simp only [SendString_buffer]
    rw [SendValue_buffer_state value (s ++ (textHeader key.length ++ key)),
      SendValue_buffer_state value ([] ++ (textHeader key.length ++ key))]
    cases h : (SendValue bytesBuffer [] value).2 with
    | some err => simp
    | none =>
      simp only
      rw [sendEntries_buffer_state rest (s ++ (textHeader key.length ++ key) ++ _),
        sendEntries_buffer_state rest ([] ++ (textHeader key.length ++ key) ++ _)]
      simp
end

theorem sendEntries_cons_buffer (key : List Byte) (value : Value)
    (rest : List (List Byte × Value)) (hv : (SendValue bytesBuffer [] value).2 = none) :
    sendEntries bytesBuffer [] ((key, value) :: rest) =
      ((SendString bytesBuffer [] key).1 ++ (SendValue bytesBuffer [] value).1
        ++ (sendEntries bytesBuffer [] rest).1, (sendEntries bytesBuffer [] rest).2) := by
  rw [sendEntries_cons]
  simp only [SendString_buffer]
  rw [SendValue_buffer_state value, hv]
  simp only
  rw [sendEntries_buffer_state rest]

mutual
theorem SendValue_encodable : ∀ (v : Value), v.encodable = true →
    (SendValue bytesBuffer [] v).2 = none
  | .nil, _ => by simp [SendValue, SendNull, bytesBuffer]
  | .bool b, _ => by cases b <;> simp [SendValue, SendBoolean, bytesBuffer]
  | .int i, _ => by simp only [SendValue, SendInt_buffer]
  | .int64 i, _ => by simp only [SendValue, SendInt_buffer]
  | .string v, _ => by simp only [SendValue, SendString_buffer]
  | .map es, h => by
    simp only [SendValue, sendDictionaryMarker_buffer]
    rw [sendEntries_buffer_state es]
    exact sendEntries_encodable es (by simpa [Value.encodable] using h)
  | .nilMap, _ => by simp [SendValue, sendDictionaryMarker_buffer]
  | .unsupported _, h => by simp [Value.encodable] at h
theorem sendEntries_encodable : ∀ (es : List (List Byte × Value)), entriesEncodable es = true →
    (sendEntries bytesBuffer [] es).2 = none
  | [], _ => by simp [sendEntries]
  | (key, value) :: rest, h => by
    have h2 : value.encodable = true ∧ entriesEncodable rest = true := by
      simpa [entriesEncodable] using h
    rw [sendEntries_cons_buffer key value rest (SendValue_encodable value h2.1)]
    exact sendEntries_encodable rest h2.2
end

theorem entriesEncodable_iff (es : List (List Byte × Value)) :
    entriesEncodable es = true ↔ ∀ e ∈ es, e.2.encodable = true := by
  induction es with
  | nil => simp [entriesEncodable]
  | cons e t ih =>
    obtain ⟨k, v⟩ := e
    simp [entriesEncodable, ih]

theorem sendEntries_flatten (es : List (List Byte × Value))
    (h : ∀ e ∈ es, e.2.encodable = true) :
    sendEntries bytesBuffer [] es =
      ((es.map (fun e => (SendString bytesBuffer [] e.1).1
        ++ (SendValue bytesBuffer [] e.2).1)).flatten, none) := by
  induction es with
  | nil => simp [sendEntries]
  | cons e t ih =>
    obtain ⟨k, v⟩ := e
    have hv : v.encodable = true := h (k, v) (List.mem_cons_self _ _)
    rw [sendEntries_cons_buffer k v t (SendValue_encodable v hv),
      ih (fun e he => h e (List.mem_cons_of_mem _ he))]
    simp

theorem SendDictionary_buffer (s : List Byte) (values : List (List Byte × Value)) :
    SendDictionary bytesBuffer s values =
      (s ++ (sizeMarker values.length ++ (sendEntries bytesBuffer [] values).1),
        (sendEntries bytesBuffer [] values).2) := by
  simp only [SendDictionary, sendDictionaryMarker_buffer]
  rw [sendEntries_buffer_state]
  simp

/-- C8. Map encoding layout: for every map `m` with `N < 2^32` entries whose values are all
encodable, `SendDictionary` writes a size marker (`[0xA0 | N]` if `N ≤ 15`; `[0xD8, N]` if
`16 ≤ N ≤ 255`; `0xD9` and `N` as 2 big-endian bytes if `256 ≤ N ≤ 65535`; `0xDA` and `N` as
4 big-endian bytes otherwise) followed by, for each entry exactly once in the order the
entries are visited, the `SendString` encoding of the key immediately followed by the
`SendValue` encoding of the value. In particular the empty map is written as `[0xA0]` and a
16-entry map starts with `[0xD8, 0x10]`. -/
theorem SendDictionary_layout (m : List (List Byte × Value)) (hN : m.length < 4294967296)
    (henc : ∀ e ∈ m, e.2.encodable = true) :
    SendDictionary bytesBuffer [] m =
      ((if m.length ≤ 15 then [byte (0xA0 ||| m.length)]
        else if m.length ≤ 255 then [0xD8, byte m.length]
        else if m.length ≤ 65535 then 0xD9 :: bigEndian 2 m.length
        else 0xDA :: bigEndian 4 m.length)
        ++ (m.map (fun e => (SendString bytesBuffer [] e.1).1
              ++ (SendValue bytesBuffer [] e.2).1)).flatten, none)
    ∧ SendDictionary bytesBuffer [] [] = ([0xA0], none)
    ∧ (m.length = 16 → ∃ tail, SendDictionary bytesBuffer [] m = (0xD8 :: 0x10 :: tail, none)) := by
  have h1 : SendDictionary bytesBuffer [] m =
      (sizeMarker m.length ++ (m.map (fun e => (SendString bytesBuffer [] e.1).1
              ++ (SendValue bytesBuffer [] e.2).1)).flatten, none) := by
    rw [SendDictionary_buffer, sendEntries_flatten m henc]; simp
  refine ⟨h1, by decide, fun h16 => ?_⟩
  rw [h1, h16]
  exact ⟨_, rfl⟩

theorem SendDictionary_layout_witness :
    ([([0x6F, 0x6E, 0x65], Value.string [0x65, 0x69, 0x6E, 0x73]),
      ([], Value.map [([0x41], Value.int64 (-17))])] : List (List Byte × Value)).length
        < 4294967296 ∧
    SendDictionary bytesBuffer []
      [([0x6F, 0x6E, 0x65], Value.string [0x65, 0x69, 0x6E, 0x73]),
       ([], Value.map [([0x41], Value.int64 (-17))])] =
      ([0xA2, 0x83, 0x6F, 0x6E, 0x65, 0x84, 0x65, 0x69, 0x6E, 0x73,
        0x80, 0xA1, 0x81, 0x41, 0xC8, 0xEF], none) :=
  ⟨by decide, by
    have h := (SendDictionary_layout
      [([0x6F, 0x6E, 0x65], Value.string [0x65, 0x69, 0x6E, 0x73]),
       ([], Value.map [([0x41], Value.int64 (-17))])] (by decide)
      (by intro e he; simp at he; rcases he with rfl | rfl <;> rfl)).1
    rw [h]; decide⟩

/-! ## Round trip of values -/

theorem mapInsert_fresh (dictionary : List (List Byte × Value)) (key : List Byte)
    (value : Value) (h : key ∉ dictionary.map Prod.fst) :
    mapInsert dictionary key value = dictionary ++ [(key, value)] := by
  induction dictionary with
  | nil => rfl
  | cons e t ih =>
    obtain ⟨k, v⟩ := e
    simp only [List.map_cons, List.mem_cons, not_or] at h
    simp only [mapInsert, if_neg (Ne.symm h.1), ih h.2, List.cons_append]

theorem readDictionaryLoop_step (recv : List Byte → Outcome) (n : Nat) (r r1 r2 : List Byte)
    (dictionary : List (List Byte × Value)) (k : List Byte) (value : Value)
    (hk : recv r = Outcome.ret (Value.string k) none r1)
    (hv : recv r1 = Outcome.ret value none r2) :
    readDictionaryLoop recv (n + 1) r dictionary =
      readDictionaryLoop recv n r2 (mapInsert dictionary k value) := by
  rw [readDictionaryLoop]
  simp only [hk, hv]

theorem ReceiveFuel_null (fuel : Nat) (h : Byte) (r1 : List Byte) (hh : h.val = 0xC0) :
    ReceiveFuel (fuel + 1) (h :: r1) = Outcome.ret Value.nil none r1 := by
  rw [ReceiveFuel_cons, if_pos hh]

theorem ReceiveFuel_false (fuel : Nat) (h : Byte) (r1 : List Byte) (hh : h.val = 0xC2) :
    ReceiveFuel (fuel + 1) (h :: r1) = Outcome.ret (Value.bool false) none r1 := by
  rw [ReceiveFuel_cons, hh]
  simp

theorem ReceiveFuel_true (fuel : Nat) (h : Byte) (r1 : List Byte) (hh : h.val = 0xC3) :
    ReceiveFuel (fuel + 1) (h :: r1) = Outcome.ret (Value.bool true) none r1 := by
  rw [ReceiveFuel_cons, hh]
  simp

theorem ReceiveFuel_sizeMarker (fuel n : Nat) (rest : List Byte) (hn : n < 4294967296) :
    ReceiveFuel (fuel + 1) (sizeMarker n ++ rest) = readDictionary (ReceiveFuel fuel) n rest := by
  unfold sizeMarker
  split_ifs with h1 h2 h3
  · have hb := tiny_marker_bits n (by omega)
    rw [List.singleton_append,
      ReceiveFuel_dictionary16 _ _ _ (by rw [byte_val]; exact hb.1), byte_val, hb.2]
  · simp only [List.cons_append, List.nil_append]
    rw [ReceiveFuel_dictionary255 _ _ _ rfl, readInteger_one, byte_val]
    have : ((n % 256 : Nat) : Int).toNat = n := by omega
    simp only [this]
  · rw [bigEndian_two]
    simp only [List.cons_append, List.nil_append]
    rw [ReceiveFuel_dictionary65535 _ _ _ rfl, readInteger_two, byte_val, byte_val]
    have : ((n / 256 % 256 * 256 + n % 256 : Nat) : Int).toNat = n := by omega
    simp only [this]
  · rw [bigEndian_four]
    simp only [List.cons_append, List.nil_append]
    rw [ReceiveFuel_dictionaryMax _ _ _ rfl, readInteger_four, byte_val, byte_val, byte_val,
      byte_val]
    have : ((n / 16777216 % 256 * 16777216 + n / 65536 % 256 * 65536
        + n / 256 % 256 * 256 + n % 256 : Nat) : Int).toNat = n := by omega
    simp only [this]

theorem textHeader_length_pos (n : Nat) : 0 < (textHeader n).length := by
  unfold textHeader; split_ifs <;> simp

theorem sizeMarker_length_pos (n : Nat) : 0 < (sizeMarker n).length := by
  unfold sizeMarker; split_ifs <;> simp

mutual
theorem wellFormed_encodable : ∀ (v : Value), v.wellFormed = true → v.encodable = true
  | .nil, _ => rfl
  | .bool _, _ => rfl
  | .int _, h => by simp [Value.wellFormed] at h
  | .int64 _, _ => rfl
  | .string _, _ => rfl
  | .map es, h => by
    simp only [Value.wellFormed, Bool.and_eq_true] at h
    simp only [Value.encodable]
    exact entriesWellFormed_encodable es h.2
  | .nilMap, _ => rfl
  | .unsupported _, h => by simp [Value.wellFormed] at h
theorem entriesWellFormed_encodable : ∀ (es : List (List Byte × Value)),
    entriesWellFormed es = true → entriesEncodable es = true
  | [], _ => rfl
  | (key, value) :: rest, h => by
    simp only [entriesWellFormed, Bool.and_eq_true] at h
    simp only [entriesEncodable, Bool.and_eq_true]
    exact ⟨wellFormed_encodable value h.1.2, entriesWellFormed_encodable rest h.2⟩
end

theorem SendValue_length_pos (v : Value) (h : v.encodable = true) :
    0 < (SendValue bytesBuffer [] v).1.length := by
  cases v with
  | nil => simp [SendValue, SendNull, bytesBuffer]
  | bool b => cases b <;> simp [SendValue, SendBoolean, bytesBuffer]
  | int i => simp only [SendValue, SendInt_length]; omega
  | int64 i => simp only [SendValue, SendInt_length]; omega
  | string s =>
    have := textHeader_length_pos s.length
    simp only [SendValue, SendString_buffer, List.nil_append, List.length_append]; omega
  | map es =>
    have := sizeMarker_length_pos es.length
    rw [SendValue_map, SendDictionary_buffer]
    simp only [List.nil_append, List.length_append]; omega
  | nilMap => simp [SendValue, sendDictionaryMarker_buffer, sizeMarker]
  | unsupported _ => simp [Value.encodable] at h

mutual
theorem ReceiveFuel_SendValue : ∀ (v : Value), v.wellFormed = true →
    ∀ (fuel : Nat) (rest : List Byte), (SendValue bytesBuffer [] v).1.length ≤ fuel →
      ReceiveFuel fuel ((SendValue bytesBuffer [] v).1 ++ rest) = Outcome.ret v none rest
  | .nil, _, fuel, rest, hf => by
    obtain ⟨f, rfl⟩ : ∃ f, fuel = f + 1 :=
      ⟨fuel - 1, by simp [SendValue, SendNull, bytesBuffer] at hf; omega⟩
    simp only [SendValue, SendNull, bytesBuffer, List.nil_append, List.singleton_append]
    exact ReceiveFuel_null f _ rest rfl
  | .bool b, _, fuel, rest, hf => by
    obtain ⟨f, rfl⟩ : ∃ f, fuel = f + 1 :=
      ⟨fuel - 1, by cases b <;> simp [SendValue, SendBoolean, bytesBuffer] at hf <;> omega⟩
    cases b
    · simp only [SendValue, SendBoolean, bytesBuffer, List.nil_append, List.singleton_append]
      exact ReceiveFuel_false f _ rest rfl
    · simp only [SendValue, SendBoolean, bytesBuffer, List.nil_append, List.singleton_append]
      exact ReceiveFuel_true f _ rest rfl
  | .int _, h, _, _, _ => by simp [Value.wellFormed] at h
  | .int64 i, h, fuel, rest, hf => by
    obtain ⟨f, rfl⟩ : ∃ f, fuel = f + 1 :=
      ⟨fuel - 1, by simp only [SendValue, SendInt_length] at hf; omega⟩
    simp only [Value.wellFormed, decide_eq_true_eq] at h
    simp only [SendValue]
    exact ReceiveFuel_SendInt f i rest h.1 h.2
  | .string s, h, fuel, rest, hf => by
    obtain ⟨f, rfl⟩ : ∃ f, fuel = f + 1 :=
      ⟨fuel - 1, by
        have := SendValue_length_pos (Value.string s) rfl
        omega⟩
    simp only [Value.wellFormed, decide_eq_true_eq] at h
    simp only [SendValue]
    exact ReceiveFuel_SendString f s rest h
  | .map es, h, fuel, rest, hf => by
    simp only [Value.wellFormed, Bool.and_eq_true, decide_eq_true_eq] at h
    obtain ⟨⟨hlen, hnodup⟩, hwf⟩ := h
    rw [SendValue_map, SendDictionary_buffer] at hf ⊢
    simp only [List.nil_append, List.length_append] at hf ⊢
    have hpos := sizeMarker_length_pos es.length
    obtain ⟨f, rfl⟩ : ∃ f, fuel = f + 1 := ⟨fuel - 1, by omega⟩
    rw [List.append_assoc, ReceiveFuel_sizeMarker f es.length _ hlen, readDictionary]
    have := readDictionaryLoop_sendEntries es hwf f rest [] (by omega) (by simp) hnodup
    simpa using this
  | .nilMap, h, _, _, _ => by simp [Value.wellFormed] at h
  | .unsupported _, h, _, _, _ => by simp [Value.wellFormed] at h
theorem readDictionaryLoop_sendEntries : ∀ (es : List (List Byte × Value)),
    entriesWellFormed es = true →
    ∀ (fuel : Nat) (rest : List Byte) (dictionary : List (List Byte × Value)),
      (sendEntries bytesBuffer [] es).1.length ≤ fuel →
      (∀ e ∈ es, e.1 ∉ dictionary.map Prod.fst) → (es.map Prod.fst).Nodup →
      readDictionaryLoop (ReceiveFuel fuel) es.length
          ((sendEntries bytesBuffer [] es).1 ++ rest) dictionary =
        Outcome.ret (Value.map (dictionary ++ es)) none rest
  | [], _, fuel, rest, dictionary, _, _, _ => by
    simp [sendEntries, readDictionaryLoop]
  | (key, value) :: t, h, fuel, rest, dictionary, hf, hfresh, hnodup => by
    simp only [entriesWellFormed, Bool.and_eq_true, decide_eq_true_eq] at h
    obtain ⟨⟨hkey, hvalue⟩, ht⟩ := h
    have henc := SendValue_encodable value (wellFormed_encodable value hvalue)
    have hvpos := SendValue_length_pos value (wellFormed_encodable value hvalue)
    rw [sendEntries_cons_buffer key value t henc] at hf ⊢
    simp only [List.length_append] at hf
    obtain ⟨f, rfl⟩ : ∃ f, fuel = f + 1 := ⟨fuel - 1, by omega⟩
    have hk : ReceiveFuel (f + 1) ((SendString bytesBuffer [] key).1
        ++ ((SendValue bytesBuffer [] value).1 ++ ((sendEntries bytesBuffer [] t).1 ++ rest))) =
        Outcome.ret (Value.string key) none
          ((SendValue bytesBuffer [] value).1 ++ ((sendEntries bytesBuffer [] t).1 ++ rest)) :=
      ReceiveFuel_SendString f key _ hkey
    have hv := ReceiveFuel_SendValue value hvalue (f + 1)
      ((sendEntries bytesBuffer [] t).1 ++ rest) (by omega)
    simp only [List.length_cons, List.append_assoc]
    rw [readDictionaryLoop_step _ _ _ _ _ _ _ _ hk hv]
    simp only [List.map_cons, List.nodup_cons] at hnodup
    have hkfresh : key ∉ dictionary.map Prod.fst := hfresh (key, value) (List.mem_cons_self _ _)
    rw [mapInsert_fresh dictionary key value hkfresh]
    have ih := readDictionaryLoop_sendEntries t ht (f + 1) rest (dictionary ++ [(key, value)])
      (by omega)
      (by
        intro e he
        simp only [List.map_append, List.map_cons, List.map_nil, List.mem_append,
          List.mem_singleton, not_or]
        refine ⟨hfresh e (List.mem_cons_of_mem _ he), ?_⟩
        intro heq
        exact hnodup.1 (heq ▸ List.mem_map_of_mem Prod.fst he))
      hnodup.2
    rw [ih]
    simp
end

/-- C1. Round trip of every value: for every value `v` built from `nil`, `bool`, `int64`,
strings (any byte content, length below `2^32`) and string-keyed maps of such values (fewer
than `2^32` entries, unique keys, nested to any depth), and for every order in which
`SendDictionary` visits the entries of each map (the order of the entry lists of `v`),
writing `v` with `SendValue` into an initially empty in-memory buffer succeeds, and
`Receive` on that buffer returns exactly `v` with no error, leaving nothing unread. -/
theorem SendValue_Receive_roundtrip (v : Value) (h : v.wellFormed = true) :
    (SendValue bytesBuffer [] v).2 = none ∧
      Receive (SendValue bytesBuffer [] v).1 = Outcome.ret v none [] := by
  refine ⟨SendValue_encodable v (wellFormed_encodable v h), ?_⟩
  have hr := ReceiveFuel_SendValue v h ((SendValue bytesBuffer [] v).1.length + 1) []
    (Nat.le_succ _)
  rw [List.append_nil] at hr
  exact hr

theorem SendValue_Receive_roundtrip_witness :
    (Value.map [([0x6F, 0x6E, 0x65], Value.string [0x65, 0x69, 0x6E, 0x73]),
        ([], Value.map [([0x41], Value.int64 (-17)), ([0x42], Value.map [])]),
        ([0x6E], Value.nil), ([0x62], Value.bool true)]).wellFormed = true ∧
    (SendValue bytesBuffer []
      (Value.map [([0x6F, 0x6E, 0x65], Value.string [0x65, 0x69, 0x6E, 0x73]),
        ([], Value.map [([0x41], Value.int64 (-17)), ([0x42], Value.map [])]),
        ([0x6E], Value.nil), ([0x62], Value.bool true)])).2 = none ∧
    Receive (SendValue bytesBuffer []
      (Value.map [([0x6F, 0x6E, 0x65], Value.string [0x65, 0x69, 0x6E, 0x73]),
        ([], Value.map [([0x41], Value.int64 (-17)), ([0x42], Value.map [])]),
        ([0x6E], Value.nil), ([0x62], Value.bool true)])).1 =
      Outcome.ret
        (Value.map [([0x6F, 0x6E, 0x65], Value.string [0x65, 0x69, 0x6E, 0x73]),
          ([], Value.map [([0x41], Value.int64 (-17)), ([0x42], Value.map [])]),
          ([0x6E], Value.nil), ([0x62], Value.bool true)]) none [] :=
  ⟨by decide, SendValue_Receive_roundtrip _ (by decide)⟩

/-! ## Short reads and dropped read errors -/

/-- C9 fails on the code. A text header announcing 10 bytes followed by only 5 bytes is
decoded, with no error, to a 10-byte string padded with zero bytes; and marker `0xC9`
followed by the single byte `0x01` is decoded, with no error, to the integer 256. -/
theorem Receive_short_read_accepted :
    Receive [0x8A, 0x41, 0x42, 0x43, 0x44, 0x45] =
      Outcome.ret (Value.string [0x41, 0x42, 0x43, 0x44, 0x45, 0, 0, 0, 0, 0]) none []
    ∧ Receive [0xC9, 0x01] = Outcome.ret (Value.int64 256) none [] :=
  ⟨by rfl, by rfl⟩

/-- C10 fails on the code. On a source holding only the byte `0xD8` the failed read of the
size field is dropped and `Receive` returns an empty map with no error; on a source holding
only `0xD0` it returns the empty string with no error. -/
theorem Receive_swallows_size_read_error :
    readInteger 1 [] = (0, some Error.EOF, [])
    ∧ Receive [0xD8] = Outcome.ret (Value.map []) none []
    ∧ Receive [0xD0] = Outcome.ret (Value.string []) none [] :=
  ⟨by rfl, by rfl, by rfl⟩

/-! ## Multi-byte and tiny integers on decode -/

theorem signedBigEndian_one (b1 : Byte) : signedBigEndian [b1] = int8 (b1.val : Int) := by
  have h1 := b1.isLt
  simp only [signedBigEndian, bigEndianValue, List.foldl_cons, List.foldl_nil, List.length_cons,
    List.length_nil, int8]
  norm_num
  split_ifs <;> omega

theorem signedBigEndian_two (b1 b2 : Byte) :
    signedBigEndian [b1, b2] = int16 ((b1.val * 256 + b2.val : Nat) : Int) := by
  have h1 := b1.isLt
  have h2 := b2.isLt
  simp only [signedBigEndian, bigEndianValue, List.foldl_cons, List.foldl_nil, List.length_cons,
    List.length_nil, int16]
  norm_num
  split_ifs <;> omega

theorem signedBigEndian_four (b1 b2 b3 b4 : Byte) :
    signedBigEndian [b1, b2, b3, b4] =
      int32 ((b1.val * 16777216 + b2.val * 65536 + b3.val * 256 + b4.val : Nat) : Int) := by
  have h1 := b1.isLt
  have h2 := b2.isLt
  have h3 := b3.isLt
  have h4 := b4.isLt
  simp only [signedBigEndian, bigEndianValue, List.foldl_cons, List.foldl_nil, List.length_cons,
    List.length_nil, int32]
  norm_num
  split_ifs <;> omega

theorem signedBigEndian_eight (b1 b2 b3 b4 b5 b6 b7 b8 : Byte) :
    signedBigEndian [b1, b2, b3, b4, b5, b6, b7, b8] =
      int64 ((b1.val * 72057594037927936 + b2.val * 281474976710656 + b3.val * 1099511627776
        + b4.val * 4294967296 + b5.val * 16777216 + b6.val * 65536 + b7.val * 256 + b8.val : Nat)
        : Int) := by
  have h1 := b1.isLt
  have h2 := b2.isLt
  have h3 := b3.isLt
  have h4 := b4.isLt
  have h5 := b5.isLt
  have h6 := b6.isLt
  have h7 := b7.isLt
  have h8 := b8.isLt
  simp only [signedBigEndian, bigEndianValue, List.foldl_cons, List.foldl_nil, List.length_cons,
    List.length_nil, int64]
  norm_num
  split_ifs <;> omega

/-- C15. Multi-byte integer decode: for each marker `0xC8`, `0xC9`, `0xCA`, `0xCB` and every
sequence of `k = 1, 2, 4, 8` following bytes, `Receive` returns, with no error, the `int64`
equal to the `k`-byte big-endian two's-complement value of those bytes sign-extended to 64
bits, and leaves what follows unread; also when the value would fit a narrower class:
`[0xC8, 0x05]` decodes to 5 and `[0xC9, 0xFF, 0xFF]` to -1. -/
theorem Receive_multi_byte_integer (b1 b2 b3 b4 b5 b6 b7 b8 : Byte) (rest : List Byte) :
    Receive (0xC8 :: b1 :: rest) = Outcome.ret (Value.int64 (signedBigEndian [b1])) none rest
    ∧ Receive (0xC9 :: b1 :: b2 :: rest) =
        Outcome.ret (Value.int64 (signedBigEndian [b1, b2])) none rest
    ∧ Receive (0xCA :: b1 :: b2 :: b3 :: b4 :: rest) =
        Outcome.ret (Value.int64 (signedBigEndian [b1, b2, b3, b4])) none rest
    ∧ Receive (0xCB :: b1 :: b2 :: b3 :: b4 :: b5 :: b6 :: b7 :: b8 :: rest) =
        Outcome.ret (Value.int64 (signedBigEndian [b1, b2, b3, b4, b5, b6, b7, b8])) none rest
    ∧ Receive [0xC8, 0x05] = Outcome.ret (Value.int64 5) none []
    ∧ Receive [0xC9, 0xFF, 0xFF] = Outcome.ret (Value.int64 (-1)) none [] := by
  refine ⟨?_, ?_, ?_, ?_, by rfl, by rfl⟩
  · rw [Receive_eq, ReceiveFuel_int8 _ _ _ _ rfl, signedBigEndian_one]
  · rw [Receive_eq, ReceiveFuel_int16 _ _ _ _ _ rfl, signedBigEndian_two]
  · rw [Receive_eq, ReceiveFuel_int32 _ _ _ _ _ _ _ rfl, signedBigEndian_four]
  · rw [Receive_eq, ReceiveFuel_int64 _ _ _ _ _ _ _ _ _ _ _ rfl, signedBigEndian_eight]

theorem tiny_test_iff (m : Byte) :
    (m.val >>> 4 ≥ 0xF ∨ m.val >>> 4 ≤ 0x7) ↔ (m.val ≤ 0x7F ∨ m.val ≥ 0xF0) := by
  have h4 : m.val >>> 4 = m.val / 16 := by simp [Nat.shiftRight_eq_div_pow]
  have := m.isLt
  rw [h4]; omega

theorem tiny_range_iff (m : Byte) :
    (m.val ≤ 0x7F ∨ m.val ≥ 0xF0) ↔
      (-16 ≤ signedBigEndian [m] ∧ signedBigEndian [m] ≤ 127) := by
  have := m.isLt
  rw [signedBigEndian_one]
  unfold int8
  split_ifs <;> omega

/-- C16. Tiny-integer detection: for every marker byte `m`, the test of the code
(`m>>4 ≥ 0xF` or `m>>4 ≤ 0x7`) is true exactly when `m ≤ 0x7F` or `m ≥ 0xF0`, that is exactly
when `m` read as a signed 8-bit value lies in `[-16, 127]`; for every such `m`, `Receive`
returns the integer equal to that signed value and reads no further bytes, and none of the
earlier dispatch cases (`0xC0`, `0xC2`, `0xC3`) applies. -/
theorem Receive_tiny_detection (m : Byte) :
    ((m.val >>> 4 ≥ 0xF ∨ m.val >>> 4 ≤ 0x7) ↔ (m.val ≤ 0x7F ∨ m.val ≥ 0xF0))
    ∧ ((m.val ≤ 0x7F ∨ m.val ≥ 0xF0) ↔
        (-16 ≤ signedBigEndian [m] ∧ signedBigEndian [m] ≤ 127))
    ∧ ((m.val ≤ 0x7F ∨ m.val ≥ 0xF0) →
        (∀ rest : List Byte,
          Receive (m :: rest) = Outcome.ret (Value.int64 (signedBigEndian [m])) none rest)
        ∧ m.val ≠ 0xC0 ∧ m.val ≠ 0xC2 ∧ m.val ≠ 0xC3) := by
  refine ⟨tiny_test_iff m, tiny_range_iff m, fun h => ⟨fun rest => ?_, ?_, ?_, ?_⟩⟩
  · rw [Receive_eq, ReceiveFuel_tiny _ _ _ h, signedBigEndian_one]
  · omega
  · omega
  · omega

theorem Receive_tiny_detection_witness :
    (((0xF0 : Byte).val ≤ 0x7F ∨ (0xF0 : Byte).val ≥ 0xF0))
    ∧ Receive [0xF0, 0xC0] = Outcome.ret (Value.int64 (signedBigEndian [0xF0])) none [0xC0]
    ∧ signedBigEndian [0xF0] = -16 :=
  ⟨by decide, ((Receive_tiny_detection 0xF0).2.2 (by decide)).1 [0xC0], by decide⟩

/-! ## Dispatch on the marker -/

theorem Read_cases (r p : List Byte) :
    (Read r p).2.1 = none ∨ ((Read r p).2.1 = some Error.EOF ∧ r = []) := by
  unfold Read
  cases r with
  | nil => cases p <;> simp
  | cons x xs => simp

theorem Read_rest_length (r p : List Byte) : (Read r p).2.2.length ≤ r.length := by
  unfold Read
  split_ifs <;> simp

theorem readInteger_cases (k : Nat) (r : List Byte) :
    (readInteger k r).2.1 = none ∨ ((readInteger k r).2.1 = some Error.EOF ∧ r = []) := by
  have h := Read_cases r (make k)
  unfold readInteger
  rcases hr : Read r (make k) with ⟨buf, err, r1⟩
  rw [hr] at h
  cases err with
  | none => simp
  | some e =>
    simp only [Option.some.injEq, false_or, reduceCtorEq] at h ⊢
    exact h

theorem readInteger_rest_length (k : Nat) (r : List Byte) :
    (readInteger k r).2.2.length ≤ r.length := by
  have h := Read_rest_length r (make k)
  unfold readInteger
  rcases hr : Read r (make k) with ⟨buf, err, r1⟩
  rw [hr] at h
  cases err <;> exact h

theorem readString_cases (n : Nat) (r : List Byte) :
    (readString n r).2.1 = none ∨ ((readString n r).2.1 = some Error.EOF ∧ r = []) := by
  have h := Read_cases r (make n)
  unfold readString
  rcases hr : Read r (make n) with ⟨buf, err, r1⟩
  rw [hr] at h
  cases err with
  | none => simp
  | some e =>
    simp only [Option.some.injEq, false_or, reduceCtorEq] at h ⊢
    exact h

theorem readString_rest_length (n : Nat) (r : List Byte) :
    (readString n r).2.2.length ≤ r.length := by
  have h := Read_rest_length r (make n)
  unfold readString
  rcases hr : Read r (make n) with ⟨buf, err, r1⟩
  rw [hr] at h
  cases err <;> exact h

/-- The shapes of what `Receive` does on an input that starts with the byte `h`. -/
theorem ReceiveFuel_cons_cases (fuel : Nat) (h : Byte) (t : List Byte) :
    (∃ v, ReceiveFuel (fuel + 1) (h :: t) = Outcome.ret v none t)
    ∨ (∃ k v, ReceiveFuel (fuel + 1) (h :: t) =
        Outcome.ret v (readInteger k t).2.1 (readInteger k t).2.2)
    ∨ (∃ n t1, t1.length ≤ t.length ∧ ReceiveFuel (fuel + 1) (h :: t) =
        Outcome.ret (Value.string (readString n t1).1) (readString n t1).2.1
          (readString n t1).2.2)
    ∨ (∃ n t1, t1.length ≤ t.length ∧
        ReceiveFuel (fuel + 1) (h :: t) = readDictionary (ReceiveFuel fuel) n t1)
    ∨ (unknownMarker h = true ∧ ReceiveFuel (fuel + 1) (h :: t) =
        Outcome.ret Value.nil (some (Error.unexpectedType h)) t) := by
  have key := ReceiveFuel_cons fuel h t
  have h4 : h.val >>> 4 = h.val / 16 := by simp [Nat.shiftRight_eq_div_pow]
  rw [h4] at key
  have hlt := h.isLt
  by_cases c1 : h.val = 0xC0
  · rw [if_pos c1] at key; exact Or.inl ⟨_, key⟩
  rw [if_neg c1] at key
  by_cases c2 : h.val = 0xC2
  · rw [if_pos c2] at key; exact Or.inl ⟨_, key⟩
  rw [if_neg c2] at key
  by_cases c3 : h.val = 0xC3
  · rw [if_pos c3] at key; exact Or.inl ⟨_, key⟩
  rw [if_neg c3] at key
  by_cases c4 : h.val / 16 ≥ 0xF ∨ h.val / 16 ≤ 0x7
  · rw [if_pos c4] at key; exact Or.inl ⟨_, key⟩
  rw [if_neg c4] at key
  by_cases c5 : h.val = 0xC8
  · rw [if_pos c5] at key; exact Or.inr (Or.inl ⟨_, _, key⟩)
  rw [if_neg c5] at key
  by_cases c6 : h.val = 0xC9
  · rw [if_pos c6] at key; exact Or.inr (Or.inl ⟨_, _, key⟩)
  rw [if_neg c6] at key
  by_cases c7 : h.val = 0xCA
  · rw [if_pos c7] at key; exact Or.inr (Or.inl ⟨_, _, key⟩)
  rw [if_neg c7] at key
  by_cases c8 : h.val = 0xCB
  · rw [if_pos c8] at key; exact Or.inr (Or.inl ⟨_, _, key⟩)
  rw [if_neg c8] at key
  by_cases c9 : h.val / 16 = 0x8
  · rw [if_pos c9] at key; exact Or.inr (Or.inr (Or.inl ⟨_, t, le_refl _, key⟩))
  rw [if_neg c9] at key
  by_cases c10 : h.val = 0xD0
  · rw [if_pos c10] at key
    exact Or.inr (Or.inr (Or.inl ⟨_, _, readInteger_rest_length 1 t, key⟩))
  rw [if_neg c10] at key
  by_cases c11 : h.val = 0xD1
  · rw [if_pos c11] at key
    exact Or.inr (Or.inr (Or.inl ⟨_, _, readInteger_rest_length 2 t, key⟩))
  rw [if_neg c11] at key
  by_cases c12 : h.val = 0xD2
  · rw [if_pos c12] at key
    exact Or.inr (Or.inr (Or.inl ⟨_, _, readInteger_rest_length 4 t, key⟩))
  rw [if_neg c12] at key
  by_cases c13 : h.val / 16 = 0xA
  · rw [if_pos c13] at key; exact Or.inr (Or.inr (Or.inr (Or.inl ⟨_, t, le_refl _, key⟩)))
  rw [if_neg c13] at key
  by_cases c14 : h.val = 0xD8
  · rw [if_pos c14] at key
    exact Or.inr (Or.inr (Or.inr (Or.inl ⟨_, _, readInteger_rest_length 1 t, key⟩)))
  rw [if_neg c14] at key
  by_cases c15 : h.val = 0xD9
  · rw [if_pos c15] at key
    exact Or.inr (Or.inr (Or.inr (Or.inl ⟨_, _, readInteger_rest_length 2 t, key⟩)))
  rw [if_neg c15] at key
  by_cases c16 : h.val = 0xDA
  · rw [if_pos c16] at key
    exact Or.inr (Or.inr (Or.inr (Or.inl ⟨_, _, readInteger_rest_length 4 t, key⟩)))
  rw [if_neg c16] at key
  refine Or.inr (Or.inr (Or.inr (Or.inr ⟨?_, key⟩)))
  simp only [unknownMarker, decide_eq_true_eq]
  omega

theorem ReceiveFuel_unknown (fuel : Nat) (h : Byte) (t : List Byte)
    (hu : unknownMarker h = true) :
    ReceiveFuel (fuel + 1) (h :: t) =
      Outcome.ret Value.nil (some (Error.unexpectedType h)) t := by
  simp only [unknownMarker, decide_eq_true_eq] at hu
  have key := ReceiveFuel_cons fuel h t
  have h4 : h.val >>> 4 = h.val / 16 := by simp [Nat.shiftRight_eq_div_pow]
  rw [h4] at key
  have notSimple : ¬ h.val = 0xC0 ∧ ¬ h.val = 0xC2 ∧ ¬ h.val = 0xC3
      ∧ ¬ (h.val / 16 ≥ 0xF ∨ h.val / 16 ≤ 0x7) := by omega
  have notInt : ¬ h.val = 0xC8 ∧ ¬ h.val = 0xC9 ∧ ¬ h.val = 0xCA ∧ ¬ h.val = 0xCB := by omega
  have notText : ¬ h.val / 16 = 0x8 ∧ ¬ h.val = 0xD0 ∧ ¬ h.val = 0xD1 ∧ ¬ h.val = 0xD2 := by
    omega
  have notMap : ¬ h.val / 16 = 0xA ∧ ¬ h.val = 0xD8 ∧ ¬ h.val = 0xD9 ∧ ¬ h.val = 0xDA := by
    omega
  rw [if_neg notSimple.1, if_neg notSimple.2.1, if_neg notSimple.2.2.1, if_neg notSimple.2.2.2,
    if_neg notInt.1, if_neg notInt.2.1, if_neg notInt.2.2.1, if_neg notInt.2.2.2,
    if_neg notText.1, if_neg notText.2.1, if_neg notText.2.2.1, if_neg notText.2.2.2,
    if_neg notMap.1, if_neg notMap.2.1, if_neg notMap.2.2.1, if_neg notMap.2.2.2] at key
  exact key

/-! ## The loop of `readDictionary` -/

theorem readDictionaryLoop_zero (recv : List Byte → Outcome) (r : List Byte)
    (d : List (List Byte × Value)) :
    readDictionaryLoop recv 0 r d = Outcome.ret (Value.map d) none r := by
  rw [readDictionaryLoop]

theorem readDictionaryLoop_keyError (recv : List Byte → Outcome) (n : Nat) (r r1 : List Byte)
    (d : List (List Byte × Value)) (key : Value) (err : Error)
    (hk : recv r = Outcome.ret key (some err) r1) :
    readDictionaryLoop recv (n + 1) r d = Outcome.ret Value.nilMap (some err) r1 := by
  rw [readDictionaryLoop]
  simp only [hk]

theorem readDictionaryLoop_valueError (recv : List Byte → Outcome) (n : Nat)
    (r r1 r2 : List Byte) (d : List (List Byte × Value)) (key value : Value) (err : Error)
    (hk : recv r = Outcome.ret key none r1)
    (hv : recv r1 = Outcome.ret value (some err) r2) :
    readDictionaryLoop recv (n + 1) r d = Outcome.ret Value.nilMap (some err) r2 := by
  rw [readDictionaryLoop]
  simp only [hk, hv]

theorem readDictionaryLoop_keyPanic (recv : List Byte → Outcome) (n : Nat) (r : List Byte)
    (d : List (List Byte × Value)) (hk : recv r = Outcome.panic) :
    readDictionaryLoop recv (n + 1) r d = Outcome.panic := by
  rw [readDictionaryLoop]
  simp only [hk]

theorem readDictionaryLoop_keyFuel (recv : List Byte → Outcome) (n : Nat) (r : List Byte)
    (d : List (List Byte × Value)) (hk : recv r = Outcome.outOfFuel) :
    readDictionaryLoop recv (n + 1) r d = Outcome.outOfFuel := by
  rw [readDictionaryLoop]
  simp only [hk]

theorem readDictionaryLoop_valuePanic (recv : List Byte → Outcome) (n : Nat)
    (r r1 : List Byte) (d : List (List Byte × Value)) (key : Value)
    (hk : recv r = Outcome.ret key none r1) (hv : recv r1 = Outcome.panic) :
    readDictionaryLoop recv (n + 1) r d = Outcome.panic := by
  rw [readDictionaryLoop]
  simp only [hk, hv]

theorem readDictionaryLoop_valueFuel (recv : List Byte → Outcome) (n : Nat)
    (r r1 : List Byte) (d : List (List Byte × Value)) (key : Value)
    (hk : recv r = Outcome.ret key none r1) (hv : recv r1 = Outcome.outOfFuel) :
    readDictionaryLoop recv (n + 1) r d = Outcome.outOfFuel := by
  rw [readDictionaryLoop]
  simp only [hk, hv]

theorem readDictionaryLoop_badKey (recv : List Byte → Outcome) (n : Nat)
    (r r1 r2 : List Byte) (d : List (List Byte × Value)) (key value : Value)
    (hk : recv r = Outcome.ret key none r1) (hv : recv r1 = Outcome.ret value none r2)
    (hkey : ∀ k, key ≠ Value.string k) :
    readDictionaryLoop recv (n + 1) r d = Outcome.panic := by
  cases key <;>
    first
    | exact absurd rfl (hkey _)
    | (rw [readDictionaryLoop]; simp only [hk, hv])

/-- What one iteration of the loop of `readDictionary` does. -/
theorem readDictionaryLoop_succ_cases (recv : List Byte → Outcome) (n : Nat) (r : List Byte)
    (d : List (List Byte × Value)) :
    (∃ key err r1, recv r = Outcome.ret key (some err) r1 ∧
        readDictionaryLoop recv (n + 1) r d = Outcome.ret Value.nilMap (some err) r1)
    ∨ (∃ key r1 value err r2, recv r = Outcome.ret key none r1 ∧
        recv r1 = Outcome.ret value (some err) r2 ∧
        readDictionaryLoop recv (n + 1) r d = Outcome.ret Value.nilMap (some err) r2)
    ∨ (∃ k r1 value r2, recv r = Outcome.ret (Value.string k) none r1 ∧
        recv r1 = Outcome.ret value none r2 ∧
        readDictionaryLoop recv (n + 1) r d =
          readDictionaryLoop recv n r2 (mapInsert d k value))
    ∨ (∃ key r1 value r2, recv r = Outcome.ret key none r1 ∧
        recv r1 = Outcome.ret value none r2 ∧ (∀ k, key ≠ Value.string k) ∧
        readDictionaryLoop recv (n + 1) r d = Outcome.panic)
    ∨ ((recv r = Outcome.panic ∨ ∃ key r1, recv r = Outcome.ret key none r1 ∧
          recv r1 = Outcome.panic) ∧
        readDictionaryLoop recv (n + 1) r d = Outcome.panic)
    ∨ ((recv r = Outcome.outOfFuel ∨ ∃ key r1, recv r = Outcome.ret key none r1 ∧
          recv r1 = Outcome.outOfFuel) ∧
        readDictionaryLoop recv (n + 1) r d = Outcome.outOfFuel) := by
  cases hk : recv r with
  | panic => exact Or.inr (Or.inr (Or.inr (Or.inr (Or.inl
      ⟨Or.inl rfl, readDictionaryLoop_keyPanic recv n r d hk⟩))))
  | outOfFuel => exact Or.inr (Or.inr (Or.inr (Or.inr (Or.inr
      ⟨Or.inl rfl, readDictionaryLoop_keyFuel recv n r d hk⟩))))
  | ret key err r1 =>
    cases err with
    | some e => exact Or.inl ⟨key, e, r1, rfl, readDictionaryLoop_keyError recv n r r1 d key e hk⟩
    | none =>
      cases hv : recv r1 with
      | panic => exact Or.inr (Or.inr (Or.inr (Or.inr (Or.inl
          ⟨Or.inr ⟨key, r1, rfl, hv⟩, readDictionaryLoop_valuePanic recv n r r1 d key hk hv⟩))))
      | outOfFuel => exact Or.inr (Or.inr (Or.inr (Or.inr (Or.inr
          ⟨Or.inr ⟨key, r1, rfl, hv⟩, readDictionaryLoop_valueFuel recv n r r1 d key hk hv⟩))))
      | ret value err r2 =>
        cases err with
        | some e => exact Or.inr (Or.inl ⟨key, r1, value, e, r2, rfl, hv,
            readDictionaryLoop_valueError recv n r r1 r2 d key value e hk hv⟩)
        | none =>
          by_cases hkey : ∃ k, key = Value.string k
          · obtain ⟨k, rfl⟩ := hkey
            exact Or.inr (Or.inr (Or.inl ⟨k, r1, value, r2, rfl, hv,
              readDictionaryLoop_step recv n r r1 r2 d k value hk hv⟩))
          · exact Or.inr (Or.inr (Or.inr (Or.inl ⟨key, r1, value, r2, rfl, hv,
              fun k hk2 => hkey ⟨k, hk2⟩,
              readDictionaryLoop_badKey recv n r r1 r2 d key value hk hv
                (fun k hk2 => hkey ⟨k, hk2⟩)⟩)))

/-! ## Progress and nesting depth -/

theorem readDictionaryLoop_rest_length (recv : List Byte → Outcome) (hrecv : NonIncreasing recv) :
    ∀ (n : Nat) (r : List Byte) (d : List (List Byte × Value)) (v : Value) (e : Option Error)
      (rest : List Byte),
      readDictionaryLoop recv n r d = Outcome.ret v e rest → rest.length ≤ r.length := by
  intro n
  induction n with
  | zero =>
    intro r d v e rest h
    rw [readDictionaryLoop_zero] at h
    obtain ⟨-, -, rfl⟩ := Outcome.ret.inj h
    exact le_refl _
  | succ n ih =>
    intro r d v e rest h
    rcases readDictionaryLoop_succ_cases recv n r d with
      ⟨key, err, r1, hk, heq⟩ | ⟨key, r1, value, err, r2, hk, hv, heq⟩
      | ⟨k, r1, value, r2, hk, hv, heq⟩ | ⟨key, r1, value, r2, hk, hv, -, heq⟩
      | ⟨-, heq⟩ | ⟨-, heq⟩
    · rw [heq] at h
      obtain ⟨-, -, rfl⟩ := Outcome.ret.inj h
      exact hrecv _ _ _ _ hk
    · rw [heq] at h
      obtain ⟨-, -, rfl⟩ := Outcome.ret.inj h
      exact le_trans (hrecv _ _ _ _ hv) (hrecv _ _ _ _ hk)
    · rw [heq] at h
      exact le_trans (ih _ _ _ _ _ h) (le_trans (hrecv _ _ _ _ hv) (hrecv _ _ _ _ hk))
    · rw [heq] at h; cases h
    · rw [heq] at h; cases h
    · rw [heq] at h; cases h

theorem ReceiveFuel_rest_length : ∀ (fuel : Nat) (r : List Byte) (v : Value) (e : Option Error)
    (rest : List Byte), ReceiveFuel fuel r = Outcome.ret v e rest →
      rest.length ≤ r.length - 1 := by
  intro fuel
  induction fuel with
  | zero => intro r v e rest h; rw [ReceiveFuel] at h; cases h
  | succ fuel ih =>
    intro r v e rest h
    cases r with
    | nil =>
      rw [ReceiveFuel_nil] at h
      obtain ⟨-, -, rfl⟩ := Outcome.ret.inj h
      simp
    | cons b t =>
      simp only [List.length_cons, Nat.add_sub_cancel]
      rcases ReceiveFuel_cons_cases fuel b t with
        ⟨v0, heq⟩ | ⟨k, v0, heq⟩ | ⟨n, t1, ht1, heq⟩ | ⟨n, t1, ht1, heq⟩ | ⟨-, heq⟩
      · rw [heq] at h
        obtain ⟨-, -, rfl⟩ := Outcome.ret.inj h
        exact le_refl _
      · rw [heq] at h
        obtain ⟨-, -, rfl⟩ := Outcome.ret.inj h
        exact readInteger_rest_length k t
      · rw [heq] at h
        obtain ⟨-, -, rfl⟩ := Outcome.ret.inj h
        exact le_trans (readString_rest_length n t1) ht1
      · rw [heq, readDictionary] at h
        have hrecv : NonIncreasing (ReceiveFuel fuel) := fun r v e rest hr =>
          le_trans (ih r v e rest hr) (Nat.sub_le _ _)
        exact le_trans (readDictionaryLoop_rest_length _ hrecv _ _ _ _ _ _ h) ht1
      · rw [heq] at h
        obtain ⟨-, -, rfl⟩ := Outcome.ret.inj h
        exact le_refl _

theorem ReceiveFuel_nonIncreasing (fuel : Nat) : NonIncreasing (ReceiveFuel fuel) :=
  fun r v e rest hr => le_trans (ReceiveFuel_rest_length fuel r v e rest hr) (Nat.sub_le _ _)

theorem readDictionaryLoop_ne_outOfFuel (recv : List Byte → Outcome)
    (hrecv : NonIncreasing recv) :
    ∀ (n : Nat) (r : List Byte) (d : List (List Byte × Value)),
      (∀ r0 : List Byte, r0.length ≤ r.length → recv r0 ≠ Outcome.outOfFuel) →
      readDictionaryLoop recv n r d ≠ Outcome.outOfFuel := by
  intro n
  induction n with
  | zero => intro r d _; rw [readDictionaryLoop_zero]; exact fun h => by cases h
  | succ n ih =>
    intro r d hfuel
    rcases readDictionaryLoop_succ_cases recv n r d with
      ⟨key, err, r1, hk, heq⟩ | ⟨key, r1, value, err, r2, hk, hv, heq⟩
      | ⟨k, r1, value, r2, hk, hv, heq⟩ | ⟨key, r1, value, r2, hk, hv, -, heq⟩
      | ⟨-, heq⟩ | ⟨hbad, -⟩
    · rw [heq]; exact fun h => by cases h
    · rw [heq]; exact fun h => by cases h
    · rw [heq]
      have h2 : r2.length ≤ r.length := le_trans (hrecv _ _ _ _ hv) (hrecv _ _ _ _ hk)
      exact ih r2 _ (fun r0 h0 => hfuel r0 (le_trans h0 h2))
    · rw [heq]; exact fun h => by cases h
    · rw [heq]; exact fun h => by cases h
    · rcases hbad with hk | ⟨key, r1, hk, hv⟩
      · exact absurd hk (hfuel r (le_refl _))
      · exact absurd hv (hfuel r1 (hrecv _ _ _ _ hk))

/-- Fuel above the length of the input is never used up. -/
theorem ReceiveFuel_ne_outOfFuel : ∀ (fuel : Nat) (r : List Byte), r.length < fuel →
    ReceiveFuel fuel r ≠ Outcome.outOfFuel := by
  intro fuel
  induction fuel with
  | zero => intro r h; omega
  | succ fuel ih =>
    intro r hr
    cases r with
    | nil => rw [ReceiveFuel_nil]; exact fun h => by cases h
    | cons b t =>
      simp only [List.length_cons, Nat.add_lt_add_iff_right] at hr
      rcases ReceiveFuel_cons_cases fuel b t with
        ⟨v0, heq⟩ | ⟨k, v0, heq⟩ | ⟨n, t1, ht1, heq⟩ | ⟨n, t1, ht1, heq⟩ | ⟨-, heq⟩
      · rw [heq]; exact fun h => by cases h
      · rw [heq]; exact fun h => by cases h
      · rw [heq]; exact fun h => by cases h
      · rw [heq, readDictionary]
        exact readDictionaryLoop_ne_outOfFuel _ (ReceiveFuel_nonIncreasing fuel) n t1 []
          (fun r0 h0 => ih r0 (by omega))
      · rw [heq]; exact fun h => by cases h

theorem readDictionaryLoop_congr (recv1 recv2 : List Byte → Outcome)
    (hrecv : NonIncreasing recv1) :
    ∀ (n : Nat) (r : List Byte) (d : List (List Byte × Value)),
      (∀ r0 : List Byte, r0.length ≤ r.length → recv1 r0 = recv2 r0) →
      readDictionaryLoop recv1 n r d = readDictionaryLoop recv2 n r d := by
  intro n
  induction n with
  | zero => intro r d _; rw [readDictionaryLoop_zero, readDictionaryLoop_zero]
  | succ n ih =>
    intro r d hsame
    have hr := hsame r (le_refl _)
    rcases readDictionaryLoop_succ_cases recv1 n r d with
      ⟨key, err, r1, hk, heq⟩ | ⟨key, r1, value, err, r2, hk, hv, heq⟩
      | ⟨k, r1, value, r2, hk, hv, heq⟩ | ⟨key, r1, value, r2, hk, hv, hkey, heq⟩
      | ⟨hbad, heq⟩ | ⟨hbad, heq⟩
    · rw [heq, readDictionaryLoop_keyError recv2 n r r1 d key err (hr ▸ hk)]
    · have h1 := hsame r1 (hrecv _ _ _ _ hk)
      rw [heq, readDictionaryLoop_valueError recv2 n r r1 r2 d key value err (hr ▸ hk)
        (h1 ▸ hv)]
    · have h1 := hsame r1 (hrecv _ _ _ _ hk)
      have h2 : r2.length ≤ r.length := le_trans (hrecv _ _ _ _ hv) (hrecv _ _ _ _ hk)
      rw [heq, readDictionaryLoop_step recv2 n r r1 r2 d k value (hr ▸ hk) (h1 ▸ hv)]
      exact ih r2 _ (fun r0 h0 => hsame r0 (le_trans h0 h2))
    · have h1 := hsame r1 (hrecv _ _ _ _ hk)
      rw [heq, readDictionaryLoop_badKey recv2 n r r1 r2 d key value (hr ▸ hk) (h1 ▸ hv) hkey]
    · rcases hbad with hk | ⟨key, r1, hk, hv⟩
      · rw [heq, readDictionaryLoop_keyPanic recv2 n r d (hr ▸ hk)]
      · have h1 := hsame r1 (hrecv _ _ _ _ hk)
        rw [heq, readDictionaryLoop_valuePanic recv2 n r r1 d key (hr ▸ hk) (h1 ▸ hv)]
    · rcases hbad with hk | ⟨key, r1, hk, hv⟩
      · rw [heq, readDictionaryLoop_keyFuel recv2 n r d (hr ▸ hk)]
      · have h1 := hsame r1 (hrecv _ _ _ _ hk)
        rw [heq, readDictionaryLoop_valueFuel recv2 n r r1 d key (hr ▸ hk) (h1 ▸ hv)]

/-- The result of `ReceiveFuel` does not depend on the fuel, once the fuel exceeds the
length of the input. -/
theorem ReceiveFuel_fuel_irrelevant : ∀ (f1 f2 : Nat) (r : List Byte), r.length < f1 →
    r.length < f2 → ReceiveFuel f1 r = ReceiveFuel f2 r := by
  intro f1
  induction f1 with
  | zero => intro f2 r h; omega
  | succ f1 ih =>
    intro f2 r h1 h2
    obtain ⟨g2, rfl⟩ : ∃ g, f2 = g + 1 := ⟨f2 - 1, by omega⟩
    cases r with
    | nil => rw [ReceiveFuel_nil, ReceiveFuel_nil]
    | cons b t =>
      simp only [List.length_cons, Nat.add_lt_add_iff_right] at h1 h2
      have hloop : ∀ (n : Nat) (t1 : List Byte), t1.length ≤ t.length →
          readDictionary (ReceiveFuel f1) n t1 = readDictionary (ReceiveFuel g2) n t1 := by
        intro n t1 ht1
        rw [readDictionary, readDictionary]
        exact readDictionaryLoop_congr _ _ (ReceiveFuel_nonIncreasing f1) n t1 []
          (fun r0 h0 => ih g2 r0 (by omega) (by omega))
      rw [ReceiveFuel_cons, ReceiveFuel_cons, hloop _ t (le_refl _),
        hloop _ _ (readInteger_rest_length 1 t), hloop _ _ (readInteger_rest_length 2 t),
        hloop _ _ (readInteger_rest_length 4 t)]

theorem Receive_eq_ReceiveFuel (fuel : Nat) (r : List Byte) (h : r.length < fuel) :
    ReceiveFuel fuel r = Receive r :=
  ReceiveFuel_fuel_irrelevant fuel (r.length + 1) r h (Nat.lt_succ_self _)

/-! ## Errors of the decoder -/

/-- An error returned by the loop of `readDictionary` comes with the nil map, and it is the
error of one of the nested calls, which left the same bytes unread. -/
theorem readDictionaryLoop_error (recv : List Byte → Outcome) (hrecv : NonIncreasing recv) :
    ∀ (n : Nat) (r : List Byte) (d : List (List Byte × Value)) (v : Value) (e : Error)
      (rest : List Byte),
      readDictionaryLoop recv n r d = Outcome.ret v (some e) rest →
      v = Value.nilMap ∧
        ∃ r0 v0, r0.length ≤ r.length ∧ recv r0 = Outcome.ret v0 (some e) rest := by
  intro n
  induction n with
  | zero =>
    intro r d v e rest h
    rw [readDictionaryLoop_zero] at h
    obtain ⟨-, h2, -⟩ := Outcome.ret.inj h
    cases h2
  | succ n ih =>
    intro r d v e rest h
    rcases readDictionaryLoop_succ_cases recv n r d with
      ⟨key, err, r1, hk, heq⟩ | ⟨key, r1, value, err, r2, hk, hv, heq⟩
      | ⟨k, r1, value, r2, hk, hv, heq⟩ | ⟨key, r1, value, r2, hk, hv, -, heq⟩
      | ⟨-, heq⟩ | ⟨-, heq⟩
    · rw [heq] at h
      obtain ⟨rfl, h2, rfl⟩ := Outcome.ret.inj h
      cases h2
      exact ⟨rfl, r, key, le_refl _, hk⟩
    · rw [heq] at h
      obtain ⟨rfl, h2, rfl⟩ := Outcome.ret.inj h
      cases h2
      exact ⟨rfl, r1, value, hrecv _ _ _ _ hk, hv⟩
    · rw [heq] at h
      obtain ⟨hv1, r0, v0, h0, hr0⟩ := ih _ _ _ _ _ h
      exact ⟨hv1, r0, v0,
        le_trans h0 (le_trans (hrecv _ _ _ _ hv) (hrecv _ _ _ _ hk)), hr0⟩
    · rw [heq] at h; cases h
    · rw [heq] at h; cases h
    · rw [heq] at h; cases h

theorem ReceiveFuel_unexpectedType : ∀ (fuel : Nat) (r : List Byte) (v : Value) (m : Byte)
    (rest : List Byte),
    ReceiveFuel fuel r = Outcome.ret v (some (Error.unexpectedType m)) rest →
      unknownMarker m = true := by
  intro fuel
  induction fuel with
  | zero => intro r v m rest h; rw [ReceiveFuel] at h; cases h
  | succ fuel ih =>
    intro r v m rest h
    cases r with
    | nil =>
      rw [ReceiveFuel_nil] at h
      obtain ⟨-, h2, -⟩ := Outcome.ret.inj h
      cases h2
    | cons b t =>
      rcases ReceiveFuel_cons_cases fuel b t with
        ⟨v0, heq⟩ | ⟨k, v0, heq⟩ | ⟨n, t1, ht1, heq⟩ | ⟨n, t1, ht1, heq⟩ | ⟨hb, heq⟩
      · rw [heq] at h
        obtain ⟨-, h2, -⟩ := Outcome.ret.inj h
        cases h2
      · rw [heq] at h
        obtain ⟨-, h2, -⟩ := Outcome.ret.inj h
        rcases readInteger_cases k t with hc | ⟨hc, -⟩ <;> rw [hc] at h2 <;> cases h2
      · rw [heq] at h
        obtain ⟨-, h2, -⟩ := Outcome.ret.inj h
        rcases readString_cases n t1 with hc | ⟨hc, -⟩ <;> rw [hc] at h2 <;> cases h2
      · rw [heq, readDictionary] at h
        obtain ⟨-, r0, v0, -, h0⟩ :=
          readDictionaryLoop_error _ (ReceiveFuel_nonIncreasing fuel) _ _ _ _ _ _ h
        exact ih r0 v0 m rest h0
      · rw [heq] at h
        obtain ⟨-, h2, -⟩ := Outcome.ret.inj h
        cases h2
        exact hb

/-- C11. Unknown marker rejection: for every input whose first byte is outside the marker
table (in `0x90`–`0x9F`, `0xB0`–`0xBF`, `0xC1`, `0xC4`–`0xC7`, `0xCC`–`0xCF`, `0xD3`–`0xD7` or
`0xDB`–`0xEF`), `Receive` returns the "unexpected PackStream type" error for that byte and
the nil value, whatever bytes follow; and for every first byte outside that set `Receive`
does not return that error for the top-level marker. -/
theorem Receive_unknown_marker (m : Byte) (rest : List Byte) :
    (unknownMarker m = true →
      Receive (m :: rest) = Outcome.ret Value.nil (some (Error.unexpectedType m)) rest)
    ∧ (unknownMarker m = false →
      ∀ (v : Value) (left : List Byte),
        Receive (m :: rest) ≠ Outcome.ret v (some (Error.unexpectedType m)) left) := by
  refine ⟨fun hu => ?_, fun hk v left h => ?_⟩
  · rw [Receive_eq, ReceiveFuel_unknown _ _ _ hu]
  · rw [Receive_eq] at h
    rw [ReceiveFuel_unexpectedType _ _ _ _ _ h] at hk
    cases hk

theorem Receive_unknown_marker_witness :
    unknownMarker 0xC1 = true
    ∧ Receive [0xC1, 0x01, 0x02] =
        Outcome.ret Value.nil (some (Error.unexpectedType 0xC1)) [0x01, 0x02]
    ∧ unknownMarker 0xA1 = false
    ∧ (∀ (v : Value) (left : List Byte),
        Receive [0xA1, 0x90] ≠ Outcome.ret v (some (Error.unexpectedType 0xA1)) left) :=
  ⟨by decide, (Receive_unknown_marker 0xC1 [0x01, 0x02]).1 (by decide), by decide,
    (Receive_unknown_marker 0xA1 [0x90]).2 (by decide)⟩

theorem mapInsert_length_le (d : List (List Byte × Value)) (k : List Byte) (v : Value) :
    (mapInsert d k v).length ≤ d.length + 1 := by
  induction d with
  | nil => simp [mapInsert]
  | cons e t ih =>
    obtain ⟨k1, v1⟩ := e
    simp only [mapInsert]
    split_ifs
    · simp
    · simp only [List.length_cons]; omega

theorem foldl_mapInsert_length_le (entries d : List (List Byte × Value)) :
    (entries.foldl (fun d e => mapInsert d e.1 e.2) d).length ≤ d.length + entries.length := by
  induction entries generalizing d with
  | nil => simp
  | cons e t ih =>
    simp only [List.foldl_cons, List.length_cons]
    have h1 := ih (mapInsert d e.1 e.2)
    have h2 := mapInsert_length_le d e.1 e.2
    omega

theorem foldl_mapInsert_fresh (entries d : List (List Byte × Value))
    (hfresh : ∀ e ∈ entries, e.1 ∉ d.map Prod.fst) (hnodup : (entries.map Prod.fst).Nodup) :
    entries.foldl (fun d e => mapInsert d e.1 e.2) d = d ++ entries := by
  induction entries generalizing d with
  | nil => simp
  | cons e t ih =>
    simp only [List.map_cons, List.nodup_cons] at hnodup
    simp only [List.foldl_cons]
    rw [mapInsert_fresh d e.1 e.2 (hfresh e (List.mem_cons_self _ _)), ih _ _ hnodup.2]
    · simp
    · intro e1 he1
      simp only [List.map_append, List.map_cons, List.map_nil, List.mem_append,
        List.mem_singleton, not_or]
      refine ⟨hfresh e1 (List.mem_cons_of_mem _ he1), ?_⟩
      intro heq
      exact hnodup.1 (heq ▸ List.mem_map_of_mem Prod.fst he1)

theorem insertAll_length_le (entries : List (List Byte × Value)) :
    (insertAll entries).length ≤ entries.length := by
  have h := foldl_mapInsert_length_le entries []
  simpa [insertAll] using h

theorem insertAll_nodup (entries : List (List Byte × Value))
    (hnodup : (entries.map Prod.fst).Nodup) : insertAll entries = entries := by
  have h := foldl_mapInsert_fresh entries [] (by simp) hnodup
  simpa [insertAll] using h

/-- A successful run of the loop of `readDictionary` inserts exactly `n` entries, each made
of a key and a value that two consecutive calls of `recv` returned. -/
theorem readDictionaryLoop_success (recv : List Byte → Outcome) :
    ∀ (n : Nat) (r : List Byte) (d : List (List Byte × Value)) (v : Value) (rest : List Byte),
      readDictionaryLoop recv n r d = Outcome.ret v none rest →
      ∃ entries : List (List Byte × Value), entries.length = n ∧
        v = Value.map (entries.foldl (fun d e => mapInsert d e.1 e.2) d) ∧
        ∀ e ∈ entries, ∃ r0 r1 r2, recv r0 = Outcome.ret (Value.string e.1) none r1 ∧
          recv r1 = Outcome.ret e.2 none r2 := by
  intro n
  induction n with
  | zero =>
    intro r d v rest h
    rw [readDictionaryLoop_zero] at h
    obtain ⟨rfl, -, -⟩ := Outcome.ret.inj h
    exact ⟨[], rfl, rfl, by simp⟩
  | succ n ih =>
    intro r d v rest h
    rcases readDictionaryLoop_succ_cases recv n r d with
      ⟨key, err, r1, hk, heq⟩ | ⟨key, r1, value, err, r2, hk, hv, heq⟩
      | ⟨k, r1, value, r2, hk, hv, heq⟩ | ⟨key, r1, value, r2, hk, hv, -, heq⟩
      | ⟨-, heq⟩ | ⟨-, heq⟩
    · rw [heq] at h
      obtain ⟨-, h2, -⟩ := Outcome.ret.inj h
      cases h2
    · rw [heq] at h
      obtain ⟨-, h2, -⟩ := Outcome.ret.inj h
      cases h2
    · rw [heq] at h
      obtain ⟨entries, hlen, hv1, hdec⟩ := ih _ _ _ _ h
      refine ⟨(k, value) :: entries, by simp [hlen], by simpa using hv1, ?_⟩
      intro e he
      rcases List.mem_cons.mp he with rfl | he
      · exact ⟨r, r1, r2, hk, hv⟩
      · exact hdec e he
    · rw [heq] at h; cases h
    · rw [heq] at h; cases h
    · rw [heq] at h; cases h

theorem readDictionary_ReceiveFuel (t : List Byte) (n : Nat) (t1 : List Byte)
    (ht1 : t1.length ≤ t.length) :
    readDictionary (ReceiveFuel (t.length + 1)) n t1 = readDictionaryLoop Receive n t1 [] := by
  rw [readDictionary]
  exact readDictionaryLoop_congr _ _ (ReceiveFuel_nonIncreasing _) n t1 []
    (fun r0 h0 => Receive_eq_ReceiveFuel _ r0 (by omega))

theorem tiny_size_bits : ∀ j < 16, (160 + j) >>> 4 = 0xA ∧ 0xA0 ^^^ (160 + j) = (160 + j) &&& 0x0F := by
  decide

theorem Receive_declaredSize (input : List Byte) (N : Nat)
    (hN : declaredSize input = some N) :
    ∃ t1, t1.length < input.length ∧ Receive input = readDictionaryLoop Receive N t1 [] := by
  cases input with
  | nil => simp [declaredSize] at hN
  | cons h t =>
    rw [Receive_eq]
    simp only [declaredSize, List.length_cons] at hN ⊢
    split_ifs at hN with c1 c2 c3 c4
    · have h4 : h.val >>> 4 = h.val / 16 := by simp [Nat.shiftRight_eq_div_pow]
      have hlt := h.isLt
      obtain ⟨j, hj, hhj⟩ : ∃ j, j < 16 ∧ h.val = 160 + j := ⟨h.val - 160, by omega, by omega⟩
      have hb := (tiny_size_bits j hj).2
      rw [← hhj] at hb
      rw [ReceiveFuel_dictionary16 _ _ _ c1, readDictionary_ReceiveFuel t _ t (le_refl _), hb]
      simp only [Option.some.injEq] at hN
      exact ⟨t, by omega, by rw [hN]⟩
    · cases t with
      | nil => simp at hN
      | cons b1 t2 =>
        simp only [Option.some.injEq, bigEndianValue, List.foldl_cons, List.foldl_nil] at hN
        rw [ReceiveFuel_dictionary255 _ _ _ c2, readInteger_one,
          readDictionary_ReceiveFuel (b1 :: t2) _ t2 (by simp)]
        refine ⟨t2, by simp; omega, ?_⟩
        have : ((b1.val : Nat) : Int).toNat = N := by omega
        simp only [this]
    · match t, hN with
      | b1 :: b2 :: t2, hN =>
        simp only [Option.some.injEq, bigEndianValue, List.foldl_cons, List.foldl_nil] at hN
        rw [ReceiveFuel_dictionary65535 _ _ _ c3, readInteger_two,
          readDictionary_ReceiveFuel (b1 :: b2 :: t2) _ t2 (by simp; omega)]
        refine ⟨t2, by simp; omega, ?_⟩
        have : ((b1.val * 256 + b2.val : Nat) : Int).toNat = N := by omega
        simp only [this]
    · match t, hN with
      | b1 :: b2 :: b3 :: b4 :: t2, hN =>
        simp only [Option.some.injEq, bigEndianValue, List.foldl_cons, List.foldl_nil] at hN
        rw [ReceiveFuel_dictionaryMax _ _ _ c4, readInteger_four,
          readDictionary_ReceiveFuel (b1 :: b2 :: b3 :: b4 :: t2) _ t2 (by simp; omega)]
        refine ⟨t2, by simp; omega, ?_⟩
        have : ((b1.val * 16777216 + b2.val * 65536 + b3.val * 256 + b4.val : Nat) : Int).toNat
            = N := by omega
        simp only [this]

/-- C14, as stated, fails: the input `[0xA2, 0x81,0x41,0x01, 0x81,0x41,0x02]` declares 2
entries and repeats the key `"A"`; `Receive` succeeds on it and returns a map with the single
entry `"A" ↦ 2`. -/
theorem Receive_repeated_key_shrinks_map :
    declaredSize [0xA2, 0x81, 0x41, 0x01, 0x81, 0x41, 0x02] = some 2
    ∧ Receive [0xA2, 0x81, 0x41, 0x01, 0x81, 0x41, 0x02] =
        Outcome.ret (Value.map [([0x41], Value.int64 2)]) none []
    ∧ ([([0x41], Value.int64 2)] : List (List Byte × Value)).length ≠ 2 :=
  ⟨by decide, by rfl, by decide⟩

/-- C19 fails on the code. On the input `[0xA1, 0x01, 0x01]` the key of the entry decodes
to the integer 1 and the type assertion `key.(string)` panics: `Receive` returns neither a
value nor an error. -/
theorem Receive_panics_on_non_text_key :
    Receive [0x01] = Outcome.ret (Value.int64 1) none []
    ∧ Receive [0xA1, 0x01, 0x01] = Outcome.panic :=
  ⟨by rfl, by rfl⟩

/-! ## Termination -/

theorem Receive_nil : Receive [] = Outcome.ret Value.nil (some Error.EOF) [] := by
  rw [Receive_eq, ReceiveFuel_nil]

/-- A call of `Receive` either consumes at least one byte or fails with `io.EOF` on an
empty source. -/
theorem Receive_progress (r : List Byte) (v : Value) (e : Option Error) (rest : List Byte)
    (h : Receive r = Outcome.ret v e rest) :
    rest.length < r.length ∨ (r = [] ∧ e = some Error.EOF ∧ rest = []) := by
  cases r with
  | nil =>
    rw [Receive_nil] at h
    obtain ⟨-, rfl, rfl⟩ := Outcome.ret.inj h
    exact Or.inr ⟨rfl, rfl, rfl⟩
  | cons b t =>
    have := ReceiveFuel_rest_length _ _ _ _ _ h
    simp only [List.length_cons, Nat.add_sub_cancel] at this ⊢
    exact Or.inl (by omega)

theorem readDictionaryCounted_fst (recv : List Byte → Outcome) :
    ∀ (n : Nat) (r : List Byte) (d : List (List Byte × Value)),
      (readDictionaryCounted recv n r d).1 = readDictionaryLoop recv n r d := by
  intro n
  induction n with
  | zero => intro r d; rw [readDictionaryCounted, readDictionaryLoop]
  | succ n ih =>
    intro r d
    rw [readDictionaryCounted, readDictionaryLoop]
    cases hk : recv r with
    | panic => rfl
    | outOfFuel => rfl
    | ret key err r1 =>
      cases err with
      | some e => rfl
      | none =>
        dsimp only
        cases hv : recv r1 with
        | panic => rfl
        | outOfFuel => rfl
        | ret value err r2 =>
          cases err with
          | some e => rfl
          | none =>
            cases key <;> dsimp only
            exact ih _ _

theorem readDictionaryCounted_le (recv : List Byte → Outcome)
    (hrecv : ∀ r v rest, recv r = Outcome.ret v none rest → rest.length < r.length) :
    ∀ (n : Nat) (r : List Byte) (d : List (List Byte × Value)),
      (readDictionaryCounted recv n r d).2 ≤ r.length + 1 := by
  intro n
  induction n with
  | zero => intro r d; simp [readDictionaryCounted]
  | succ n ih =>
    intro r d
    rw [readDictionaryCounted]
    cases hk : recv r with
    | panic => simp
    | outOfFuel => simp
    | ret key err r1 =>
      cases err with
      | some e => simp
      | none =>
        have h1 := hrecv _ _ _ hk
        dsimp only
        cases hv : recv r1 with
        | panic => dsimp only; omega
        | outOfFuel => dsimp only; omega
        | ret value err r2 =>
          cases err with
          | some e => dsimp only; omega
          | none =>
            have h2 := hrecv _ _ _ hv
            cases key with
            | string k =>
              dsimp only
              have h3 := ih r2 (mapInsert d k value)
              omega
            | _ => dsimp only; omega

theorem Receive_success_consumes (r : List Byte) (v : Value) (rest : List Byte)
    (h : Receive r = Outcome.ret v none rest) : rest.length < r.length := by
  rcases Receive_progress r v none rest h with h1 | ⟨-, h2, -⟩
  · exact h1
  · cases h2

theorem Receive_max_declared_size :
    Receive [0xDA, 0xFF, 0xFF, 0xFF, 0xFF] = Outcome.ret Value.nilMap (some Error.EOF) [] := by
  rw [Receive_eq]
  simp only [List.length_cons, List.length_nil]
  rw [ReceiveFuel_dictionaryMax _ _ _ rfl, readInteger_four]
  have hsize : ((((0xFF : Byte).val * 16777216 + (0xFF : Byte).val * 65536
      + (0xFF : Byte).val * 256 + (0xFF : Byte).val : Nat) : Int)).toNat = 4294967294 + 1 := by
    decide
  simp only [hsize]
  rw [readDictionary, readDictionaryLoop_keyError _ _ _ _ _ _ _ (ReceiveFuel_nil _)]

/-- C20. `Receive` terminates on every finite input. Cutting the nesting of recursive calls
at any depth above the number `n` of bytes in the buffer never interrupts a call and gives
the result of `Receive` (the recursion depth is at most `n`); every call of `Receive` either
consumes at least one byte or fails with end-of-input on an empty buffer; and the loop of
`readDictionary`, whatever number of entries is declared (up to `2^32 - 1`), makes at most
`n + 1` successful or failing calls of `Receive` at its level; on `0xDA` followed by the
size `2^32 - 1` and nothing else it stops at the first call. -/
theorem Receive_terminates (r : List Byte) :
    Receive r ≠ Outcome.outOfFuel
    ∧ (∀ depth : Nat, r.length < depth → ReceiveFuel depth r = Receive r)
    ∧ (∀ (v : Value) (e : Option Error) (rest : List Byte), Receive r = Outcome.ret v e rest →
        rest.length < r.length ∨ (r = [] ∧ e = some Error.EOF ∧ rest = []))
    ∧ (∀ (declared : Nat) (d : List (List Byte × Value)),
        (readDictionaryCounted Receive declared r d).1 = readDictionaryLoop Receive declared r d
        ∧ (readDictionaryCounted Receive declared r d).2 ≤ r.length + 1)
    ∧ Receive [0xDA, 0xFF, 0xFF, 0xFF, 0xFF] = Outcome.ret Value.nilMap (some Error.EOF) [] := by
  refine ⟨ReceiveFuel_ne_outOfFuel _ r (Nat.lt_succ_self _),
    fun depth hd => Receive_eq_ReceiveFuel depth r hd,
    fun v e rest h => Receive_progress r v e rest h,
    fun declared d => ⟨readDictionaryCounted_fst Receive declared r d,
      readDictionaryCounted_le Receive Receive_success_consumes declared r d⟩,
    Receive_max_declared_size⟩

theorem Receive_terminates_witness :
    ([0xA1, 0x81] : List Byte).length < 5
    ∧ ReceiveFuel 5 [0xA1, 0x81] = Receive [0xA1, 0x81]
    ∧ (readDictionaryCounted Receive 4294967295 [0x81] []).2 ≤ ([0x81] : List Byte).length + 1 :=
  ⟨by decide, (Receive_terminates [0xA1, 0x81]).2.1 5 (by decide),
    ((Receive_terminates [0x81]).2.2.2.1 4294967295 []).2⟩

/-! ## Encoding on an arbitrary sink -/

section AnyWriter

variable {σ : Type}

theorem SendNull_write (w : Writer σ) (s : σ) : SendNull w s = w.Write s [0xC0] := rfl

theorem SendBoolean_write (w : Writer σ) (s : σ) (b : Bool) :
    SendBoolean w s b = w.Write s (SendBoolean bytesBuffer [] b).1 := by
  cases b <;> rfl

theorem SendInt_write (w : Writer σ) (s : σ) (i : Int) :
    SendInt w s i = w.Write s (SendInt bytesBuffer [] i).1 := by
  unfold SendInt
  split_ifs <;> rfl

theorem SendString_write (w : Writer σ) (s : σ) (value : List Byte) :
    SendString w s value = w.Write s (SendString bytesBuffer [] value).1 := by
  unfold SendString
  simp only [bytesBuffer, List.nil_append]

theorem sendDictionaryMarker_write (w : Writer σ) (s : σ) (size : Nat) :
    sendDictionaryMarker w s size = w.Write s (sendDictionaryMarker bytesBuffer [] size).1 := by
  unfold sendDictionaryMarker
  simp only [bytesBuffer, List.nil_append]

theorem SendValue_unsupported (w : Writer σ) (s : σ) (tag : Nat) :
    SendValue w s (Value.unsupported tag) = (s, some Error.unsupportedValueType) := by
  rw [SendValue]

mutual
theorem SendValue_error_origin (w : Writer σ) : ∀ (v : Value) (s s1 : σ) (e : Error),
    SendValue w s v = (s1, some e) → e = Error.unsupportedValueType ∨ WriteError w e
  | .nil, s, s1, e, h => Or.inr ⟨s, [0xC0], by rw [SendValue, SendNull_write] at h; rw [h]⟩
  | .bool b, s, s1, e, h => Or.inr ⟨s, _, by rw [SendValue, SendBoolean_write] at h; rw [h]⟩
  | .int i, s, s1, e, h => Or.inr ⟨s, _, by rw [SendValue, SendInt_write] at h; rw [h]⟩
  | .int64 i, s, s1, e, h => Or.inr ⟨s, _, by rw [SendValue, SendInt_write] at h; rw [h]⟩
  | .string v, s, s1, e, h => Or.inr ⟨s, _, by rw [SendValue, SendString_write] at h; rw [h]⟩
  | .map es, s, s1, e, h => by
    rw [SendValue, sendDictionaryMarker_write] at h
    rcases hw : w.Write s (sendDictionaryMarker bytesBuffer [] es.length).1 with ⟨s2, _ | err⟩
    · rw [hw] at h
      exact sendEntries_error_origin w es s2 s1 e h
    · rw [hw] at h
      simp only [Prod.mk.injEq, Option.some.injEq] at h
      exact Or.inr ⟨s, _, by rw [hw, h.2]⟩
  | .nilMap, s, s1, e, h => by
    rw [SendValue, sendDictionaryMarker_write] at h
    rcases hw : w.Write s (sendDictionaryMarker bytesBuffer [] 0).1 with ⟨s2, _ | err⟩
    · rw [hw] at h
      simp at h
    · rw [hw] at h
      simp only [Prod.mk.injEq, Option.some.injEq] at h
      exact Or.inr ⟨s, _, by rw [hw, h.2]⟩
  | .unsupported _, s, s1, e, h => by
    rw [SendValue] at h
    simp only [Prod.mk.injEq, Option.some.injEq] at h
    exact Or.inl h.2.symm
theorem sendEntries_error_origin (w : Writer σ) : ∀ (es : List (List Byte × Value)) (s s1 : σ)
    (e : Error), sendEntries w s es = (s1, some e) →
      e = Error.unsupportedValueType ∨ WriteError w e
  | [], s, s1, e, h => by
    rw [sendEntries] at h
    simp at h
  | (key, value) :: rest, s, s1, e, h => by
    rw [sendEntries_cons, SendString_write] at h
    rcases hw : w.Write s (SendString bytesBuffer [] key).1 with ⟨s2, _ | err⟩
    · simp only [hw] at h
      rcases hv : SendValue w s2 value with ⟨s3, _ | err⟩
      · simp only [hv] at h
        exact sendEntries_error_origin w rest s3 s1 e h
      · simp only [hv] at h
        rw [h] at hv
        exact SendValue_error_origin w value s2 s1 e hv
    · simp only [hw, Prod.mk.injEq, Option.some.injEq] at h
      exact Or.inr ⟨s, _, by rw [hw, h.2]⟩
end

mutual
theorem SendValue_not_encodable (w : Writer σ) : ∀ (v : Value) (s : σ),
    v.encodable = false → (SendValue w s v).2 ≠ none
  | .nil, _, h => by simp [Value.encodable] at h
  | .bool _, _, h => by simp [Value.encodable] at h
  | .int _, _, h => by simp [Value.encodable] at h
  | .int64 _, _, h => by simp [Value.encodable] at h
  | .string _, _, h => by simp [Value.encodable] at h
  | .map es, s, h => by
    rw [SendValue]
    rcases hw : sendDictionaryMarker w s es.length with ⟨s2, _ | err⟩
    · exact sendEntries_not_encodable w es s2 (by simpa [Value.encodable] using h)
    · simp
  | .nilMap, _, h => by simp [Value.encodable] at h
  | .unsupported _, s, _ => by rw [SendValue]; simp
theorem sendEntries_not_encodable (w : Writer σ) : ∀ (es : List (List Byte × Value)) (s : σ),
    entriesEncodable es = false → (sendEntries w s es).2 ≠ none
  | [], _, h => by simp [entriesEncodable] at h
  | (key, value) :: rest, s, h => by
    rw [sendEntries_cons]
    rcases hw : SendString w s key with ⟨s2, _ | err⟩
    · dsimp only
      rcases hv : SendValue w s2 value with ⟨s3, _ | err⟩
      · have hvenc : value.encodable = true := by
          by_contra hne
          have := SendValue_not_encodable w value s2 (by simpa using hne)
          rw [hv] at this
          exact this rfl
        have hrest : entriesEncodable rest = false := by
          simpa [entriesEncodable, hvenc] using h
        exact sendEntries_not_encodable w rest s3 hrest
      · simp
    · simp
end

/-- A value that is not encodable makes `SendValue` fail, with the "unsupported value type"
error unless a `Write` failed first. -/
theorem SendValue_rejects (w : Writer σ) (v : Value) (s : σ) (h : v.encodable = false) :
    ∃ s1 e, SendValue w s v = (s1, some e) ∧
      (e = Error.unsupportedValueType ∨ WriteError w e) := by
  rcases hv : SendValue w s v with ⟨s1, _ | e⟩
  · exact absurd (by rw [hv]) (SendValue_not_encodable w v s h)
  · exact ⟨s1, e, rfl, SendValue_error_origin w v s s1 e hv⟩

end AnyWriter

/-- C13. Unsupported value types are rejected on encode: for every value whose dynamic type
is not one of `nil`, `bool`, `int`, `int64`, `string`, `map[string]interface{}`, `SendValue`
returns the "unsupported PackStream value type" error and writes nothing (the sink is left
as it was); and `SendDictionary` on a map that contains such a value at any nesting depth
returns an error, which is that error on every sink whose writes do not fail (such as the
in-memory buffer), and otherwise that error or the error of a failed write. -/
theorem SendValue_unsupported_rejected {σ : Type} (w : Writer σ) (s : σ) (tag : Nat)
    (m : List (List Byte × Value)) (hm : entriesEncodable m = false) :
    SendValue w s (Value.unsupported tag) = (s, some Error.unsupportedValueType)
    ∧ (∃ s1 e, SendDictionary w s m = (s1, some e) ∧
        (e = Error.unsupportedValueType ∨ WriteError w e))
    ∧ ((∀ s0 p, (w.Write s0 p).2 = none) →
        (SendDictionary w s m).2 = some Error.unsupportedValueType)
    ∧ (SendDictionary bytesBuffer [] m).2 = some Error.unsupportedValueType := by
  have hrej := SendValue_rejects w (Value.map m) s (by simpa [Value.encodable] using hm)
  rw [SendValue_map] at hrej
  have hgen : ∀ {τ : Type} (u : Writer τ) (t : τ), (∀ s0 p, (u.Write s0 p).2 = none) →
      entriesEncodable m = false → (SendDictionary u t m).2 = some Error.unsupportedValueType := by
    intro τ u t hnofail hm2
    obtain ⟨s1, e, heq, he⟩ :=
      SendValue_rejects u (Value.map m) t (by simpa [Value.encodable] using hm2)
    rw [SendValue_map] at heq
    rcases he with rfl | ⟨s0, p, hp⟩
    · rw [heq]
    · rw [hnofail s0 p] at hp; cases hp
  exact ⟨SendValue_unsupported w s tag, hrej, fun hnofail => hgen w s hnofail hm,
    hgen bytesBuffer [] (fun _ _ => rfl) hm⟩

theorem SendValue_unsupported_rejected_witness :
    entriesEncodable [([0x61], Value.int64 1),
      ([0x62], Value.map [([0x63], Value.unsupported 0)])] = false
    ∧ SendValue bytesBuffer [] (Value.unsupported 0) = ([], some Error.unsupportedValueType)
    ∧ (SendDictionary bytesBuffer []
        [([0x61], Value.int64 1), ([0x62], Value.map [([0x63], Value.unsupported 0)])]).2
        = some Error.unsupportedValueType :=
  ⟨by decide,
    (SendValue_unsupported_rejected bytesBuffer [] 0
      [([0x61], Value.int64 1), ([0x62], Value.map [([0x63], Value.unsupported 0)])]
      (by decide)).1,
    (SendValue_unsupported_rejected bytesBuffer [] 0
      [([0x61], Value.int64 1), ([0x62], Value.map [([0x63], Value.unsupported 0)])]
      (by decide)).2.2.2⟩

/-! ## Write failures -/

section Traced

variable {σ : Type}

theorem TraceOk_write (w : Writer σ) (st : σ × List (List Byte × Option Error))
    (p : List Byte) : TraceOk st.2 ((traced w).Write st p) := by
  refine ⟨[(p, (w.Write st.1 p).2)], rfl, ?_⟩
  cases h : (w.Write st.1 p).2 with
  | none =>
    left
    refine ⟨by simp [traced, h], ?_⟩
    intro x hx
    simp only [List.mem_singleton] at hx
    rw [hx]
  | some e =>
    right; left
    exact ⟨e, [], p, by simp [traced, h], by simp, by simp⟩

theorem TraceOk_seq (log0 : List (List Byte × Option Error))
    (st1 : σ × List (List Byte × Option Error))
    (out2 : (σ × List (List Byte × Option Error)) × Option Error)
    (h1 : TraceOk log0 (st1, none)) (h2 : TraceOk st1.2 out2) : TraceOk log0 out2 := by
  obtain ⟨added1, hlog1, hc1⟩ := h1
  obtain ⟨added2, hlog2, hc2⟩ := h2
  have hok1 : ∀ x ∈ added1, x.2 = none := by
    rcases hc1 with ⟨-, h⟩ | ⟨e, pre, p, he, -, -⟩ | ⟨he, -⟩
    · exact h
    · cases he
    · cases he
  simp only at hlog1
  refine ⟨added1 ++ added2, by rw [hlog2, hlog1, List.append_assoc], ?_⟩
  rcases hc2 with ⟨he, h⟩ | ⟨e, pre, p, he, hadd, hpre⟩ | ⟨he, h⟩
  · left
    refine ⟨he, ?_⟩
    intro x hx
    rcases List.mem_append.mp hx with hx | hx
    · exact hok1 x hx
    · exact h x hx
  · right; left
    refine ⟨e, added1 ++ pre, p, he, by rw [hadd, List.append_assoc], ?_⟩
    intro x hx
    rcases List.mem_append.mp hx with hx | hx
    · exact hok1 x hx
    · exact hpre x hx
  · right; right
    refine ⟨he, ?_⟩
    intro x hx
    rcases List.mem_append.mp hx with hx | hx
    · exact hok1 x hx
    · exact h x hx

theorem TraceOk_done (st : σ × List (List Byte × Option Error)) : TraceOk st.2 (st, none) :=
  ⟨[], by simp, Or.inl ⟨rfl, by simp⟩⟩

theorem TraceOk_unsupported (st : σ × List (List Byte × Option Error)) :
    TraceOk st.2 (st, some Error.unsupportedValueType) :=
  ⟨[], by simp, Or.inr (Or.inr ⟨rfl, by simp⟩)⟩

mutual
theorem SendValue_TraceOk (w : Writer σ) : ∀ (v : Value)
    (st : σ × List (List Byte × Option Error)), TraceOk st.2 (SendValue (traced w) st v)
  | .nil, st => by rw [SendValue, SendNull_write]; exact TraceOk_write w st _
  | .bool b, st => by rw [SendValue, SendBoolean_write]; exact TraceOk_write w st _
  | .int i, st => by rw [SendValue, SendInt_write]; exact TraceOk_write w st _
  | .int64 i, st => by rw [SendValue, SendInt_write]; exact TraceOk_write w st _
  | .string v, st => by rw [SendValue, SendString_write]; exact TraceOk_write w st _
  | .map es, st => by
    rw [SendValue, sendDictionaryMarker_write]
    have h1 := TraceOk_write w st (sendDictionaryMarker bytesBuffer [] es.length).1
    rcases hw : (traced w).Write st (sendDictionaryMarker bytesBuffer [] es.length).1 with
      ⟨st1, _ | err⟩
    · rw [hw] at h1
      exact TraceOk_seq st.2 st1 _ h1 (sendEntries_TraceOk w es st1)
    · rw [hw] at h1
      exact h1
  | .nilMap, st => by
    rw [SendValue, sendDictionaryMarker_write]
    have h1 := TraceOk_write w st (sendDictionaryMarker bytesBuffer [] 0).1
    rcases hw : (traced w).Write st (sendDictionaryMarker bytesBuffer [] 0).1 with
      ⟨st1, _ | err⟩
    · rw [hw] at h1
      exact h1
    · rw [hw] at h1
      exact h1
  | .unsupported _, st => by rw [SendValue]; exact TraceOk_unsupported st
theorem sendEntries_TraceOk (w : Writer σ) : ∀ (es : List (List Byte × Value))
    (st : σ × List (List Byte × Option Error)), TraceOk st.2 (sendEntries (traced w) st es)
  | [], st => by rw [sendEntries]; exact TraceOk_done st
  | (key, value) :: rest, st => by
    rw [sendEntries_cons, SendString_write]
    have h1 := TraceOk_write w st (SendString bytesBuffer [] key).1
    rcases hw : (traced w).Write st (SendString bytesBuffer [] key).1 with ⟨st1, _ | err⟩
    · rw [hw] at h1
      dsimp only
      have h2 := SendValue_TraceOk w value st1
      rcases hv : SendValue (traced w) st1 value with ⟨st2, _ | err⟩
      · rw [hv] at h2
        dsimp only
        exact TraceOk_seq st.2 st1 _ h1
          (TraceOk_seq st1.2 st2 _ h2 (sendEntries_TraceOk w rest st2))
      · rw [hv] at h2
        exact TraceOk_seq st.2 st1 _ h1 h2
    · rw [hw] at h1
      exact h1
end

theorem failed_write_is_last (pre pre1 post : List (List Byte × Option Error))
    (p p1 : List Byte) (e e1 : Error) (hpre : ∀ x ∈ pre, x.2 = none)
    (h : pre ++ [(p, some e)] = pre1 ++ (p1, some e1) :: post) : post = [] ∧ e1 = e := by
  rcases List.append_eq_append_iff.mp h with ⟨a, ha1, ha2⟩ | ⟨c, hc1, hc2⟩
  · cases a with
    | nil =>
      simp only [List.nil_append, List.cons.injEq, Prod.mk.injEq, Option.some.injEq] at ha2
      exact ⟨ha2.2.symm, ha2.1.2.symm⟩
    | cons x xs =>
      have := congrArg List.length ha2
      simp at this
  · cases c with
    | nil =>
      simp only [List.nil_append, List.cons.injEq, Prod.mk.injEq, Option.some.injEq] at hc2
      exact ⟨hc2.2, hc2.1.2⟩
    | cons x xs =>
      simp only [List.cons_append, List.cons.injEq] at hc2
      have hx : (p1, some e1) ∈ pre := by
        rw [hc1, ← hc2.1]
        simp
      have := hpre _ hx
      cases this

/-- In a run of `SendValue` on a traced sink that starts with an empty record, a failing
`Write` is the last call issued and its error is the one the run returns. -/
theorem SendValue_first_failure_ends (w : Writer σ) (s : σ) (v : Value)
    (pre post : List (List Byte × Option Error)) (p : List Byte) (e : Error)
    (h : (SendValue (traced w) (s, []) v).1.2 = pre ++ (p, some e) :: post) :
    post = [] ∧ (SendValue (traced w) (s, []) v).2 = some e := by
  obtain ⟨added, hlog, hc⟩ := SendValue_TraceOk w v (s, [])
  simp only [List.nil_append] at hlog
  rw [hlog] at h
  rcases hc with ⟨-, hok⟩ | ⟨e0, pre0, p0, he0, hadd, hpre0⟩ | ⟨-, hok⟩
  · have := hok (p, some e) (by rw [h]; simp)
    cases this
  · rw [hadd] at h
    obtain ⟨h1, h2⟩ := failed_write_is_last pre0 pre post p0 p e0 e hpre0 h
    exact ⟨h1, by rw [he0, h2]⟩
  · have := hok (p, some e) (by rw [h]; simp)
    cases this

mutual
theorem SendValue_traced (w : Writer σ) : ∀ (v : Value)
    (st : σ × List (List Byte × Option Error)),
    (SendValue (traced w) st v).1.1 = (SendValue w st.1 v).1
      ∧ (SendValue (traced w) st v).2 = (SendValue w st.1 v).2
  | .nil, st => by simp only [SendValue, SendNull_write]; exact ⟨rfl, rfl⟩
  | .bool b, st => by
    rw [SendValue, SendValue, SendBoolean_write, SendBoolean_write w]; exact ⟨rfl, rfl⟩
  | .int i, st => by rw [SendValue, SendValue, SendInt_write, SendInt_write w]; exact ⟨rfl, rfl⟩
  | .int64 i, st => by
    rw [SendValue, SendValue, SendInt_write, SendInt_write w]; exact ⟨rfl, rfl⟩
  | .string v, st => by
    rw [SendValue, SendValue, SendString_write, SendString_write w]; exact ⟨rfl, rfl⟩
  | .map es, st => by
    rw [SendValue, SendValue, sendDictionaryMarker_write, sendDictionaryMarker_write w]
    rcases hw : w.Write st.1 (sendDictionaryMarker bytesBuffer [] es.length).1 with
      ⟨s1, _ | err⟩
    · have ht : (traced w).Write st (sendDictionaryMarker bytesBuffer [] es.length).1 =
          ((s1, st.2 ++ [((sendDictionaryMarker bytesBuffer [] es.length).1, none)]), none) := by
        simp [traced, hw]
      rw [ht]
      exact sendEntries_traced w es _
    · have ht : (traced w).Write st (sendDictionaryMarker bytesBuffer [] es.length).1 =
          ((s1, st.2 ++ [((sendDictionaryMarker bytesBuffer [] es.length).1, some err)]),
            some err) := by
        simp [traced, hw]
      rw [ht]
      exact ⟨rfl, rfl⟩
  | .nilMap, st => by
    rw [SendValue, SendValue, sendDictionaryMarker_write, sendDictionaryMarker_write w]
    rcases hw : w.Write st.1 (sendDictionaryMarker bytesBuffer [] 0).1 with ⟨s1, _ | err⟩
    · have ht : (traced w).Write st (sendDictionaryMarker bytesBuffer [] 0).1 =
          ((s1, st.2 ++ [((sendDictionaryMarker bytesBuffer [] 0).1, none)]), none) := by
        simp [traced, hw]
      rw [ht]
      exact ⟨rfl, rfl⟩
    · have ht : (traced w).Write st (sendDictionaryMarker bytesBuffer [] 0).1 =
          ((s1, st.2 ++ [((sendDictionaryMarker bytesBuffer [] 0).1, some err)]),
            some err) := by
        simp [traced, hw]
      rw [ht]
      exact ⟨rfl, rfl⟩
  | .unsupported _, st => by rw [SendValue, SendValue]; exact ⟨rfl, rfl⟩
theorem sendEntries_traced (w : Writer σ) : ∀ (es : List (List Byte × Value))
    (st : σ × List (List Byte × Option Error)),
    (sendEntries (traced w) st es).1.1 = (sendEntries w st.1 es).1
      ∧ (sendEntries (traced w) st es).2 = (sendEntries w st.1 es).2
  | [], st => by rw [sendEntries, sendEntries]; exact ⟨rfl, rfl⟩
  | (key, value) :: rest, st => by
    rw [sendEntries_cons, sendEntries_cons, SendString_write, SendString_write w]
    rcases hw : w.Write st.1 (SendString bytesBuffer [] key).1 with ⟨s1, _ | err⟩
    · have ht : (traced w).Write st (SendString bytesBuffer [] key).1 =
          ((s1, st.2 ++ [((SendString bytesBuffer [] key).1, none)]), none) := by
        simp [traced, hw]
      rw [ht]
      dsimp only
      have hv := SendValue_traced w value
        (s1, st.2 ++ [((SendString bytesBuffer [] key).1, none)])
      rcases hv1 : SendValue w s1 value with ⟨s2, _ | err⟩
      · rcases hv2 : SendValue (traced w)
            (s1, st.2 ++ [((SendString bytesBuffer [] key).1, none)]) value with
          ⟨⟨s3, log3⟩, err3⟩
        rw [hv1, hv2] at hv
        simp only at hv
        obtain ⟨rfl, rfl⟩ := hv
        dsimp only
        exact sendEntries_traced w rest _
      · rcases hv2 : SendValue (traced w)
            (s1, st.2 ++ [((SendString bytesBuffer [] key).1, none)]) value with
          ⟨⟨s3, log3⟩, err3⟩
        rw [hv1, hv2] at hv
        simp only at hv
        obtain ⟨rfl, rfl⟩ := hv
        exact ⟨rfl, rfl⟩
    · have ht : (traced w).Write st (SendString bytesBuffer [] key).1 =
          ((s1, st.2 ++ [((SendString bytesBuffer [] key).1, some err)]), some err) := by
        simp [traced, hw]
      rw [ht]
      exact ⟨rfl, rfl⟩
end

end Traced

/-! ## Claims on sinks and framing -/

/-- C17. Write failures propagate on encode: for every sink, `SendNull`, `SendBoolean`,
`SendInt` and `SendString` issue one `Write` and return what it returns, hence its error;
and in every run of `SendDictionary`, on every map, a `Write` that returns an error (of the
size marker, a key or a value) is the last `Write` issued, so that no later entry is written,
and its error is the error `SendDictionary` returns. -/
theorem Send_write_failure_propagates {σ : Type} (w : Writer σ) (s : σ) :
    SendNull w s = w.Write s [0xC0]
    ∧ (∀ b : Bool, ∃ p, SendBoolean w s b = w.Write s p)
    ∧ (∀ i : Int, ∃ p, SendInt w s i = w.Write s p)
    ∧ (∀ v : List Byte, ∃ p, SendString w s v = w.Write s p)
    ∧ (∀ (m : List (List Byte × Value)) (pre post : List (List Byte × Option Error))
        (p : List Byte) (e : Error),
        (SendDictionary (traced w) (s, []) m).1.2 = pre ++ (p, some e) :: post →
        post = [] ∧ (SendDictionary w s m).2 = some e)
    ∧ (∀ m : List (List Byte × Value),
        (SendDictionary (traced w) (s, []) m).1.1 = (SendDictionary w s m).1
        ∧ (SendDictionary (traced w) (s, []) m).2 = (SendDictionary w s m).2) := by
  refine ⟨SendNull_write w s, fun b => ⟨_, SendBoolean_write w s b⟩,
    fun i => ⟨_, SendInt_write w s i⟩, fun v => ⟨_, SendString_write w s v⟩, ?_, ?_⟩
  · intro m pre post p e h
    rw [← SendValue_map] at h
    obtain ⟨h1, h2⟩ := SendValue_first_failure_ends w s (Value.map m) pre post p e h
    have h3 := (SendValue_traced w (Value.map m) (s, [])).2
    rw [h2] at h3
    rw [← SendValue_map]
    exact ⟨h1, h3.symm⟩
  · intro m
    rw [← SendValue_map, ← SendValue_map]
    exact SendValue_traced w (Value.map m) (s, [])

theorem Send_write_failure_propagates_witness :
    (SendDictionary (traced (limitedSink 3)) ([], [])
        [([0x61], Value.int64 1), ([0x62], Value.int64 2)]).1.2 =
      [([0xA2], none), ([0x81, 0x61], none)] ++ ([0x01], some (Error.other 1)) :: []
    ∧ (([] : List (List Byte × Option Error)) = []
      ∧ (SendDictionary (limitedSink 3) []
          [([0x61], Value.int64 1), ([0x62], Value.int64 2)]).2 = some (Error.other 1)) :=
  ⟨by decide,
    (Send_write_failure_propagates (limitedSink 3) []).2.2.2.2.1
      [([0x61], Value.int64 1), ([0x62], Value.int64 2)]
      [([0xA2], none), ([0x81, 0x61], none)] [] [0x01] (Error.other 1) (by decide)⟩

theorem Receive_SendValue_append (v : Value) (r : List Byte) (h : v.wellFormed = true) :
    Receive ((SendValue bytesBuffer [] v).1 ++ r) = Outcome.ret v none r := by
  rw [Receive_eq]
  exact ReceiveFuel_SendValue v h _ r (by simp; omega)

theorem foldl_SendValue_buffer (vs : List Value) (s : List Byte) :
    vs.foldl (fun s v => (SendValue bytesBuffer s v).1) s =
      s ++ (vs.map (fun v => (SendValue bytesBuffer [] v).1)).flatten := by
  induction vs generalizing s with
  | nil => simp
  | cons v t ih =>
    simp only [List.foldl_cons, List.map_cons, List.flatten_cons]
    rw [ih, SendValue_buffer_state v s]
    simp

theorem decodeEntries_step (n : Nat) (r r1 r2 : List Byte) (k : List Byte) (value : Value)
    (hk : Receive r = Outcome.ret (Value.string k) none r1)
    (hv : Receive r1 = Outcome.ret value none r2) :
    decodeEntries (n + 1) r = (decodeEntries n r2).map (fun p => ((k, value) :: p.1, p.2)) := by
  rw [decodeEntries]
  simp only [hk, hv]

theorem decodeEntries_keyError (n : Nat) (r r1 : List Byte) (key : Value) (err : Error)
    (hk : Receive r = Outcome.ret key (some err) r1) : decodeEntries (n + 1) r = none := by
  rw [decodeEntries]
  simp only [hk]

theorem decodeEntries_valueError (n : Nat) (r r1 r2 : List Byte) (key value : Value)
    (err : Error) (hk : Receive r = Outcome.ret key none r1)
    (hv : Receive r1 = Outcome.ret value (some err) r2) : decodeEntries (n + 1) r = none := by
  rw [decodeEntries]
  simp only [hk, hv]

theorem decodeEntries_badKey (n : Nat) (r r1 r2 : List Byte) (key value : Value)
    (hk : Receive r = Outcome.ret key none r1) (hv : Receive r1 = Outcome.ret value none r2)
    (hkey : ∀ k, key ≠ Value.string k) : decodeEntries (n + 1) r = none := by
  cases key <;>
    first
    | exact absurd rfl (hkey _)
    | (rw [decodeEntries]; simp only [hk, hv])

theorem decodeEntries_stuck (n : Nat) (r : List Byte)
    (hbad : (Receive r = Outcome.panic ∨ ∃ key r1, Receive r = Outcome.ret key none r1 ∧
      Receive r1 = Outcome.panic) ∨ (Receive r = Outcome.outOfFuel ∨
      ∃ key r1, Receive r = Outcome.ret key none r1 ∧ Receive r1 = Outcome.outOfFuel)) :
    decodeEntries (n + 1) r = none := by
  rcases hbad with (hk | ⟨key, r1, hk, hv⟩) | (hk | ⟨key, r1, hk, hv⟩)
  · rw [decodeEntries]; simp only [hk]
  · rw [decodeEntries]; simp only [hk, hv]
  · rw [decodeEntries]; simp only [hk]
  · rw [decodeEntries]; simp only [hk, hv]

theorem decodeEntries_length : ∀ (n : Nat) (r : List Byte) (entries : List (List Byte × Value))
    (rest : List Byte), decodeEntries n r = some (entries, rest) → entries.length = n := by
  intro n
  induction n with
  | zero =>
    intro r entries rest h
    rw [decodeEntries] at h
    simp only [Option.some.injEq, Prod.mk.injEq] at h
    rw [← h.1]; rfl
  | succ n ih =>
    intro r entries rest h
    rcases readDictionaryLoop_succ_cases Receive n r [] with
      ⟨key, err, r1, hk, -⟩ | ⟨key, r1, value, err, r2, hk, hv, -⟩
      | ⟨k, r1, value, r2, hk, hv, -⟩ | ⟨key, r1, value, r2, hk, hv, hkey, -⟩
      | ⟨hbad, -⟩ | ⟨hbad, -⟩
    · rw [decodeEntries_keyError n r r1 key err hk] at h; cases h
    · rw [decodeEntries_valueError n r r1 r2 key value err hk hv] at h; cases h
    · rw [decodeEntries_step n r r1 r2 k value hk hv] at h
      cases hd : decodeEntries n r2 with
      | none => rw [hd] at h; cases h
      | some p =>
        obtain ⟨es, rest1⟩ := p
        rw [hd] at h
        simp only [Option.map_some', Option.some.injEq, Prod.mk.injEq] at h
        rw [← h.1, List.length_cons, ih r2 es rest1 hd]
    · rw [decodeEntries_badKey n r r1 r2 key value hk hv hkey] at h; cases h
    · rw [decodeEntries_stuck n r (Or.inl hbad)] at h; cases h
    · rw [decodeEntries_stuck n r (Or.inr hbad)] at h; cases h

/-- The loop of `readDictionary` succeeds exactly when the entries can be decoded one after
the other, and then it returns them inserted, in order, into the map it started with. -/
theorem readDictionaryLoop_iff_decodeEntries : ∀ (n : Nat) (r : List Byte)
    (d : List (List Byte × Value)) (v : Value) (rest : List Byte),
    readDictionaryLoop Receive n r d = Outcome.ret v none rest ↔
      ∃ entries, decodeEntries n r = some (entries, rest) ∧
        v = Value.map (entries.foldl (fun d e => mapInsert d e.1 e.2) d) := by
  intro n
  induction n with
  | zero =>
    intro r d v rest
    rw [readDictionaryLoop_zero, decodeEntries]
    constructor
    · intro h
      obtain ⟨rfl, -, rfl⟩ := Outcome.ret.inj h
      exact ⟨[], rfl, rfl⟩
    · rintro ⟨entries, h1, h2⟩
      simp only [Option.some.injEq, Prod.mk.injEq] at h1
      obtain ⟨rfl, rfl⟩ := h1
      rw [h2]; rfl
  | succ n ih =>
    intro r d v rest
    rcases readDictionaryLoop_succ_cases Receive n r d with
      ⟨key, err, r1, hk, heq⟩ | ⟨key, r1, value, err, r2, hk, hv, heq⟩
      | ⟨k, r1, value, r2, hk, hv, heq⟩ | ⟨key, r1, value, r2, hk, hv, hkey, heq⟩
      | ⟨hbad, heq⟩ | ⟨hbad, heq⟩
    · rw [heq, decodeEntries_keyError n r r1 key err hk]
      constructor
      · intro h
        obtain ⟨-, h2, -⟩ := Outcome.ret.inj h
        cases h2
      · rintro ⟨entries, h1, -⟩; cases h1
    · rw [heq, decodeEntries_valueError n r r1 r2 key value err hk hv]
      constructor
      · intro h
        obtain ⟨-, h2, -⟩ := Outcome.ret.inj h
        cases h2
      · rintro ⟨entries, h1, -⟩; cases h1
    · rw [heq, decodeEntries_step n r r1 r2 k value hk hv, ih]
      constructor
      · rintro ⟨entries, h1, h2⟩
        exact ⟨(k, value) :: entries, by rw [h1]; rfl, by rw [h2]; rfl⟩
      · rintro ⟨entries, h1, h2⟩
        cases hd : decodeEntries n r2 with
        | none => rw [hd] at h1; cases h1
        | some p =>
          obtain ⟨es, rest1⟩ := p
          rw [hd] at h1
          simp only [Option.map_some', Option.some.injEq, Prod.mk.injEq] at h1
          obtain ⟨rfl, rfl⟩ := h1
          exact ⟨es, rfl, by rw [h2]; rfl⟩
    · rw [heq, decodeEntries_badKey n r r1 r2 key value hk hv hkey]
      constructor
      · intro h; cases h
      · rintro ⟨entries, h1, -⟩; cases h1
    · rw [heq, decodeEntries_stuck n r (Or.inl hbad)]
      constructor
      · intro h; cases h
      · rintro ⟨entries, h1, -⟩; cases h1
    · rw [heq, decodeEntries_stuck n r (Or.inr hbad)]
      constructor
      · intro h; cases h
      · rintro ⟨entries, h1, -⟩; cases h1

theorem mapInsert_length_mem (d : List (List Byte × Value)) (k : List Byte) (v : Value)
    (h : k ∈ d.map Prod.fst) : (mapInsert d k v).length = d.length := by
  induction d with
  | nil => simp at h
  | cons e t ih =>
    obtain ⟨k1, v1⟩ := e
    simp only [mapInsert]
    split_ifs with hk
    · simp
    · simp only [List.map_cons, List.mem_cons] at h
      rcases h with h | h
      · exact absurd h.symm hk
      · simp only [List.length_cons, ih h]

theorem mapInsert_keys (d : List (List Byte × Value)) (k : List Byte) (v : Value)
    (k1 : List Byte) :
    k1 ∈ (mapInsert d k v).map Prod.fst ↔ k1 = k ∨ k1 ∈ d.map Prod.fst := by
  induction d with
  | nil => simp [mapInsert]
  | cons e t ih =>
    obtain ⟨k2, v2⟩ := e
    simp only [mapInsert]
    split_ifs with hk
    · subst hk
      simp
    · simp only [List.map_cons, List.mem_cons, ih]
      tauto

/-- Inserting entries one after the other grows the map by their number only if their keys
are pairwise distinct and none was in the map before. -/
theorem foldl_mapInsert_length_eq (entries d : List (List Byte × Value))
    (h : (entries.foldl (fun d e => mapInsert d e.1 e.2) d).length = d.length + entries.length) :
    (entries.map Prod.fst).Nodup ∧ ∀ e ∈ entries, e.1 ∉ d.map Prod.fst := by
  induction entries generalizing d with
  | nil => simp
  | cons e t ih =>
    simp only [List.foldl_cons, List.length_cons] at h
    have h1 := foldl_mapInsert_length_le t (mapInsert d e.1 e.2)
    have h2 := mapInsert_length_le d e.1 e.2
    have hfresh : e.1 ∉ d.map Prod.fst := by
      intro hmem
      have := mapInsert_length_mem d e.1 e.2 hmem
      omega
    obtain ⟨hnodup, hrest⟩ := ih (mapInsert d e.1 e.2) (by omega)
    refine ⟨?_, ?_⟩
    · simp only [List.map_cons, List.nodup_cons]
      refine ⟨?_, hnodup⟩
      intro hmem
      obtain ⟨e1, he1, heq⟩ := List.mem_map.mp hmem
      exact hrest e1 he1 ((mapInsert_keys d e.1 e.2 e1.1).mpr (Or.inl heq))
    · intro e1 he1
      rcases List.mem_cons.mp he1 with rfl | he1
      · exact hfresh
      · intro hmem
        exact hrest e1 he1 ((mapInsert_keys d e.1 e.2 e1.1).mpr (Or.inr hmem))

theorem insertAll_length_eq_iff (entries : List (List Byte × Value)) :
    (insertAll entries).length = entries.length ↔ (entries.map Prod.fst).Nodup := by
  constructor
  · intro h
    exact (foldl_mapInsert_length_eq entries [] (by simpa [insertAll] using h)).1
  · intro h
    rw [insertAll_nodup entries h]

theorem Receive_mapPayload (input : List Byte) (N : Nat)
    (hN : declaredSize input = some N) :
    Receive input = readDictionaryLoop Receive N (mapPayload input) [] := by
  cases input with
  | nil => simp [declaredSize] at hN
  | cons h t =>
    rw [Receive_eq]
    simp only [declaredSize, mapPayload, List.length_cons] at hN ⊢
    split_ifs at hN ⊢ with c1 c2 c3 c4
    · have h4 : h.val >>> 4 = h.val / 16 := by simp [Nat.shiftRight_eq_div_pow]
      have hlt := h.isLt
      obtain ⟨j, hj, hhj⟩ : ∃ j, j < 16 ∧ h.val = 160 + j := ⟨h.val - 160, by omega, by omega⟩
      have hb := (tiny_size_bits j hj).2
      rw [← hhj] at hb
      rw [ReceiveFuel_dictionary16 _ _ _ c1, readDictionary_ReceiveFuel t _ t (le_refl _), hb]
      simp only [Option.some.injEq] at hN
      rw [hN]
    · cases t with
      | nil => simp at hN
      | cons b1 t2 =>
        simp only [Option.some.injEq, bigEndianValue, List.foldl_cons, List.foldl_nil] at hN
        rw [ReceiveFuel_dictionary255 _ _ _ c2, readInteger_one,
          readDictionary_ReceiveFuel (b1 :: t2) _ t2 (by simp)]
        have : ((b1.val : Nat) : Int).toNat = N := by omega
        simp only [this, List.drop_succ_cons, List.drop_zero]
    · match t, hN with
      | b1 :: b2 :: t2, hN =>
        simp only [Option.some.injEq, bigEndianValue, List.foldl_cons, List.foldl_nil] at hN
        rw [ReceiveFuel_dictionary65535 _ _ _ c3, readInteger_two,
          readDictionary_ReceiveFuel (b1 :: b2 :: t2) _ t2 (by simp; omega)]
        have : ((b1.val * 256 + b2.val : Nat) : Int).toNat = N := by omega
        simp only [this, List.drop_succ_cons, List.drop_zero]
    · match t, hN with
      | b1 :: b2 :: b3 :: b4 :: t2, hN =>
        simp only [Option.some.injEq, bigEndianValue, List.foldl_cons, List.foldl_nil] at hN
        rw [ReceiveFuel_dictionaryMax _ _ _ c4, readInteger_four,
          readDictionary_ReceiveFuel (b1 :: b2 :: b3 :: b4 :: t2) _ t2 (by simp; omega)]
        have : ((b1.val * 16777216 + b2.val * 65536 + b3.val * 256 + b4.val : Nat) : Int).toNat
            = N := by omega
        simp only [this, List.drop_succ_cons, List.drop_zero]

/-- C14, amended. On an input starting with a map marker that declares `N` entries,
`Receive` succeeds exactly when `N` successive pairs of nested `Receive` calls decode `N`
entries (text key, value) from the bytes that follow the marker and its size field; it then
leaves unread what the last of these calls left, and the returned map is the result of
inserting those `N` entries, in the order decoded, into an empty map (a repeated key keeps
only the value decoded last). The map has at most `N` entries, and exactly `N` if and only
if the decoded keys are pairwise distinct. -/
theorem Receive_map_size (input : List Byte) (N : Nat)
    (hN : declaredSize input = some N) :
    (∀ (v : Value) (rest : List Byte), Receive input = Outcome.ret v none rest →
      ∃ entries : List (List Byte × Value),
        decodeEntries N (mapPayload input) = some (entries, rest)
        ∧ entries.length = N
        ∧ v = Value.map (insertAll entries)
        ∧ (insertAll entries).length ≤ N
        ∧ ((insertAll entries).length = N ↔ (entries.map Prod.fst).Nodup))
    ∧ (∀ (entries : List (List Byte × Value)) (rest : List Byte),
        decodeEntries N (mapPayload input) = some (entries, rest) →
        Receive input = Outcome.ret (Value.map (insertAll entries)) none rest) := by
  have hloop := Receive_mapPayload input N hN
  constructor
  · intro v rest hret
    rw [hloop] at hret
    obtain ⟨entries, hdec, hv⟩ := (readDictionaryLoop_iff_decodeEntries _ _ _ _ _).mp hret
    have hlen := decodeEntries_length _ _ _ _ hdec
    refine ⟨entries, hdec, hlen, hv, ?_, ?_⟩
    · rw [← hlen]; exact insertAll_length_le entries
    · rw [← hlen]; exact insertAll_length_eq_iff entries
  · intro entries rest hdec
    rw [hloop]
    exact (readDictionaryLoop_iff_decodeEntries _ _ _ _ _).mpr ⟨entries, hdec, rfl⟩

theorem Receive_map_size_witness :
    declaredSize [0xA3, 0x81, 0x41, 0x01, 0x81, 0x42, 0x02, 0x81, 0x43, 0x03, 0xC0] = some 3
    ∧ decodeEntries 3
        (mapPayload [0xA3, 0x81, 0x41, 0x01, 0x81, 0x42, 0x02, 0x81, 0x43, 0x03, 0xC0]) =
        some ([([0x41], Value.int64 1), ([0x42], Value.int64 2), ([0x43], Value.int64 3)],
          [0xC0])
    ∧ Receive [0xA3, 0x81, 0x41, 0x01, 0x81, 0x42, 0x02, 0x81, 0x43, 0x03, 0xC0] =
        Outcome.ret (Value.map (insertAll
          [([0x41], Value.int64 1), ([0x42], Value.int64 2), ([0x43], Value.int64 3)]))
          none [0xC0]
    ∧ insertAll [([0x41], Value.int64 1), ([0x42], Value.int64 2), ([0x43], Value.int64 3)] =
        [([0x41], Value.int64 1), ([0x42], Value.int64 2), ([0x43], Value.int64 3)] :=
  ⟨by decide, by rfl,
    (Receive_map_size [0xA3, 0x81, 0x41, 0x01, 0x81, 0x42, 0x02, 0x81, 0x43, 0x03, 0xC0] 3
      (by decide)).2 _ [0xC0] (by rfl),
    by rfl⟩

theorem int64_of_range (i : Int) (hlo : -9223372036854775808 ≤ i)
    (hhi : i < 9223372036854775808) : int64 i = i := by
  unfold int64
  split_ifs <;> omega

theorem int64_twosComplement_wrap (i : Int) :
    int64 (((byte ((i % 18446744073709551616).toNat / 72057594037927936)).val * 72057594037927936
      + (byte ((i % 18446744073709551616).toNat / 281474976710656)).val * 281474976710656
      + (byte ((i % 18446744073709551616).toNat / 1099511627776)).val * 1099511627776
      + (byte ((i % 18446744073709551616).toNat / 4294967296)).val * 4294967296
      + (byte ((i % 18446744073709551616).toNat / 16777216)).val * 16777216
      + (byte ((i % 18446744073709551616).toNat / 65536)).val * 65536
      + (byte ((i % 18446744073709551616).toNat / 256)).val * 256
      + (byte (i % 18446744073709551616).toNat).val : Nat) : Int) = int64 i := by
  simp only [byte_val, int64]
  split_ifs <;> omega

/-- What `Receive` returns on the bytes `SendInt` writes, for any number: the `int64` that Go's
conversion gives. -/
theorem ReceiveFuel_SendInt_wrap (fuel : Nat) (i : Int) (rest : List Byte) :
    ReceiveFuel (fuel + 1) ((SendInt bytesBuffer [] i).1 ++ rest) =
      Outcome.ret (Value.int64 (int64 i)) none rest := by
  by_cases hr : -9223372036854775808 ≤ i ∧ i < 9223372036854775808
  · rw [ReceiveFuel_SendInt fuel i rest hr.1 hr.2, int64_of_range i hr.1 hr.2]
  · have hbytes : (SendInt bytesBuffer [] i).1 = 0xCB :: twosComplement 8 i := by
      rw [SendInt_buffer]
      simp only [List.nil_append]
      split_ifs <;> first | rfl | (exfalso; omega)
    rw [hbytes, twosComplement_eight]
    simp only [List.cons_append, List.nil_append]
    rw [ReceiveFuel_int64 _ _ _ _ _ _ _ _ _ _ _ rfl, int64_twosComplement_wrap i]

theorem readString_zero (r : List Byte) : readString 0 r = ([], none, r) :=
  readString_append [] r

mutual
theorem ReceiveFuel_SendValue_received : ∀ (v : Value), v.encodable = true →
    v.withinLimits = true →
    ∀ (fuel : Nat) (rest : List Byte), (SendValue bytesBuffer [] v).1.length ≤ fuel →
      ReceiveFuel fuel ((SendValue bytesBuffer [] v).1 ++ rest) =
        Outcome.ret v.received none rest
  | .nil, _, _, fuel, rest, hf => by
    rw [Value.received]
    exact ReceiveFuel_SendValue Value.nil rfl fuel rest hf
  | .bool b, _, _, fuel, rest, hf => by
    rw [Value.received]
    exact ReceiveFuel_SendValue (Value.bool b) rfl fuel rest hf
  | .int i, _, _, fuel, rest, hf => by
    obtain ⟨f, rfl⟩ : ∃ f, fuel = f + 1 :=
      ⟨fuel - 1, by simp only [SendValue, SendInt_length] at hf; omega⟩
    simp only [SendValue, Value.received]
    exact ReceiveFuel_SendInt_wrap f i rest
  | .int64 i, _, _, fuel, rest, hf => by
    obtain ⟨f, rfl⟩ : ∃ f, fuel = f + 1 :=
      ⟨fuel - 1, by simp only [SendValue, SendInt_length] at hf; omega⟩
    simp only [SendValue, Value.received]
    exact ReceiveFuel_SendInt_wrap f i rest
  | .string s, _, hl, fuel, rest, hf => by
    rw [Value.received]
    exact ReceiveFuel_SendValue (Value.string s)
      (by simpa [Value.wellFormed, Value.withinLimits] using hl) fuel rest hf
  | .map es, he, hl, fuel, rest, hf => by
    simp only [Value.withinLimits, Bool.and_eq_true, decide_eq_true_eq] at hl
    simp only [Value.encodable] at he
    obtain ⟨hlen, hlim⟩ := hl
    rw [SendValue_map, SendDictionary_buffer] at hf ⊢
    simp only [List.nil_append, List.length_append] at hf ⊢
    have hpos := sizeMarker_length_pos es.length
    obtain ⟨f, rfl⟩ : ∃ f, fuel = f + 1 := ⟨fuel - 1, by omega⟩
    rw [List.append_assoc, ReceiveFuel_sizeMarker f es.length _ hlen, readDictionary,
      readDictionaryLoop_sendEntries_received es he hlim f rest [] (by omega), Value.received,
      insertAll]
  | .nilMap, _, _, fuel, rest, hf => by
    have hbytes : SendValue bytesBuffer [] Value.nilMap = (sizeMarker 0, none) := by
      simp [SendValue, sendDictionaryMarker_buffer]
    rw [hbytes] at hf ⊢
    have hpos := sizeMarker_length_pos 0
    obtain ⟨f, rfl⟩ : ∃ f, fuel = f + 1 := ⟨fuel - 1, by simp only at hf; omega⟩
    rw [ReceiveFuel_sizeMarker f 0 rest (by decide), readDictionary, readDictionaryLoop_zero,
      Value.received]
  | .unsupported _, he, _, _, _, _ => by simp [Value.encodable] at he
theorem readDictionaryLoop_sendEntries_received : ∀ (es : List (List Byte × Value)),
    entriesEncodable es = true → entriesWithinLimits es = true →
    ∀ (fuel : Nat) (rest : List Byte) (dictionary : List (List Byte × Value)),
      (sendEntries bytesBuffer [] es).1.length ≤ fuel →
      readDictionaryLoop (ReceiveFuel fuel) es.length
          ((sendEntries bytesBuffer [] es).1 ++ rest) dictionary =
        Outcome.ret (Value.map
          ((receivedEntries es).foldl (fun d e => mapInsert d e.1 e.2) dictionary)) none rest
  | [], _, _, fuel, rest, dictionary, _ => by
    simp [sendEntries, readDictionaryLoop, receivedEntries]
  | (key, value) :: t, he, hl, fuel, rest, dictionary, hf => by
    simp only [entriesWithinLimits, Bool.and_eq_true, decide_eq_true_eq] at hl
    simp only [entriesEncodable, Bool.and_eq_true] at he
    obtain ⟨⟨hkey, hvalue⟩, ht⟩ := hl
    have henc := SendValue_encodable value he.1
    have hvpos := SendValue_length_pos value he.1
    rw [sendEntries_cons_buffer key value t henc] at hf ⊢
    simp only [List.length_append] at hf
    obtain ⟨f, rfl⟩ : ∃ f, fuel = f + 1 := ⟨fuel - 1, by omega⟩
    have hk : ReceiveFuel (f + 1) ((SendString bytesBuffer [] key).1
        ++ ((SendValue bytesBuffer [] value).1 ++ ((sendEntries bytesBuffer [] t).1 ++ rest))) =
        Outcome.ret (Value.string key) none
          ((SendValue bytesBuffer [] value).1 ++ ((sendEntries bytesBuffer [] t).1 ++ rest)) :=
      ReceiveFuel_SendString f key _ hkey
    have hv := ReceiveFuel_SendValue_received value he.1 hvalue (f + 1)
      ((sendEntries bytesBuffer [] t).1 ++ rest) (by omega)
    simp only [List.length_cons, List.append_assoc]
    rw [readDictionaryLoop_step _ _ _ _ _ _ _ _ hk hv,
      readDictionaryLoop_sendEntries_received t he.2 ht (f + 1) rest _ (by omega)]
    simp only [receivedEntries, List.foldl_cons]
end

theorem receivedEntries_keys (es : List (List Byte × Value)) :
    (receivedEntries es).map Prod.fst = es.map Prod.fst := by
  induction es with
  | nil => simp [receivedEntries]
  | cons e t ih =>
    obtain ⟨k, v⟩ := e
    simp [receivedEntries, ih]

mutual
theorem wellFormed_received : ∀ (v : Value), v.wellFormed = true → v.received = v
  | .nil, _ => by rw [Value.received]
  | .bool _, _ => by rw [Value.received]
  | .int _, h => by simp [Value.wellFormed] at h
  | .int64 i, h => by
    simp only [Value.wellFormed, decide_eq_true_eq] at h
    rw [Value.received, int64_of_range i h.1 h.2]
  | .string _, _ => by rw [Value.received]
  | .map es, h => by
    simp only [Value.wellFormed, Bool.and_eq_true, decide_eq_true_eq] at h
    rw [Value.received, entriesWellFormed_received es h.2, insertAll_nodup es h.1.2]
  | .nilMap, h => by simp [Value.wellFormed] at h
  | .unsupported _, h => by simp [Value.wellFormed] at h
theorem entriesWellFormed_received : ∀ (es : List (List Byte × Value)),
    entriesWellFormed es = true → receivedEntries es = es
  | [], _ => by rw [receivedEntries]
  | (key, value) :: rest, h => by
    simp only [entriesWellFormed, Bool.and_eq_true] at h
    rw [receivedEntries, wellFormed_received value h.1.2, entriesWellFormed_received rest h.2]
end

mutual
theorem wellFormed_withinLimits : ∀ (v : Value), v.wellFormed = true → v.withinLimits = true
  | .nil, _ => rfl
  | .bool _, _ => rfl
  | .int _, _ => rfl
  | .int64 _, _ => rfl
  | .string _, h => by simpa [Value.wellFormed, Value.withinLimits] using h
  | .map es, h => by
    simp only [Value.wellFormed, Bool.and_eq_true, decide_eq_true_eq] at h
    simp only [Value.withinLimits, Bool.and_eq_true, decide_eq_true_eq]
    exact ⟨h.1.1, entriesWellFormed_withinLimits es h.2⟩
  | .nilMap, _ => rfl
  | .unsupported _, _ => rfl
theorem entriesWellFormed_withinLimits : ∀ (es : List (List Byte × Value)),
    entriesWellFormed es = true → entriesWithinLimits es = true
  | [], _ => rfl
  | (key, value) :: rest, h => by
    simp only [entriesWellFormed, Bool.and_eq_true, decide_eq_true_eq] at h
    simp only [entriesWithinLimits, Bool.and_eq_true, decide_eq_true_eq]
    exact ⟨⟨h.1.1, wellFormed_withinLimits value h.1.2⟩, entriesWellFormed_withinLimits rest h.2⟩
end

theorem Receive_SendValue_received (v : Value) (r : List Byte) (he : v.encodable = true)
    (hl : v.withinLimits = true) :
    Receive ((SendValue bytesBuffer [] v).1 ++ r) = Outcome.ret v.received none r := by
  rw [Receive_eq]
  exact ReceiveFuel_SendValue_received v he hl _ r (by simp; omega)

theorem receiveMany_received (vs : List Value) (r : List Byte)
    (h : ∀ v ∈ vs, v.encodable = true ∧ v.withinLimits = true) :
    receiveMany vs.length ((vs.map (fun v => (SendValue bytesBuffer [] v).1)).flatten ++ r)
      = (vs.map Value.received, r) := by
  induction vs with
  | nil => simp [receiveMany]
  | cons v t ih =>
    have hv := h v (List.mem_cons_self _ _)
    simp only [List.length_cons, List.map_cons, List.flatten_cons, List.append_assoc]
    rw [receiveMany, Receive_SendValue_received v _ hv.1 hv.2]
    dsimp only
    rw [ih (fun x hx => h x (List.mem_cons_of_mem _ hx))]

theorem textHeader_wraps : textHeader 4294967296 = [0xD2, 0, 0, 0, 0] := by
  decide

theorem sizeMarker_wraps : sizeMarker 4294967296 = [0xDA, 0, 0, 0, 0] := by
  decide

theorem ReceiveFuel_string_length_zero (fuel : Nat) (r : List Byte) :
    ReceiveFuel (fuel + 1) (0xD2 :: 0 :: 0 :: 0 :: 0 :: r) =
      Outcome.ret (Value.string []) none r := by
  rw [ReceiveFuel_stringMax _ _ _ rfl, readInteger_four]
  have hsize : ((((0 : Byte).val * 16777216 + (0 : Byte).val * 65536
      + (0 : Byte).val * 256 + (0 : Byte).val : Nat) : Int)).toNat = 0 := by
    decide
  simp only [hsize, readString_zero]

/-- A map whose single key has exactly `2 ^ 32` bytes, the first of them `0x41`: the key is
written with the length field 0, and `Receive` reads the key back as the empty string, takes
the first byte of the key for the value (the tiny integer 65) and leaves the other bytes of
the key and the value unread. -/
theorem Receive_key_of_wrapped_length (t r : List Byte)
    (h : ((0x41 : Byte) :: t).length = 4294967296) :
    SendValue bytesBuffer [] (Value.map [(0x41 :: t, Value.nil)]) =
      (0xA1 :: 0xD2 :: 0 :: 0 :: 0 :: 0 :: 0x41 :: (t ++ [0xC0]), none)
    ∧ Receive ((SendValue bytesBuffer [] (Value.map [(0x41 :: t, Value.nil)])).1 ++ r) =
        Outcome.ret (Value.map [([], Value.int64 65)]) none (t ++ 0xC0 :: r) := by
  have hbytes : SendValue bytesBuffer [] (Value.map [(0x41 :: t, Value.nil)]) =
      (0xA1 :: 0xD2 :: 0 :: 0 :: 0 :: 0 :: 0x41 :: (t ++ [0xC0]), none) := by
    have hmarker : sizeMarker 1 = [0xA1] := by decide
    have hnil : SendValue bytesBuffer [] Value.nil = ([0xC0], none) := by decide
    rw [SendValue_map, SendDictionary_buffer,
      sendEntries_cons_buffer _ _ _ (SendValue_encodable Value.nil rfl), SendString_buffer, h,
      textHeader_wraps, hnil]
    simp [sendEntries, hmarker]
  refine ⟨hbytes, ?_⟩
  rw [hbytes, Receive_eq]
  simp only [List.cons_append, List.length_cons, List.append_assoc, List.nil_append]
  have hsize : 0xA0 ^^^ (0xA1 : Byte).val = 0 + 1 := by decide
  rw [ReceiveFuel_dictionary16 _ _ _ (by decide), hsize, readDictionary,
    readDictionaryLoop_step _ _ _ _ _ _ _ _ (ReceiveFuel_string_length_zero _ _)
      (ReceiveFuel_tiny _ _ _ (Or.inl (by decide))),
    readDictionaryLoop_zero]
  rfl

/-- A string of exactly `2 ^ 32` bytes is written with the length field 0, and `Receive`
reads it back as the empty string, leaving all of its bytes unread. -/
theorem Receive_string_of_wrapped_length (s r : List Byte) (h : s.length = 4294967296) :
    SendValue bytesBuffer [] (Value.string s) = (0xD2 :: 0 :: 0 :: 0 :: 0 :: s, none)
    ∧ Receive ((SendValue bytesBuffer [] (Value.string s)).1 ++ r) =
        Outcome.ret (Value.string []) none (s ++ r) := by
  have hbytes : SendValue bytesBuffer [] (Value.string s) =
      (0xD2 :: 0 :: 0 :: 0 :: 0 :: s, none) := by
    rw [SendValue, SendString_buffer, h, textHeader_wraps]
    rfl
  refine ⟨hbytes, ?_⟩
  rw [hbytes, Receive_eq]
  exact ReceiveFuel_string_length_zero _ _

/-- A map of exactly `2 ^ 32` entries is written with the size field 0, and `Receive` reads it
back as the empty map, leaving the bytes of all its entries unread. -/
theorem Receive_map_of_wrapped_size (es : List (List Byte × Value)) (r : List Byte)
    (h : es.length = 4294967296) (he : entriesEncodable es = true) :
    SendValue bytesBuffer [] (Value.map es) =
      (0xDA :: 0 :: 0 :: 0 :: 0 :: (sendEntries bytesBuffer [] es).1, none)
    ∧ Receive ((SendValue bytesBuffer [] (Value.map es)).1 ++ r) =
        Outcome.ret (Value.map []) none ((sendEntries bytesBuffer [] es).1 ++ r) := by
  have hbytes : SendValue bytesBuffer [] (Value.map es) =
      (0xDA :: 0 :: 0 :: 0 :: 0 :: (sendEntries bytesBuffer [] es).1, none) := by
    rw [SendValue_map, SendDictionary_buffer, h, sizeMarker_wraps, sendEntries_encodable es he]
    rfl
  refine ⟨hbytes, ?_⟩
  rw [hbytes, Receive_eq]
  simp only [List.cons_append]
  rw [ReceiveFuel_dictionaryMax _ _ _ rfl, readInteger_four]
  have hsize : ((((0 : Byte).val * 16777216 + (0 : Byte).val * 65536
      + (0 : Byte).val * 256 + (0 : Byte).val : Nat) : Int)).toNat = 0 := by
    decide
  simp only [hsize]
  rw [readDictionary, readDictionaryLoop_zero]

theorem bigEndian_four_injOn (a b : Nat) (ha : a < 4294967296) (hb : b < 4294967296)
    (h : bigEndian 4 a = bigEndian 4 b) : a = b := by
  simp only [bigEndian_four, byte, List.cons.injEq, Fin.mk.injEq, and_true] at h
  omega

/-- The entries `(bigEndian 4 n, nil)` for `n < count`, with `count` at most `2 ^ 32`: their
keys are pairwise distinct, their values are encodable, and their encoding is not empty. -/
theorem numbered_entries (count : Nat) (hpos : 0 < count) (hle : count ≤ 4294967296) :
    (((List.range count).map (fun n => (bigEndian 4 n, Value.nil))).length = count)
    ∧ (((List.range count).map (fun n => (bigEndian 4 n, Value.nil))).map Prod.fst).Nodup
    ∧ entriesEncodable ((List.range count).map (fun n => (bigEndian 4 n, Value.nil))) = true
    ∧ (sendEntries bytesBuffer []
        ((List.range count).map (fun n => (bigEndian 4 n, Value.nil)))).1 ≠ [] := by
  have henc : ∀ e ∈ (List.range count).map (fun n => (bigEndian 4 n, Value.nil)),
      e.2.encodable = true := by
    intro e he
    obtain ⟨n, -, rfl⟩ := List.mem_map.mp he
    rfl
  refine ⟨by rw [List.length_map, List.length_range], ?_, (entriesEncodable_iff _).mpr henc, ?_⟩
  · rw [List.map_map]
    refine List.Nodup.map_on ?_ (List.nodup_range count)
    intro a ha b hb hab
    exact bigEndian_four_injOn a b (by have := List.mem_range.mp ha; omega)
      (by have := List.mem_range.mp hb; omega) hab
  · rw [sendEntries_flatten _ henc]
    intro hnil
    have hall := List.flatten_eq_nil_iff.mp hnil
    have hmem : (SendString bytesBuffer [] (bigEndian 4 0)).1
        ++ (SendValue bytesBuffer [] Value.nil).1 ∈
        ((List.range count).map (fun n => (bigEndian 4 n, Value.nil))).map
          (fun e => (SendString bytesBuffer [] e.1).1 ++ (SendValue bytesBuffer [] e.2).1) :=
      List.mem_map.mpr ⟨(bigEndian 4 0, Value.nil),
        List.mem_map.mpr ⟨0, List.mem_range.mpr hpos, rfl⟩, rfl⟩
    have h0 := hall _ hmem
    have hlen := SendValue_length_pos Value.nil rfl
    rw [List.append_eq_nil] at h0
    rw [h0.2] at hlen
    exact absurd hlen (by decide)

theorem encodable_string (s : List Byte) : (Value.string s).encodable = true := by
  rw [Value.encodable]

theorem encodable_map (es : List (List Byte × Value)) (h : entriesEncodable es = true) :
    (Value.map es).encodable = true := by
  rw [Value.encodable]
  exact h

theorem encodable_singleton_nil (k : List Byte) :
    (Value.map [(k, Value.nil)]).encodable = true := by
  simp [Value.encodable, entriesEncodable]

theorem append_cons_ne (a r : List Byte) (b : Byte) : a ++ b :: r ≠ r := by
  intro heq
  have hlen := congrArg List.length heq
  rw [List.length_append, List.length_cons] at hlen
  omega

theorem append_ne_of_ne_nil (a r : List Byte) (h : a ≠ []) : a ++ r ≠ r := by
  intro heq
  have hlen := congrArg List.length heq
  rw [List.length_append] at hlen
  have := List.length_pos.mpr h
  omega

/-- C18, as stated, fails, in five ways. The `int` 5 is encodable and comes back as the
`int64` 5, and the nil map comes back as an empty map: `Receive` leaves exactly `r` unread
but does not return the value written. A string of `2 ^ 32` bytes is written with the length
field 0: `Receive` returns the empty string and leaves the `2 ^ 32` bytes of the string unread
in front of `r`. A map of `2 ^ 32` entries with pairwise distinct keys is written with the
size field 0: `Receive` returns the empty map and leaves the bytes of all the entries unread
in front of `r`. A map with one key of `2 ^ 32` bytes comes back as a map with the empty key,
with `2 ^ 32 - 1` bytes of the key and the byte of the value left unread in front of `r`. -/
theorem Receive_returns_other_value :
    ((Value.int 5).encodable = true
      ∧ SendValue bytesBuffer [] (Value.int 5) = ([0x05], none)
      ∧ Receive ((SendValue bytesBuffer [] (Value.int 5)).1 ++ [0xC0]) =
          Outcome.ret (Value.int64 5) none [0xC0]
      ∧ Value.int64 5 ≠ Value.int 5)
    ∧ (Value.nilMap.encodable = true
      ∧ SendValue bytesBuffer [] Value.nilMap = ([0xA0], none)
      ∧ Receive ((SendValue bytesBuffer [] Value.nilMap).1 ++ [0xC0]) =
          Outcome.ret (Value.map []) none [0xC0]
      ∧ Value.map [] ≠ Value.nilMap)
    ∧ ((Value.string (List.replicate 4294967296 0x41)).encodable = true
      ∧ SendValue bytesBuffer [] (Value.string (List.replicate 4294967296 0x41)) =
          (0xD2 :: 0 :: 0 :: 0 :: 0 :: List.replicate 4294967296 0x41, none)
      ∧ Receive ((SendValue bytesBuffer [] (Value.string (List.replicate 4294967296 0x41))).1
            ++ [0xC0]) =
          Outcome.ret (Value.string []) none (List.replicate 4294967296 0x41 ++ [0xC0])
      ∧ List.replicate 4294967296 (0x41 : Byte) ++ [0xC0] ≠ [0xC0])
    ∧ ((Value.map ((List.range 4294967296).map (fun n => (bigEndian 4 n, Value.nil)))).encodable
          = true
      ∧ ((List.range 4294967296).map (fun n => (bigEndian 4 n, Value.nil))).length = 4294967296
      ∧ (((List.range 4294967296).map (fun n => (bigEndian 4 n, Value.nil))).map
          Prod.fst).Nodup
      ∧ Receive ((SendValue bytesBuffer []
            (Value.map ((List.range 4294967296).map (fun n => (bigEndian 4 n, Value.nil))))).1
            ++ [0xC0]) =
          Outcome.ret (Value.map []) none
            ((sendEntries bytesBuffer []
              ((List.range 4294967296).map (fun n => (bigEndian 4 n, Value.nil)))).1 ++ [0xC0])
      ∧ (sendEntries bytesBuffer []
            ((List.range 4294967296).map (fun n => (bigEndian 4 n, Value.nil)))).1 ++ [0xC0]
          ≠ [0xC0])
    ∧ ((Value.map [(0x41 :: List.replicate 4294967295 0x41, Value.nil)]).encodable = true
      ∧ ((0x41 : Byte) :: List.replicate 4294967295 0x41).length = 4294967296
      ∧ Receive ((SendValue bytesBuffer []
            (Value.map [(0x41 :: List.replicate 4294967295 0x41, Value.nil)])).1 ++ [0xC2]) =
          Outcome.ret (Value.map [([], Value.int64 65)]) none
            (List.replicate 4294967295 0x41 ++ 0xC0 :: [0xC2])
      ∧ List.replicate 4294967295 (0x41 : Byte) ++ 0xC0 :: [0xC2] ≠ [0xC2]) :=
  ⟨⟨by rfl, by decide, by rfl, by intro h; cases h⟩,
    ⟨by rfl, by decide, by rfl, by intro h; cases h⟩,
    ⟨encodable_string _,
      (Receive_string_of_wrapped_length _ [0xC0] (List.length_replicate _ _)).1,
      (Receive_string_of_wrapped_length _ [0xC0] (List.length_replicate _ _)).2,
      append_ne_of_ne_nil _ _ (fun h => absurd (congrArg List.length h)
        (by rw [List.length_replicate]; decide))⟩,
    ⟨encodable_map _ (numbered_entries 4294967296 (by decide) (le_refl _)).2.2.1,
      (numbered_entries 4294967296 (by decide) (le_refl _)).1,
      (numbered_entries 4294967296 (by decide) (le_refl _)).2.1,
      (Receive_map_of_wrapped_size _ [0xC0]
        (numbered_entries 4294967296 (by decide) (le_refl _)).1
        (numbered_entries 4294967296 (by decide) (le_refl _)).2.2.1).2,
      append_ne_of_ne_nil _ _ (numbered_entries 4294967296 (by decide) (le_refl _)).2.2.2⟩,
    ⟨encodable_singleton_nil _,
      by rw [List.length_cons, List.length_replicate],
      (Receive_key_of_wrapped_length _ [0xC2]
        (by rw [List.length_cons, List.length_replicate])).2,
      append_cons_ne _ _ _⟩⟩

/-- C18, amended. Exact consumption: for every encodable value `v` whose strings (map keys
included) are shorter than `2^32` bytes and whose maps have fewer than `2^32` entries, and
every byte sequence `r`, `SendValue` writes `v` without error and `Receive` on a source
holding the written bytes followed by `r` succeeds and leaves exactly `r` unread. The value
returned is `v` with every `int` turned into the `int64` of the same number and every nil map
into an empty map, at any depth; it is `v` itself when `v` is built from `nil`, `bool`,
`int64`, strings and maps with unique keys. Hence `n` such values written back to back are
returned, in order and in that form, by `n` successive `Receive` calls, which leave exactly
`r`. -/
theorem Receive_exact_consumption (r : List Byte) :
    (∀ v : Value, v.encodable = true → v.withinLimits = true →
      (SendValue bytesBuffer [] v).2 = none
      ∧ Receive ((SendValue bytesBuffer [] v).1 ++ r) = Outcome.ret v.received none r)
    ∧ (∀ vs : List Value, (∀ v ∈ vs, v.encodable = true ∧ v.withinLimits = true) →
      receiveMany vs.length (sendAll vs ++ r) = (vs.map Value.received, r))
    ∧ (∀ v : Value, v.wellFormed = true →
      v.encodable = true ∧ v.withinLimits = true ∧ v.received = v)
    ∧ (∀ i : Int, -9223372036854775808 ≤ i → i < 9223372036854775808 →
      (Value.int i).received = Value.int64 i ∧ (Value.int64 i).received = Value.int64 i)
    ∧ Value.nilMap.received = Value.map []
    ∧ (∀ es : List (List Byte × Value), (es.map Prod.fst).Nodup →
      (Value.map es).received = Value.map (receivedEntries es)) := by
  refine ⟨fun v he hl => ⟨SendValue_encodable v he, Receive_SendValue_received v r he hl⟩,
    fun vs hvs => ?_,
    fun v hv => ⟨wellFormed_encodable v hv, wellFormed_withinLimits v hv,
      wellFormed_received v hv⟩,
    fun i hlo hhi => ?_, by rw [Value.received], fun es hes => ?_⟩
  · rw [sendAll, foldl_SendValue_buffer, List.nil_append]
    exact receiveMany_received vs r hvs
  · rw [Value.received, Value.received, int64_of_range i hlo hhi]
    exact ⟨rfl, rfl⟩
  · rw [Value.received, insertAll_nodup _ (by rw [receivedEntries_keys]; exact hes)]

theorem Receive_exact_consumption_witness :
    (Value.map [([0x6B], Value.int 5), ([0x6D], Value.nilMap)]).encodable = true
    ∧ (Value.map [([0x6B], Value.int 5), ([0x6D], Value.nilMap)]).withinLimits = true
    ∧ SendValue bytesBuffer [] (Value.map [([0x6B], Value.int 5), ([0x6D], Value.nilMap)]) =
        ([0xA2, 0x81, 0x6B, 0x05, 0x81, 0x6D, 0xA0], none)
    ∧ (Value.map [([0x6B], Value.int 5), ([0x6D], Value.nilMap)]).received =
        Value.map [([0x6B], Value.int64 5), ([0x6D], Value.map [])]
    ∧ ((SendValue bytesBuffer []
          (Value.map [([0x6B], Value.int 5), ([0x6D], Value.nilMap)])).2 = none
      ∧ Receive ((SendValue bytesBuffer []
          (Value.map [([0x6B], Value.int 5), ([0x6D], Value.nilMap)])).1 ++ [0xC2]) =
        Outcome.ret (Value.map [([0x6B], Value.int 5), ([0x6D], Value.nilMap)]).received
          none [0xC2]) :=
  ⟨by decide, by decide, by decide, by rfl,
    (Receive_exact_consumption [0xC2]).1
      (Value.map [([0x6B], Value.int 5), ([0x6D], Value.nilMap)]) (by decide) (by decide)⟩

end PackStream
